import Mathlib

/-!
# QtPowerGoo: the pixel kernels of the three Qt demos

A shallow embedding of the image kernels of
* `src/main.cpp` (`GooWidget::sampleBilinear`, `GooWidget::applyWarp`),
* `src/QFusionRoom/main.cpp` (`FusionCanvas::updateFusion`),
* `src/FusionAnimation/fusion.cpp` (`generateFractal`, `blendFusion`).

Conventions of the embedding.

* A C++ `float` or `double` value is a rational number.  Every floating
  operation of the source is the exact rational operation followed by rounding
  to nearest, ties to even, at 24 bits (`f32`) or 53 bits (`f64`) of
  precision, one rounding per operation in the type C++ gives the operation
  (no excess precision, no fused multiply-add).  The exponent range is
  unbounded: overflow, underflow, infinities and NaN are outside the model.
  `qreal` is `double` (Qt 5).
* `sqrt`, `sin`, `cos` and `QVector2D::normalized` are library calls whose
  results are not fixed by the repository; they are the fields of `Lib`.
* `QColor` keeps four 16 bit channels and a validity flag, `QImage` is a
  width, a height and a pixel function; their operations follow the Qt 5
  behaviour of the calls the source makes.
* A freshly constructed `QImage(size, format)` has unspecified contents: the
  functions that build one take those contents as the argument `fresh`.
* A `for` loop is a fold over its index range (`forLoop`); the `while` loop of
  the fractal runs on fuel, and is proved to stop before the fuel does.
-/

namespace QtPowerGoo

/-! ## Floating point arithmetic -/

/-- Nearest integer, a tie going to the even neighbour. -/
def roundHalfEven (x : ℚ) : ℤ :=
  if x - ⌊x⌋ < 1 / 2 then ⌊x⌋
  else if 1 / 2 < x - ⌊x⌋ then ⌊x⌋ + 1
  else if ⌊x⌋ % 2 = 0 then ⌊x⌋ else ⌊x⌋ + 1

/-- Rounding of `q` to `p` significant bits, nearest with ties to even:
with `2 ^ e ≤ |q| < 2 ^ (e + 1)` the result is the nearest multiple of
`2 ^ (e - p + 1)`. -/
def roundBin (p : ℕ) (q : ℚ) : ℚ :=
  if q = 0 then 0
  else (roundHalfEven (q / 2 ^ (Int.log 2 |q| - p + 1)) : ℚ) * 2 ^ (Int.log 2 |q| - p + 1)

/-- Rounding to a C++ `float` (binary32, 24 bit significand). -/
def f32 (q : ℚ) : ℚ := roundBin 24 q

/-- Rounding to a C++ `double` (binary64, 53 bit significand). -/
def f64 (q : ℚ) : ℚ := roundBin 53 q

/-- Conversion of a floating value to `int`: truncation toward zero. -/
def toInt (q : ℚ) : ℤ := if 0 ≤ q then ⌊q⌋ else ⌈q⌉

/-- Qt `qFloor`: `int(floor(v))`. -/
def qFloor (v : ℚ) : ℤ := ⌊v⌋

/-- Qt 5 `qRound(double d)`:
`d >= 0.0 ? int(d + 0.5) : int(d - double(int(d-1)) + 0.5) + int(d-1)`. -/
def qRound (d : ℚ) : ℤ :=
  if 0 ≤ d then toInt (f64 (d + 1 / 2))
  else toInt (f64 (f64 (d - (toInt (f64 (d - 1)) : ℚ)) + 1 / 2)) + toInt (f64 (d - 1))

/-- A point with `qreal` coordinates. -/
structure QPointF where
  x : ℚ
  y : ℚ
deriving DecidableEq

/-- The library functions the kernels call and the repository does not define. -/
structure Lib where
  /-- The C library `sqrt` on doubles. -/
  sqrt : ℚ → ℚ
  /-- The C library `sin` on doubles. -/
  sin : ℚ → ℚ
  /-- The C library `cos` on doubles. -/
  cos : ℚ → ℚ
  /-- The call `QVector2D(p).normalized().toPointF()`. -/
  normalized : QPointF → QPointF

/-- Unary minus of `QPointF`. -/
def QPointF.neg (p : QPointF) : QPointF := ⟨-p.x, -p.y⟩

/-- The difference `p - q` of two `QPointF`, in doubles. -/
def QPointF.sub (p q : QPointF) : QPointF := ⟨f64 (p.x - q.x), f64 (p.y - q.y)⟩

/-- The product `p * c` of a `QPointF` and a `qreal`, in doubles. -/
def QPointF.scale (p : QPointF) (c : ℚ) : QPointF := ⟨f64 (p.x * c), f64 (p.y * c)⟩

/-- The call `QLineF(a, b).length()`: the square root of `x*x + y*y` for the
coordinate differences `x`, `y`, in doubles. -/
def lineLength (L : Lib) (a b : QPointF) : ℚ :=
  let x := f64 (b.x - a.x)
  let y := f64 (b.y - a.y)
  f64 (L.sqrt (f64 (f64 (x * x) + f64 (y * y))))

/-! ## Colours and images -/

/-- A `QColor`: the validity flag (`cspec` is `Rgb` or `Invalid`) and the four
16 bit channels of `ct.argb`. -/
structure QColor where
  valid : Bool
  alpha : ℕ
  red : ℕ
  green : ℕ
  blue : ℕ
deriving DecidableEq

/-- The default constructed, invalid `QColor()`. -/
def QColor.invalid : QColor := ⟨false, 65535, 0, 0, 0⟩

/-- The colour `Qt::transparent`, transparent black. -/
def QColor.transparent : QColor := ⟨true, 0, 0, 0, 0⟩

/-- The constructor `QColor(int r, int g, int b, int a)` and
`QColor::fromRgb(int r, int g, int b, int a)`: channels outside `0..255` give a
warning and the invalid colour, otherwise each channel is stored times
`0x101`. -/
def QColor.fromRgb (r g b a : ℤ) : QColor :=
  if r < 0 ∨ 255 < r ∨ g < 0 ∨ 255 < g ∨ b < 0 ∨ 255 < b ∨ a < 0 ∨ 255 < a then QColor.invalid
  else ⟨true, (a * 257).toNat, (r * 257).toNat, (g * 257).toNat, (b * 257).toNat⟩

/-- The call `QColor::fromRgbF(r, g, b, a)`: a channel outside `[0, 1]` gives a
warning and the invalid colour, otherwise each channel is stored as
`qRound(c * USHRT_MAX)`. -/
def QColor.fromRgbF (r g b a : ℚ) : QColor :=
  if r < 0 ∨ 1 < r ∨ g < 0 ∨ 1 < g ∨ b < 0 ∨ 1 < b ∨ a < 0 ∨ 1 < a then QColor.invalid
  else ⟨true, (qRound (f64 (a * 65535)) % 65536).toNat, (qRound (f64 (r * 65535)) % 65536).toNat,
    (qRound (f64 (g * 65535)) % 65536).toNat, (qRound (f64 (b * 65535)) % 65536).toNat⟩

/-- The call `c.red()`: `ct.argb.red >> 8`. -/
def QColor.red8 (c : QColor) : ℤ := (c.red / 256 : ℕ)

/-- The call `c.green()`. -/
def QColor.green8 (c : QColor) : ℤ := (c.green / 256 : ℕ)

/-- The call `c.blue()`. -/
def QColor.blue8 (c : QColor) : ℤ := (c.blue / 256 : ℕ)

/-- The call `c.redF()`: `ct.argb.red / qreal(USHRT_MAX)`. -/
def QColor.redF (c : QColor) : ℚ := f64 ((c.red : ℚ) / 65535)

/-- The call `c.greenF()`. -/
def QColor.greenF (c : QColor) : ℚ := f64 ((c.green : ℚ) / 65535)

/-- The call `c.blueF()`. -/
def QColor.blueF (c : QColor) : ℚ := f64 ((c.blue : ℚ) / 65535)

/-- The call `c.alphaF()`. -/
def QColor.alphaF (c : QColor) : ℚ := f64 ((c.alpha : ℚ) / 65535)

/-- A stored pixel as `QImage::pixel` reports it: four 8 bit channels. -/
structure QRgb where
  alpha : Fin 256
  red : Fin 256
  green : Fin 256
  blue : Fin 256
deriving DecidableEq

/-- The function `qRgb(r, g, b)`: `0xff000000 | (r & 0xff) << 16 | (g & 0xff) << 8 | (b & 0xff)`. -/
def qRgb (r g b : ℤ) : QRgb :=
  ⟨255, Fin.ofNat (r % 256).toNat, Fin.ofNat (g % 256).toNat, Fin.ofNat (b % 256).toNat⟩

/-- A `QImage`: its size, whether its format has an alpha channel
(`Format_ARGB32`) or not (`Format_RGB32`, `Format_Grayscale8`), and the pixel
at every coordinate; only the pixels inside the size are part of the image. -/
structure QImage where
  width : ℕ
  height : ℕ
  hasAlphaChannel : Bool
  pix : ℤ → ℤ → QRgb

/-- The call `img.valid(x, y)`. -/
def QImage.valid (img : QImage) (x y : ℤ) : Prop :=
  0 ≤ x ∧ x < img.width ∧ 0 ≤ y ∧ y < img.height

instance (img : QImage) (x y : ℤ) : Decidable (img.valid x y) := by
  unfold QImage.valid; infer_instance

/-- The call `img.pixelColor(x, y)`: outside the image a warning and the
invalid colour, inside the stored channels times `0x101`, the alpha being 255
in a format without alpha channel. -/
def QImage.pixelColor (img : QImage) (x y : ℤ) : QColor :=
  if img.valid x y then
    ⟨true, (if img.hasAlphaChannel then ((img.pix x y).alpha : ℕ) else 255) * 257,
      ((img.pix x y).red : ℕ) * 257, ((img.pix x y).green : ℕ) * 257,
      ((img.pix x y).blue : ℕ) * 257⟩
  else QColor.invalid

/-- The 16 to 8 bit conversion of `QRgba64::toArgb32`: with `t = x + 0x80` it is
`(t - (t >> 8)) >> 8`, cast to `quint8`. -/
def div257 (v : ℕ) : Fin 256 := Fin.ofNat (((v + 128) - (v + 128) / 256) / 256)

/-- The pixel `setPixelColor` stores for the colour `c`: `c.rgba64()`, its
alpha set to 65535 in a format without alpha channel, through `toArgb32`. -/
def toArgb32 (hasAlpha : Bool) (c : QColor) : QRgb :=
  ⟨if hasAlpha then div257 c.alpha else 255, div257 c.red, div257 c.green, div257 c.blue⟩

/-- The call `img.setPixel(x, y, rgb)` on a 32 bit image: outside the image a
warning and no write. -/
def QImage.setPixel (img : QImage) (x y : ℤ) (v : QRgb) : QImage :=
  if img.valid x y then
    { img with pix := fun a b => if a = x ∧ b = y then v else img.pix a b }
  else img

/-- The call `img.setPixelColor(x, y, c)`: a coordinate outside the image or an
invalid colour gives a warning and no write; otherwise the colour is stored
with 8 bit channels, the alpha forced to 255 in a format without alpha. -/
def QImage.setPixelColor (img : QImage) (x y : ℤ) (c : QColor) : QImage :=
  if ¬ img.valid x y then img
  else if ¬ c.valid then img
  else img.setPixel x y (toArgb32 img.hasAlphaChannel c)

/-- The loop `for (int i = 0; i < n; ++i) body`, threading the state. -/
def forLoop {σ : Type} (n : ℕ) (body : ℕ → σ → σ) (s : σ) : σ :=
  (List.range n).foldl (fun t i => body i t) s

/-! ## `src/main.cpp`: the goo brushes -/

/-- The brush kinds of `enum BrushType`. -/
inductive BrushType where
  | Brush_Smear
  | Brush_Grow
  | Brush_Shrink
  | Brush_Pinch
  | Brush_Ungoo
deriving DecidableEq

/-- The members of `GooWidget` the warp uses. -/
structure GooWidget where
  currentImage : QImage
  radius : ℚ
  force : ℚ
  brush : BrushType

/-- One interpolation `a * (1 - t) + b * t` of `sampleBilinear`: `a`, `b` are
`qreal`, `t` is `float`, so `1 - t` is a float operation and the products and
the sum are double operations. -/
def mixF (a b t : ℚ) : ℚ := f64 (f64 (a * f32 (1 - t)) + f64 (b * t))

/-- The interpolation of two colours, channel by channel, through
`QColor::fromRgbF`. -/
def mixColor (c d : QColor) (t : ℚ) : QColor :=
  QColor.fromRgbF (mixF c.redF d.redF t) (mixF c.greenF d.greenF t)
    (mixF c.blueF d.blueF t) (mixF c.alphaF d.alphaF t)

/-- The function `GooWidget::sampleBilinear(img, x, y)`; `x` and `y` are the
`float` arguments. -/
def sampleBilinear (img : QImage) (x y : ℚ) : QColor :=
  let x0 := qFloor x
  let y0 := qFloor y
  let x1 := x0 + 1
  let y1 := y0 + 1
  let dx := f32 (x - f32 x0)
  let dy := f32 (y - f32 y0)
  let c00 := if img.valid x0 y0 then img.pixelColor x0 y0 else QColor.transparent
  let c10 := if img.valid x1 y0 then img.pixelColor x1 y0 else c00
  let c01 := if img.valid x0 y1 then img.pixelColor x0 y1 else c00
  let c11 := if img.valid x1 y1 then img.pixelColor x1 y1 else c00
  let c0 := mixColor c00 c10 dx
  let c1 := mixColor c01 c11 dx
  mixColor c0 c1 dy

/-- The value `normDist = 1.0f - (dist / radius)` of `applyWarp`. -/
def normDist (dist radius : ℚ) : ℚ := f32 (1 - f32 (dist / radius))

/-- The value `smoothed = normDist * normDist * (3 - 2 * normDist)` of
`applyWarp`, in floats. -/
def smoothed (dist radius : ℚ) : ℚ :=
  f32 (f32 (normDist dist radius * normDist dist radius) * f32 (3 - f32 (2 * normDist dist radius)))

/-- The brush influence at distance `dist`: `smoothed` inside the radius, where
`applyWarp` moves the pixel, and no effect outside. -/
def influence (dist radius : ℚ) : ℚ :=
  if dist < radius then smoothed dist radius else 0

/-- The `switch (brush)` of `applyWarp`: the offset of the pixel `coord`. -/
def brushOffset (L : Lib) (w : GooWidget) (location direction coord : QPointF) (s : ℚ) :
    QPointF :=
  match w.brush with
  | BrushType.Brush_Smear => (direction.scale (f32 (w.force / w.radius))).scale s
  | BrushType.Brush_Ungoo => (direction.neg.scale (f32 (w.force / w.radius))).scale s
  | BrushType.Brush_Grow =>
      ((L.normalized (coord.sub location)).scale (f32 (w.force / w.radius))).scale s
  | BrushType.Brush_Shrink =>
      ((L.normalized (coord.sub location)).neg.scale (f32 (w.force / w.radius))).scale s
  | BrushType.Brush_Pinch =>
      (((coord.sub location).neg.scale (f32 (1 / 100))).scale w.force).scale s

/-- The value `float dist = QLineF(coord, location).length()` of `applyWarp` at
the pixel `(x, y)`. -/
def pixelDist (L : Lib) (location : QPointF) (x y : ℕ) : ℚ :=
  f32 (lineLength L ⟨x, y⟩ location)

/-- The colour `applyWarp` computes for a pixel `(x, y)` inside the radius:
the sample of `currentImage` at `srcCoord = coord - offset`, the two
coordinates narrowed to the `float` parameters of `sampleBilinear`. -/
def warpColor (L : Lib) (w : GooWidget) (location direction : QPointF) (x y : ℕ) : QColor :=
  let coord : QPointF := ⟨x, y⟩
  let dist := pixelDist L location x y
  let offset := brushOffset L w location direction coord (smoothed dist w.radius)
  let srcCoord := coord.sub offset
  sampleBilinear w.currentImage (f32 srcCoord.x) (f32 srcCoord.y)

/-- The body of the two loops of `applyWarp` at the pixel `(x, y)`. -/
def warpPixel (L : Lib) (w : GooWidget) (location direction : QPointF) (x y : ℕ)
    (newImage : QImage) : QImage :=
  if pixelDist L location x y < w.radius then
    newImage.setPixelColor x y (warpColor L w location direction x y)
  else newImage

/-- The function `GooWidget::applyWarp(location, direction)`: the widget with
its new `currentImage`. -/
def applyWarp (L : Lib) (w : GooWidget) (location direction : QPointF) : GooWidget :=
  let newImage := w.currentImage
  { w with
    currentImage :=
      forLoop newImage.height
        (fun y img => forLoop img.width (fun x im => warpPixel L w location direction x y im) img)
        newImage }

/-! ## `src/QFusionRoom/main.cpp`: the mask blend -/

/-- The images of `FusionCanvas`. -/
structure FusionCanvas where
  imgA : QImage
  imgB : QImage
  mask : QImage
  fusion : QImage

/-- One blended channel `a * (1 - t) + b * t`: `a` and `b` are `int` channels,
`t` is a `float`, every operation is a float operation. -/
def blendF (a b : ℤ) (t : ℚ) : ℚ := f32 (f32 (f32 a * f32 (1 - t)) + f32 (f32 b * t))

/-- The colour `mix` of `updateFusion` at the pixel `(x, y)`: the mask value
`alpha`, the weight `blend = alpha / 255.0f`, and the three blended channels
converted to `int` for `QColor::fromRgb`. -/
def fuseColor (c : FusionCanvas) (x y : ℕ) : QColor :=
  let alpha := (c.mask.pixelColor x y).red8
  let blend := f32 (f32 alpha / 255)
  let cA := c.imgA.pixelColor x y
  let cB := c.imgB.pixelColor x y
  QColor.fromRgb (toInt (blendF cA.red8 cB.red8 blend))
    (toInt (blendF cA.green8 cB.green8 blend)) (toInt (blendF cA.blue8 cB.blue8 blend)) 255

/-- The body of the two loops of `updateFusion` at the pixel `(x, y)`. -/
def fusePixel (c : FusionCanvas) (x y : ℕ) (fusion : QImage) : QImage :=
  fusion.setPixelColor x y (fuseColor c x y)

/-- The function `FusionCanvas::updateFusion()`: `fusion` is a new
`Format_ARGB32` image of the size of `imgA`, of contents `fresh` before the
loops. -/
def updateFusion (c : FusionCanvas) (fresh : ℤ → ℤ → QRgb) : FusionCanvas :=
  let fusion : QImage := ⟨c.imgA.width, c.imgA.height, true, fresh⟩
  { c with
    fusion :=
      forLoop fusion.height
        (fun y img => forLoop img.width (fun x im => fusePixel c x y im) img) fusion }

/-! ## `src/FusionAnimation/fusion.cpp`: the scalar blend and the fractal -/

/-- The width of `canvasSize`. -/
def canvasWidth : ℕ := 512

/-- The height of `canvasSize`. -/
def canvasHeight : ℕ := 512

/-- The phase `2 * 3.14 * k / 128 + time * 0.05` of `blendFusion`, in doubles. -/
def warpPhase (k : ℕ) (time : ℤ) : ℚ :=
  f64 (f64 (f64 (f64 (2 * f64 (314 / 100)) * k) / 128) + f64 (time * f64 (5 / 100)))

/-- The value `int xx = x + warpAmount * sin(2 * 3.14 * y / 128 + time * 0.05)`. -/
def warpX (L : Lib) (warpAmount : ℚ) (time : ℤ) (x y : ℕ) : ℤ :=
  toInt (f64 (x + f64 (warpAmount * f64 (L.sin (warpPhase y time)))))

/-- The value `int yy = y + warpAmount * cos(2 * 3.14 * x / 128 + time * 0.05)`. -/
def warpY (L : Lib) (warpAmount : ℚ) (time : ℤ) (x y : ℕ) : ℤ :=
  toInt (f64 (y + f64 (warpAmount * f64 (L.cos (warpPhase x time)))))

/-- The colour `mixed` of `blendFusion`: the pixel `(x, y)` of `imgA` blended
with the pixel `(xx, yy)` of `imgB`, the three channels converted to `int` for
the constructor `QColor(int, int, int)`. -/
def mixedColor (imgA imgB : QImage) (blendAmount : ℚ) (x y : ℕ) (xx yy : ℤ) : QColor :=
  let ca := imgA.pixelColor x y
  let cb := imgB.pixelColor xx yy
  QColor.fromRgb (toInt (blendF ca.red8 cb.red8 blendAmount))
    (toInt (blendF ca.green8 cb.green8 blendAmount))
    (toInt (blendF ca.blue8 cb.blue8 blendAmount)) 255

/-- The body of the two loops of `blendFusion` at the pixel `(x, y)`; the
`continue` leaves `result` as it is. -/
def blendPixel (L : Lib) (imgA imgB : QImage) (blendAmount warpAmount : ℚ) (time : ℤ)
    (x y : ℕ) (result : QImage) : QImage :=
  let xx := warpX L warpAmount time x y
  let yy := warpY L warpAmount time x y
  if xx < 0 ∨ xx ≥ canvasWidth ∨ yy < 0 ∨ yy ≥ canvasHeight then result
  else result.setPixelColor x y (mixedColor imgA imgB blendAmount x y xx yy)

/-- The function `blendFusion(imgA, imgB, blendAmount, warpAmount, time)`:
`result` is a new `Format_RGB32` image of the canvas size, of contents `fresh`
before the loops. -/
def blendFusion (L : Lib) (imgA imgB : QImage) (blendAmount warpAmount : ℚ) (time : ℤ)
    (fresh : ℤ → ℤ → QRgb) : QImage :=
  let result : QImage := ⟨canvasWidth, canvasHeight, false, fresh⟩
  forLoop canvasHeight
    (fun y img =>
      forLoop canvasWidth
        (fun x im => blendPixel L imgA imgB blendAmount warpAmount time x y im) img)
    result

/-- A C++ `double` with its special values: a finite value, an infinity
with its sign, or a NaN.  The sign of a zero is not kept. -/
inductive Dbl where
  | fin (q : ℚ)
  | inf (negative : Bool)
  | nan
deriving DecidableEq

/-- Rounding of an exact result to binary64 within its exponent range: below
`2 ^ (-1022)` in absolute value the result is the nearest multiple of
`2 ^ (-1074)`, ties to even; elsewhere it is the nearest 53 bit value, ties to
even, and a rounded value of `2 ^ 1024` or more overflows to an infinity. -/
def Dbl.round (q : ℚ) : Dbl :=
  if |q| < 1 / 2 ^ 1022 then Dbl.fin ((roundHalfEven (q * 2 ^ 1074) : ℚ) / 2 ^ 1074)
  else if 2 ^ 1024 ≤ |f64 q| then Dbl.inf (decide (q < 0))
  else Dbl.fin (f64 q)

/-- The conversion of an `int` to `double`. -/
def Dbl.ofInt (n : ℤ) : Dbl := Dbl.round n

/-- The unary minus of doubles. -/
def Dbl.neg : Dbl → Dbl
  | Dbl.fin q => Dbl.fin (-q)
  | Dbl.inf s => Dbl.inf (!s)
  | Dbl.nan => Dbl.nan

/-- The sum of two doubles: infinities of opposite signs give NaN. -/
def Dbl.add : Dbl → Dbl → Dbl
  | Dbl.fin a, Dbl.fin b => Dbl.round (a + b)
  | Dbl.fin _, Dbl.inf t => Dbl.inf t
  | Dbl.inf s, Dbl.fin _ => Dbl.inf s
  | Dbl.inf s, Dbl.inf t => if s = t then Dbl.inf s else Dbl.nan
  | _, _ => Dbl.nan

/-- The difference of two doubles. -/
def Dbl.sub (a b : Dbl) : Dbl := a.add b.neg

/-- The product of two doubles: zero times an infinity gives NaN. -/
def Dbl.mul : Dbl → Dbl → Dbl
  | Dbl.fin a, Dbl.fin b => Dbl.round (a * b)
  | Dbl.fin a, Dbl.inf t => if a = 0 then Dbl.nan else Dbl.inf (xor (decide (a < 0)) t)
  | Dbl.inf s, Dbl.fin b => if b = 0 then Dbl.nan else Dbl.inf (xor s (decide (b < 0)))
  | Dbl.inf s, Dbl.inf t => Dbl.inf (xor s t)
  | _, _ => Dbl.nan

/-- The quotient of two doubles; a zero divisor counts as `+0`, which the
divisor `0.5 * zoom * w` of `generateFractal` is when it is zero and `zoom` is
not negative: zero by zero gives NaN, another finite value by zero an infinity
of its sign. -/
def Dbl.div : Dbl → Dbl → Dbl
  | Dbl.fin a, Dbl.fin b =>
    if b = 0 then (if a = 0 then Dbl.nan else Dbl.inf (decide (a < 0))) else Dbl.round (a / b)
  | Dbl.fin _, Dbl.inf _ => Dbl.fin 0
  | Dbl.inf s, Dbl.fin b => Dbl.inf (xor s (decide (b < 0)))
  | _, _ => Dbl.nan

/-- The comparison `a < b` of doubles: false when either is NaN. -/
def Dbl.lt : Dbl → Dbl → Bool
  | Dbl.fin a, Dbl.fin b => decide (a < b)
  | Dbl.fin _, Dbl.inf t => !t
  | Dbl.inf s, Dbl.fin _ => s
  | Dbl.inf s, Dbl.inf t => s && !t
  | _, _ => false

/-- The comparison `a >= b` of doubles: false when either is NaN. -/
def Dbl.ge : Dbl → Dbl → Bool
  | Dbl.fin a, Dbl.fin b => decide (b ≤ a)
  | Dbl.fin _, Dbl.inf t => t
  | Dbl.inf s, Dbl.fin _ => !s
  | Dbl.inf s, Dbl.inf t => !s || t
  | _, _ => false

/-- The C library `sin` on a double: NaN at an infinity or a NaN. -/
def Dbl.sin (L : Lib) : Dbl → Dbl
  | Dbl.fin q => Dbl.round (L.sin q)
  | _ => Dbl.nan

/-- The variables of the escape loop of `generateFractal`. -/
structure EscapeState where
  zx : Dbl
  zy : Dbl
  i : ℕ
deriving DecidableEq

/-- The value `zx*zx + zy*zy` of the loop condition. -/
def sumSquares (s : EscapeState) : Dbl := (s.zx.mul s.zx).add (s.zy.mul s.zy)

/-- The loop condition `zx*zx + zy*zy < 4 && i < 255`. -/
def escapeCond (s : EscapeState) : Prop :=
  (sumSquares s).lt (Dbl.fin 4) = true ∧ s.i < 255

instance (s : EscapeState) : Decidable (escapeCond s) := by
  unfold escapeCond; infer_instance

/-- The loop body: `tmp = zx*zx - zy*zy + cx + 0.1 * sin(time * 0.05)`,
`zy = 2.0 * zx * zy + cy`, `zx = tmp`, `++i`, with `cx = -0.7` and
`cy = 0.27015`. -/
def escapeStep (L : Lib) (time : ℤ) (s : EscapeState) : EscapeState :=
  let tmp := ((((s.zx.mul s.zx).sub (s.zy.mul s.zy)).add (Dbl.round (-7 / 10))).add
    ((Dbl.round (1 / 10)).mul (Dbl.sin L ((Dbl.ofInt time).mul (Dbl.round (5 / 100))))))
  let zy := (((Dbl.fin 2).mul s.zx).mul s.zy).add (Dbl.round (27015 / 100000))
  ⟨tmp, zy, s.i + 1⟩

/-- The loop `while (zx*zx + zy*zy < 4 && i < 255) body`, run for at most
`fuel` iterations. -/
def escapeLoop (L : Lib) (time : ℤ) : ℕ → EscapeState → EscapeState
  | 0, s => s
  | fuel + 1, s => if escapeCond s then escapeLoop L time fuel (escapeStep L time s) else s

/-- The start value `zx = 1.5 * (x - w / 2) / (0.5 * zoom * w)`. -/
def startX (zoom : Dbl) (x : ℕ) : Dbl :=
  let w : ℤ := canvasWidth
  ((Dbl.fin (3 / 2)).mul (Dbl.ofInt (x - w / 2))).div
    (((Dbl.fin (1 / 2)).mul zoom).mul (Dbl.ofInt w))

/-- The start value `zy = (y - h / 2) / (0.5 * zoom * h)`. -/
def startY (zoom : Dbl) (y : ℕ) : Dbl :=
  let h : ℤ := canvasHeight
  (Dbl.ofInt (y - h / 2)).div (((Dbl.fin (1 / 2)).mul zoom).mul (Dbl.ofInt h))

/-- The state in which the escape loop of the pixel `(x, y)` stops: the loop
starts at `i = 0` and its condition bounds `i` by 255, so 255 units of fuel
run it to its end. -/
def escape (L : Lib) (zoom : Dbl) (time : ℤ) (x y : ℕ) : EscapeState :=
  escapeLoop L time 255 ⟨startX zoom x, startY zoom y, 0⟩

/-- The function `generateFractal(zoom, time)`: `img` is a new `Format_RGB32`
image of the canvas size, of contents `fresh` before the loops. -/
def generateFractal (L : Lib) (zoom : Dbl) (time : ℤ) (fresh : ℤ → ℤ → QRgb) : QImage :=
  let img : QImage := ⟨canvasWidth, canvasHeight, false, fresh⟩
  forLoop canvasHeight
    (fun y im =>
      forLoop canvasWidth
        (fun x im2 =>
          im2.setPixel x y
            (qRgb (escape L zoom time x y).i (escape L zoom time x y).i
              (escape L zoom time x y).i))
        im)
    img

/-! ## Concrete inputs for the closed statements -/

/-- A library instance for closed statements: `sqrt` is exact on perfect
squares, `sin` and `cos` are their values at 0, `normalized` is right on unit
and zero vectors.  It is used only where these are the values of the real
functions or where the value is not used. -/
def exampleLib : Lib := ⟨fun s => (Nat.sqrt ⌊s⌋₊ : ℚ), fun _ => 0, fun _ => 1, fun p => p⟩

/-- Opaque white. -/
def whitePixel : QRgb := ⟨255, 255, 255, 255⟩

/-- Opaque black. -/
def blackPixel : QRgb := ⟨255, 0, 0, 0⟩

/-- A `Format_ARGB32` image of 2 by 2 pixels: white in the last column of the
last row, black elsewhere. -/
def smallImage : QImage := ⟨2, 2, true, fun a b => if a = 1 ∧ b = 1 then whitePixel else blackPixel⟩

/-- A widget on `smallImage` with radius 10 and force 0. -/
def smallWidget : GooWidget := ⟨smallImage, 10, 0, BrushType.Brush_Grow⟩

/-- A `Format_ARGB32` image of 16777218 by 1 pixels: white at `x = 16777217`,
black elsewhere. -/
def wideImage : QImage := ⟨16777218, 1, true, fun a _ => if a = 16777217 then whitePixel else blackPixel⟩

/-- A widget on `wideImage` with radius 1, force 0 and the smear brush. -/
def wideWidget : GooWidget := ⟨wideImage, 1, 0, BrushType.Brush_Smear⟩







/-- The 4 by 4 image A of the scenario: every pixel pure red. -/
def redImage : QImage := ⟨4, 4, true, fun _ _ => ⟨255, 255, 0, 0⟩⟩

/-- The 4 by 4 image B of the scenario: every pixel pure blue. -/
def blueImage : QImage := ⟨4, 4, true, fun _ _ => ⟨255, 0, 0, 255⟩⟩

/-- The 4 by 4 `Format_Grayscale8` mask of the scenario: 0 on the left two
columns, 255 on the right two. -/
def halfMask : QImage :=
  ⟨4, 4, false, fun a _ => if a < 2 then ⟨255, 0, 0, 0⟩ else ⟨255, 255, 255, 255⟩⟩

/-- The canvas of the scenario. -/
def scenarioCanvas : FusionCanvas := ⟨redImage, blueImage, halfMask, redImage⟩

/-- A canvas sized image whose every channel is 3. -/
def dimImage : QImage := ⟨canvasWidth, canvasHeight, false, fun _ _ => ⟨255, 3, 3, 3⟩⟩

/-- A `Format_ARGB32` image of one opaque white pixel. -/
def onePixel : QImage := ⟨1, 1, true, fun _ _ => whitePixel⟩

/-- The sampler as the specification words it: the weighted sum of
`sampleBilinear`, each of the four corners outside the image replaced by
transparent black. -/
def sampleBilinearSpec (img : QImage) (x y : ℚ) : QColor :=
  let x0 := qFloor x
  let y0 := qFloor y
  let x1 := x0 + 1
  let y1 := y0 + 1
  let dx := f32 (x - f32 x0)
  let dy := f32 (y - f32 y0)
  let c00 := if img.valid x0 y0 then img.pixelColor x0 y0 else QColor.transparent
  let c10 := if img.valid x1 y0 then img.pixelColor x1 y0 else QColor.transparent
  let c01 := if img.valid x0 y1 then img.pixelColor x0 y1 else QColor.transparent
  let c11 := if img.valid x1 y1 then img.pixelColor x1 y1 else QColor.transparent
  mixColor (mixColor c00 c10 dx) (mixColor c01 c11 dx) dy

/-- The colour `sampleBilinear` uses for the corner `(cx, cy)` of the cell of
`(x0, y0)`: the pixel when the corner is inside the image, otherwise the pixel
of `(x0, y0)` when that one is inside, otherwise transparent black. -/
def cornerColor (img : QImage) (x0 y0 cx cy : ℤ) : QColor :=
  if img.valid cx cy then img.pixelColor cx cy
  else if img.valid x0 y0 then img.pixelColor x0 y0
  else QColor.transparent

/-- A canvas whose image B (1 by 1) does not have the size of image A and of
the mask (4 by 4). -/
def mismatchCanvas : FusionCanvas := ⟨redImage, onePixel, halfMask, redImage⟩

/-- A library instance whose `sqrt` never underestimates: the integer square
root of the argument rounded up, plus 1.  It is used for closed statements that
need a square root not below the exact one. -/
def upperSqrtLib : Lib := ⟨fun s => (Nat.sqrt ⌈s⌉₊ : ℚ) + 1, fun _ => 0, fun _ => 1, fun p => p⟩

/-- A canvas of 1 by 1 images: A and B have every channel 3, the mask is 65. -/
def dimCanvas : FusionCanvas :=
  ⟨⟨1, 1, true, fun _ _ => ⟨255, 3, 3, 3⟩⟩, ⟨1, 1, true, fun _ _ => ⟨255, 3, 3, 3⟩⟩,
    ⟨1, 1, false, fun _ _ => ⟨255, 65, 65, 65⟩⟩, ⟨1, 1, true, fun _ _ => ⟨255, 3, 3, 3⟩⟩⟩

/-! ## `src/FusionAnimation/fusion.cpp`: the tile spin -/

/-- A `QPoint`. -/
structure QPoint where
  x : ℤ
  y : ℤ
deriving DecidableEq

/-- The unary minus of `QPoint`. -/
def QPoint.neg (p : QPoint) : QPoint := ⟨-p.x, -p.y⟩

/-- A `QRect` as Qt stores it: its left, top, right and bottom pixel. -/
structure QRect where
  x1 : ℤ
  y1 : ℤ
  x2 : ℤ
  y2 : ℤ
deriving DecidableEq

/-- The constructor `QRect(left, top, width, height)`. -/
def QRect.ofSize (left top width height : ℤ) : QRect :=
  ⟨left, top, left + width - 1, top + height - 1⟩

/-- The call `r.width()`. -/
def QRect.width (r : QRect) : ℤ := r.x2 - r.x1 + 1

/-- The call `r.height()`. -/
def QRect.height (r : QRect) : ℤ := r.y2 - r.y1 + 1

/-- The call `r.center()`: `((x1 + x2) / 2, (y1 + y2) / 2)` in the integer
division of C. -/
def QRect.center (r : QRect) : QPoint :=
  ⟨Int.tdiv (r.x1 + r.x2) 2, Int.tdiv (r.y1 + r.y2) 2⟩

/-- The call `r.contains(QPoint(x, y))`. -/
def QRect.contains (r : QRect) (x y : ℤ) : Prop :=
  r.x1 ≤ x ∧ x ≤ r.x2 ∧ r.y1 ≤ y ∧ y ≤ r.y2

instance (r : QRect) (x y : ℤ) : Decidable (r.contains x y) := by
  unfold QRect.contains; infer_instance

/-- The affine part of a `QTransform`, in doubles: the point `(x, y)` maps to
`(m11 * x + m21 * y + dx, m12 * x + m22 * y + dy)`. -/
structure QTransform where
  m11 : ℚ
  m12 : ℚ
  m21 : ℚ
  m22 : ℚ
  dx : ℚ
  dy : ℚ
deriving DecidableEq

/-- The default `QTransform()`. -/
def QTransform.identity : QTransform := ⟨1, 0, 0, 1, 0, 0⟩

/-- The types `TxNone` and `TxTranslate`: the linear part is the identity. -/
def QTransform.isTranslation (t : QTransform) : Prop :=
  t.m11 = 1 ∧ t.m12 = 0 ∧ t.m21 = 0 ∧ t.m22 = 1

instance (t : QTransform) : Decidable t.isTranslation := by
  unfold QTransform.isTranslation; infer_instance

/-- The call `t.translate(x, y)`: on a translation the offsets add; otherwise
`dx += x * m11 + y * m21` and `dy += y * m22 + x * m12`. -/
def QTransform.translate (t : QTransform) (x y : ℚ) : QTransform :=
  if t.isTranslation then { t with dx := f64 (t.dx + x), dy := f64 (t.dy + y) }
  else
    { t with
      dx := f64 (t.dx + f64 (f64 (x * t.m11) + f64 (y * t.m21)))
      dy := f64 (t.dy + f64 (f64 (y * t.m22) + f64 (x * t.m12))) }

/-- The parts of the Qt painter that the tile spin reaches only with a nonzero
angle or a translucent pixel, and that are not modelled. -/
structure PaintLib where
  /-- The call `t.rotate(a)` for an angle `a` other than 0. -/
  rotate : QTransform → ℚ → QTransform
  /-- The composition of a source pixel of an alpha strictly between 0 and 255
  over a destination pixel. -/
  blend : QRgb → QRgb → QRgb
  /-- The call `drawImage(target, image, source)` on a device under a transform
  that is not a translation by whole pixels, or with rectangles that are empty
  or differ in size, or on a device with an alpha channel. -/
  drawImage : QImage → QTransform → QRect → QImage → QRect → QImage

/-- The state of a `QPainter` that the tile spin uses: the paint device, the
world transform and the stack of saved transforms. -/
structure QPainter where
  device : QImage
  transform : QTransform
  saved : List QTransform

/-- The constructor `QPainter p(&device)`. -/
def QPainter.ofDevice (device : QImage) : QPainter := ⟨device, QTransform.identity, []⟩

/-- The call `p.save()`. -/
def QPainter.save (p : QPainter) : QPainter := { p with saved := p.transform :: p.saved }

/-- The call `p.restore()`: with nothing saved a warning and no change. -/
def QPainter.restore (p : QPainter) : QPainter :=
  match p.saved with
  | [] => p
  | t :: rest => { p with transform := t, saved := rest }

/-- The call `p.translate(offset)` for a `QPoint`. -/
def QPainter.translate (p : QPainter) (offset : QPoint) : QPainter :=
  { p with transform := p.transform.translate offset.x offset.y }

/-- The call `p.rotate(a)`: `QTransform::rotate` returns at once for `a == 0`. -/
def QPainter.rotate (P : PaintLib) (p : QPainter) (a : ℚ) : QPainter :=
  { p with transform := if a = 0 then p.transform else P.rotate p.transform a }

/-- The pixel that the default composition mode `SourceOver` leaves on a
`Format_RGB32` device: an opaque source pixel replaces the destination, a
source pixel of alpha 0 leaves it as it is. -/
def sourceOver (P : PaintLib) (hasAlpha : Bool) (s d : QRgb) : QRgb :=
  if hasAlpha = false ∨ s.alpha = 255 then ⟨255, s.red, s.green, s.blue⟩
  else if s.alpha = 0 then d
  else P.blend s d

/-- The call `p.drawImage(target, image, source)`.  Under a translation by whole
pixels, with rectangles of one size and not empty, on a device without alpha
channel, every device pixel of the translated target rectangle whose source
pixel is in the image is composed with that source pixel. -/
def QPainter.drawImage (P : PaintLib) (p : QPainter) (target : QRect) (image : QImage)
    (source : QRect) : QPainter :=
  if p.transform.isTranslation ∧ p.transform.dx.den = 1 ∧ p.transform.dy.den = 1 ∧
      p.device.hasAlphaChannel = false ∧ 0 < source.width ∧ 0 < source.height ∧
      target.width = source.width ∧ target.height = source.height then
    { p with
      device :=
        { p.device with
          pix := fun a b =>
            if p.device.valid a b ∧
                source.contains (a - (target.x1 + p.transform.dx.num) + source.x1)
                  (b - (target.y1 + p.transform.dy.num) + source.y1) ∧
                image.valid (a - (target.x1 + p.transform.dx.num) + source.x1)
                  (b - (target.y1 + p.transform.dy.num) + source.y1) then
              sourceOver P image.hasAlphaChannel
                (image.pix (a - (target.x1 + p.transform.dx.num) + source.x1)
                  (b - (target.y1 + p.transform.dy.num) + source.y1))
                (p.device.pix a b)
            else p.device.pix a b } }
  else { p with device := P.drawImage p.device p.transform target image source }

/-- The rectangle `QRect rect(x * tileW, y * tileH, tileW, tileH)` of
`applyTileSpin`, with `tileW = canvasSize.width() / tiles` and
`tileH = canvasSize.height() / tiles` in the integer division of C. -/
def tileRect (tiles x y : ℤ) : QRect :=
  QRect.ofSize (x * Int.tdiv canvasWidth tiles) (y * Int.tdiv canvasHeight tiles)
    (Int.tdiv canvasWidth tiles) (Int.tdiv canvasHeight tiles)

/-- The transform calls of the inner loop body: `save`, `translate` to the
centre of the tile, `rotate`, `translate` back. -/
def tileTransform (P : PaintLib) (angleDeg : ℚ) (tiles x y : ℤ) (p : QPainter) : QPainter :=
  ((p.save.translate (tileRect tiles x y).center).rotate P angleDeg).translate
    (tileRect tiles x y).center.neg

/-- The body of the inner loop of `applyTileSpin`. -/
def spinTile (P : PaintLib) (src : QImage) (angleDeg : ℚ) (tiles : ℤ) (x y : ℕ)
    (p : QPainter) : QPainter :=
  ((tileTransform P angleDeg tiles x y p).drawImage P (tileRect tiles x y) src
    (tileRect tiles x y)).restore

/-- The function `applyTileSpin`; `fresh` is the content of the new image
`result`, which Qt leaves uninitialised. -/
def applyTileSpin (P : PaintLib) (src : QImage) (angleDeg : ℚ) (tiles : ℤ)
    (fresh : ℤ → ℤ → QRgb) : QImage :=
  let result : QImage := ⟨canvasWidth, canvasHeight, false, fresh⟩
  (forLoop tiles.toNat
    (fun y p => forLoop tiles.toNat (fun x q => spinTile P src angleDeg tiles x y q) p)
    (QPainter.ofDevice result)).device

/-- A painter library for the closed statements; none of its parts is reached
at angle 0 with opaque or fully transparent pixels. -/
def plainPaint : PaintLib := ⟨fun t _ => t, fun s _ => s, fun d _ _ _ _ => d⟩

/-- A canvas sized `Format_ARGB32` image, every pixel transparent black. -/
def clearImage : QImage := ⟨canvasWidth, canvasHeight, true, fun _ _ => ⟨0, 0, 0, 0⟩⟩

/-- The state of the painter of `applyTileSpin` at angle 0 once the tiles
`(i, j)` with `T i j` are drawn: the transform is the identity, nothing is
saved, the device is the canvas sized `Format_RGB32` image, every pixel of a
drawn tile is the source pixel composed over the initial content, and every
other pixel still has the initial content. -/
def TilesDrawn (P : PaintLib) (src : QImage) (n : ℤ) (fresh : ℤ → ℤ → QRgb)
    (T : ℕ → ℕ → Prop) (p : QPainter) : Prop :=
  p.transform = QTransform.identity ∧ p.saved = [] ∧ p.device.width = canvasWidth ∧
  p.device.height = canvasHeight ∧ p.device.hasAlphaChannel = false ∧
  ∀ a b : ℤ,
    ((∃ i j : ℕ, T i j ∧ (tileRect n i j).contains a b) →
      p.device.pix a b = sourceOver P src.hasAlphaChannel (src.pix a b) (fresh a b)) ∧
    ((¬ ∃ i j : ℕ, T i j ∧ (tileRect n i j).contains a b) → p.device.pix a b = fresh a b)

/-! ## Rounding lemmas -/

theorem roundHalfEven_intCast (z : ℤ) : roundHalfEven (z : ℚ) = z := by
  simp [roundHalfEven]

theorem abs_roundHalfEven_sub_le (x : ℚ) : |(roundHalfEven x : ℚ) - x| ≤ 1 / 2 := by
  have h1 := Int.floor_le x
  have h2 := Int.lt_floor_add_one x
  unfold roundHalfEven
  split_ifs with ha hb hc
  · rw [abs_le]; constructor <;> linarith
  · rw [abs_le]; push_cast; constructor <;> linarith
  · rw [abs_le]; constructor <;> linarith
  · rw [abs_le]; push_cast; constructor <;> linarith

theorem roundHalfEven_eq_of_abs_lt (x : ℚ) (m : ℤ) (h : |x - m| < 1 / 2) :
    roundHalfEven x = m := by
  rw [abs_lt] at h
  have hx := abs_le.1 (abs_roundHalfEven_sub_le x)
  have h1 : |((roundHalfEven x - m : ℤ) : ℚ)| < 1 := by
    rw [abs_lt]; push_cast; constructor <;> linarith [h.1, h.2, hx.1, hx.2]
  have h3 : |roundHalfEven x - m| < 1 := by exact_mod_cast h1
  have h4 := Int.abs_lt_one_iff.1 h3
  omega

theorem roundHalfEven_tie (m : ℤ) (hm : m % 2 = 0) : roundHalfEven ((m : ℚ) + 1 / 2) = m := by
  have hfl : ⌊(m : ℚ) + 1 / 2⌋ = m := by
    rw [Int.floor_eq_iff]; constructor <;> linarith
  unfold roundHalfEven
  rw [hfl]
  have e : (m : ℚ) + 1 / 2 - m = 1 / 2 := by ring
  rw [e]
  simp [hm]

theorem log_eq_of_bounds (q : ℚ) (e : ℤ) (h1 : (2 : ℚ) ^ e ≤ |q|) (h2 : |q| < 2 ^ (e + 1)) :
    Int.log 2 |q| = e := by
  have hpos : 0 < |q| := lt_of_lt_of_le (by positivity) h1
  apply le_antisymm
  · have h3 := (Int.lt_zpow_iff_log_lt (b := 2) (by norm_num) hpos).1 (by exact_mod_cast h2)
    omega
  · exact (Int.zpow_le_iff_le_log (b := 2) (by norm_num) hpos).1 (by exact_mod_cast h1)

theorem roundBin_eq_of_bounds (p : ℕ) (q : ℚ) (e m : ℤ) (h1 : (2 : ℚ) ^ e ≤ |q|)
    (h2 : |q| < 2 ^ (e + 1)) (h3 : |q / 2 ^ (e - p + 1) - m| < 1 / 2) :
    roundBin p q = m * 2 ^ (e - p + 1) := by
  have hpos : 0 < |q| := lt_of_lt_of_le (by positivity) h1
  have hq : q ≠ 0 := abs_pos.1 hpos
  unfold roundBin
  rw [if_neg hq, log_eq_of_bounds q e h1 h2, roundHalfEven_eq_of_abs_lt _ m h3]

theorem roundBin_eq_of_tie (p : ℕ) (q : ℚ) (e m : ℤ) (h1 : (2 : ℚ) ^ e ≤ |q|)
    (h2 : |q| < 2 ^ (e + 1)) (h3 : q / 2 ^ (e - p + 1) = m + 1 / 2) (hm : m % 2 = 0) :
    roundBin p q = m * 2 ^ (e - p + 1) := by
  have hpos : 0 < |q| := lt_of_lt_of_le (by positivity) h1
  have hq : q ≠ 0 := abs_pos.1 hpos
  unfold roundBin
  rw [if_neg hq, log_eq_of_bounds q e h1 h2, h3, roundHalfEven_tie m hm]

theorem roundBin_zero (p : ℕ) : roundBin p 0 = 0 := by simp [roundBin]

theorem abs_roundBin_sub_le (p : ℕ) (q : ℚ) : |roundBin p q - q| ≤ |q| / 2 ^ p := by
  by_cases hq : q = 0
  · subst hq; simp [roundBin]
  have hpos : 0 < |q| := abs_pos.2 hq
  unfold roundBin
  rw [if_neg hq]
  set e := Int.log 2 |q| with he
  have hu : (0 : ℚ) < 2 ^ (e - p + 1) := by positivity
  have hle : (2 : ℚ) ^ e ≤ |q| := by
    have h0 := Int.zpow_log_le_self (b := 2) (by norm_num) hpos
    simpa [he] using h0
  have hr := abs_roundHalfEven_sub_le (q / 2 ^ (e - p + 1))
  have key : ((roundHalfEven (q / 2 ^ (e - p + 1)) : ℚ)) * 2 ^ (e - p + 1) - q
      = ((roundHalfEven (q / 2 ^ (e - p + 1)) : ℚ) - q / 2 ^ (e - p + 1)) * 2 ^ (e - p + 1) := by
    field_simp
  rw [key, abs_mul, abs_of_pos hu]
  have h2 : (2 : ℚ) ^ (e - p + 1) = 2 ^ e / 2 ^ p * 2 := by
    rw [zpow_add₀ (by norm_num), zpow_sub₀ (by norm_num)]
    simp
  calc |(roundHalfEven (q / 2 ^ (e - p + 1)) : ℚ) - q / 2 ^ (e - p + 1)| * 2 ^ (e - p + 1)
      ≤ 1 / 2 * 2 ^ (e - p + 1) := by gcongr
    _ = 2 ^ e / 2 ^ p := by rw [h2]; ring
    _ ≤ |q| / 2 ^ p := by gcongr

theorem roundBin_intCast_mul_zpow (p : ℕ) (n k : ℤ) (hn : |n| < 2 ^ p) :
    roundBin p (n * 2 ^ k) = n * 2 ^ k := by
  by_cases h0 : n = 0
  · subst h0; simp [roundBin]
  have hq : (n : ℚ) * 2 ^ k ≠ 0 := by
    apply mul_ne_zero
    · exact_mod_cast h0
    · positivity
  have hpos : 0 < |(n : ℚ) * 2 ^ k| := abs_pos.2 hq
  unfold roundBin
  rw [if_neg hq]
  set e := Int.log 2 |(n : ℚ) * 2 ^ k| with he
  have hlt : |(n : ℚ) * 2 ^ k| < ((2 : ℕ) : ℚ) ^ ((p : ℤ) + k) := by
    rw [abs_mul, abs_of_pos (by positivity : (0 : ℚ) < 2 ^ k), zpow_add₀ (by norm_num)]
    have h1 : |(n : ℚ)| < 2 ^ p := by exact_mod_cast hn
    have h2k : (0 : ℚ) < 2 ^ k := by positivity
    push_cast
    rw [zpow_natCast]
    exact mul_lt_mul_of_pos_right h1 h2k
  have hlog : e < p + k := (Int.lt_zpow_iff_log_lt (b := 2) (by norm_num) hpos).1 hlt
  obtain ⟨j, hj⟩ : ∃ j : ℕ, (j : ℤ) = k - (e - p + 1) := ⟨(k - (e - p + 1)).toNat, by omega⟩
  have hk : k = (e - p + 1) + j := by omega
  have hdiv : (n : ℚ) * 2 ^ k / 2 ^ (e - p + 1) = ((n * 2 ^ j : ℤ) : ℚ) := by
    rw [hk, zpow_add₀ (by norm_num)]
    push_cast
    rw [zpow_natCast]
    field_simp
    ring
  rw [hdiv, roundHalfEven_intCast]
  conv_rhs => rw [hk, zpow_add₀ (by norm_num : (2 : ℚ) ≠ 0), zpow_natCast]
  push_cast
  ring

theorem roundBin_intCast (p : ℕ) (n : ℤ) (hn : |n| < 2 ^ p) : roundBin p (n : ℚ) = n := by
  have h := roundBin_intCast_mul_zpow p n 0 hn
  simpa using h

theorem roundBin_natCast (p n : ℕ) (hn : n < 2 ^ p) : roundBin p (n : ℚ) = n := by
  have h := roundBin_intCast p (n : ℤ) (by simpa using (by exact_mod_cast hn))
  simpa using h

theorem f32_zero : f32 0 = 0 := roundBin_zero 24

theorem f64_zero : f64 0 = 0 := roundBin_zero 53

theorem f32_natCast (n : ℕ) (hn : n < 2 ^ 24) : f32 (n : ℚ) = n := roundBin_natCast 24 n hn

theorem f64_natCast (n : ℕ) (hn : n < 2 ^ 53) : f64 (n : ℚ) = n := roundBin_natCast 53 n hn

theorem f32_one : f32 1 = 1 := by
  have h := f32_natCast 1 (by norm_num)
  simpa using h

theorem f64_one : f64 1 = 1 := by
  have h := f64_natCast 1 (by norm_num)
  simpa using h

theorem abs_f32_sub_le (q : ℚ) : |f32 q - q| ≤ |q| / 2 ^ 24 := abs_roundBin_sub_le 24 q

theorem abs_f64_sub_le (q : ℚ) : |f64 q - q| ≤ |q| / 2 ^ 53 := abs_roundBin_sub_le 53 q

/-! ## Pixel loops -/

theorem forLoop_succ {σ : Type} (n : ℕ) (body : ℕ → σ → σ) (s : σ) :
    forLoop (n + 1) body s = body n (forLoop n body s) := by
  simp [forLoop, List.range_succ, List.foldl_append]

theorem setPixel_width (img : QImage) (x y : ℤ) (v : QRgb) :
    (img.setPixel x y v).width = img.width := by
  unfold QImage.setPixel; split_ifs <;> rfl

theorem setPixel_height (img : QImage) (x y : ℤ) (v : QRgb) :
    (img.setPixel x y v).height = img.height := by
  unfold QImage.setPixel; split_ifs <;> rfl

theorem setPixel_hasAlphaChannel (img : QImage) (x y : ℤ) (v : QRgb) :
    (img.setPixel x y v).hasAlphaChannel = img.hasAlphaChannel := by
  unfold QImage.setPixel; split_ifs <;> rfl

theorem setPixel_pix (img : QImage) (x y : ℤ) (v : QRgb) (a b : ℤ) :
    (img.setPixel x y v).pix a b = if a = x ∧ b = y ∧ img.valid x y then v else img.pix a b := by
  unfold QImage.setPixel
  by_cases hv : img.valid x y
  · by_cases hab : a = x ∧ b = y
    · simp [hv, hab]
    · have : ¬ (a = x ∧ b = y ∧ img.valid x y) := fun h => hab ⟨h.1, h.2.1⟩
      simp [hv, hab, this]
  · have : ¬ (a = x ∧ b = y ∧ img.valid x y) := fun h => hv h.2.2
    simp [hv, this]

/-- A row loop whose body writes the pixel `(x, y)` with `v x` when `wr x`
holds, and nothing else, paints exactly those pixels of the row. -/
theorem paintRow (hA : Bool) (wr : ℕ → Bool) (v : ℕ → QRgb) (y : ℕ)
    (body : ℕ → QImage → QImage)
    (hbody : ∀ x img, img.hasAlphaChannel = hA →
      body x img = if wr x = true then img.setPixel x y (v x) else img)
    (n : ℕ) (img : QImage) (h : img.hasAlphaChannel = hA) :
    (forLoop n body img).width = img.width ∧ (forLoop n body img).height = img.height ∧
    (forLoop n body img).hasAlphaChannel = hA ∧
    ∀ a b : ℤ, (forLoop n body img).pix a b =
      if 0 ≤ a ∧ a < n ∧ b = y ∧ img.valid a b ∧ wr a.toNat = true then v a.toNat
      else img.pix a b := by
  induction n with
  | zero =>
    refine ⟨rfl, rfl, h, fun a b => ?_⟩
    have : ¬ (0 ≤ a ∧ a < ((0 : ℕ) : ℤ) ∧ b = y ∧ img.valid a b ∧ wr a.toNat = true) := by
      intro hh; have := hh.1; have := hh.2.1; omega
    rw [if_neg this]; rfl
  | succ n ih =>
    obtain ⟨hw, hh, ha, hp⟩ := ih
    rw [forLoop_succ, hbody n _ ha]
    by_cases hwr : wr n = true
    · rw [if_pos hwr]
      refine ⟨by rw [setPixel_width, hw], by rw [setPixel_height, hh],
        by rw [setPixel_hasAlphaChannel, ha], fun a b => ?_⟩
      rw [setPixel_pix, hp]
      have hval : (forLoop n body img).valid n y ↔ img.valid n y := by
        unfold QImage.valid; rw [hw, hh]
      by_cases hab : a = n ∧ b = y ∧ img.valid n y
      · obtain ⟨rfl, rfl, hv⟩ := hab
        rw [if_pos ⟨rfl, rfl, hval.2 hv⟩, if_pos]
        · simp
        · refine ⟨by omega, by push_cast; omega, rfl, hv, by simpa using hwr⟩
      · rw [if_neg (fun hx => hab ⟨hx.1, hx.2.1, hval.1 hx.2.2⟩)]
        by_cases hc : 0 ≤ a ∧ a < n ∧ b = y ∧ img.valid a b ∧ wr a.toNat = true
        · rw [if_pos hc, if_pos]
          exact ⟨hc.1, by push_cast; omega, hc.2.2.1, hc.2.2.2.1, hc.2.2.2.2⟩
        · rw [if_neg hc, if_neg]
          intro hx
          apply hc
          refine ⟨hx.1, ?_, hx.2.2.1, hx.2.2.2.1, hx.2.2.2.2⟩
          have h1 := hx.2.1
          push_cast at h1
          by_contra hlt
          have han : a = n := by omega
          exact hab ⟨han, hx.2.2.1, by rw [← han, ← hx.2.2.1]; exact hx.2.2.2.1⟩
    · rw [if_neg hwr]
      refine ⟨hw, hh, ha, fun a b => ?_⟩
      rw [hp]
      by_cases hc : 0 ≤ a ∧ a < n ∧ b = y ∧ img.valid a b ∧ wr a.toNat = true
      · rw [if_pos hc, if_pos]
        exact ⟨hc.1, by push_cast; omega, hc.2.2.1, hc.2.2.2.1, hc.2.2.2.2⟩
      · rw [if_neg hc, if_neg]
        intro hx
        apply hc
        refine ⟨hx.1, ?_, hx.2.2.1, hx.2.2.2.1, hx.2.2.2.2⟩
        have h1 := hx.2.1
        push_cast at h1
        by_contra hlt
        have han : a = n := by omega
        apply hwr
        have h2 := hx.2.2.2.2
        rw [han] at h2
        simpa using h2

/-- Two nested pixel loops whose body writes the pixel `(x, y)` with `v x y`
when `wr x y` holds, and nothing else, paint exactly those pixels. -/
theorem paintImage (hA : Bool) (W0 : ℕ) (wr : ℕ → ℕ → Bool) (v : ℕ → ℕ → QRgb) (W : ℕ)
    (row : ℕ → QImage → QImage) (body : ℕ → ℕ → QImage → QImage)
    (hrow : ∀ y img, img.width = W0 → img.hasAlphaChannel = hA →
      row y img = forLoop W (fun x im => body x y im) img)
    (hbody : ∀ x y img, img.hasAlphaChannel = hA →
      body x y img = if wr x y = true then img.setPixel x y (v x y) else img)
    (n : ℕ) (img : QImage) (hw0 : img.width = W0) (h : img.hasAlphaChannel = hA) :
    (forLoop n row img).width = img.width ∧ (forLoop n row img).height = img.height ∧
    (forLoop n row img).hasAlphaChannel = hA ∧
    ∀ a b : ℤ, (forLoop n row img).pix a b =
      if 0 ≤ a ∧ a < W ∧ 0 ≤ b ∧ b < n ∧ img.valid a b ∧ wr a.toNat b.toNat = true
      then v a.toNat b.toNat else img.pix a b := by
  induction n with
  | zero =>
    refine ⟨rfl, rfl, h, fun a b => ?_⟩
    have : ¬ (0 ≤ a ∧ a < W ∧ 0 ≤ b ∧ b < ((0 : ℕ) : ℤ) ∧ img.valid a b ∧
        wr a.toNat b.toNat = true) := by
      intro hh; have := hh.2.2.1; have := hh.2.2.2.1; omega
    rw [if_neg this]; rfl
  | succ n ih =>
    obtain ⟨hw, hh, ha, hp⟩ := ih
    rw [forLoop_succ, hrow n _ (hw.trans hw0) ha]
    obtain ⟨rw1, rh1, ra1, rp1⟩ := paintRow hA (fun x => wr x n) (fun x => v x n) n
      (fun x im => body x n im) (fun x im hx => hbody x n im hx) W (forLoop n row img) ha
    refine ⟨rw1.trans hw, rh1.trans hh, ra1, fun a b => ?_⟩
    rw [rp1, hp]
    have hval : (forLoop n row img).valid a b ↔ img.valid a b := by
      unfold QImage.valid; rw [hw, hh]
    by_cases hb : b = n
    · subst hb
      have hnot : ¬ (0 ≤ a ∧ a < W ∧ 0 ≤ (n : ℤ) ∧ (n : ℤ) < n ∧ img.valid a n ∧
          wr a.toNat (n : ℤ).toNat = true) := by
        intro hx; have := hx.2.2.2.1; omega
      rw [if_neg hnot]
      by_cases hc : 0 ≤ a ∧ a < W ∧ img.valid a n ∧ wr a.toNat n = true
      · rw [if_pos ⟨hc.1, hc.2.1, rfl, hval.2 hc.2.2.1, hc.2.2.2⟩, if_pos]
        · simp
        · refine ⟨hc.1, hc.2.1, by omega, by push_cast; omega, hc.2.2.1, ?_⟩
          simpa using hc.2.2.2
      · rw [if_neg (fun hx => hc ⟨hx.1, hx.2.1, hval.1 hx.2.2.2.1, hx.2.2.2.2⟩), if_neg]
        intro hx
        apply hc
        refine ⟨hx.1, hx.2.1, hx.2.2.2.2.1, ?_⟩
        simpa using hx.2.2.2.2.2
    · rw [if_neg (fun hx => hb hx.2.2.1)]
      by_cases hc : 0 ≤ a ∧ a < W ∧ 0 ≤ b ∧ b < n ∧ img.valid a b ∧ wr a.toNat b.toNat = true
      · rw [if_pos hc, if_pos]
        exact ⟨hc.1, hc.2.1, hc.2.2.1, by push_cast; omega, hc.2.2.2.2⟩
      · rw [if_neg hc, if_neg]
        intro hx
        apply hc
        refine ⟨hx.1, hx.2.1, hx.2.2.1, ?_, hx.2.2.2.2⟩
        have h1 := hx.2.2.2.1
        push_cast at h1
        omega

theorem roundHalfEven_mono {x y : ℚ} (h : x ≤ y) : roundHalfEven x ≤ roundHalfEven y := by
  by_contra hc
  push_neg at hc
  have hx := abs_le.1 (abs_roundHalfEven_sub_le x)
  have hy := abs_le.1 (abs_roundHalfEven_sub_le y)
  have h1 : (roundHalfEven y : ℚ) + 1 ≤ roundHalfEven x := by exact_mod_cast hc
  have hxy : x = y := le_antisymm h (by linarith [hx.1, hx.2, hy.1, hy.2])
  rw [hxy] at hc
  exact lt_irrefl _ hc

theorem roundHalfEven_tie_sub (m : ℤ) (hm : m % 2 = 0) : roundHalfEven ((m : ℚ) - 1 / 2) = m := by
  have hfl : ⌊(m : ℚ) - 1 / 2⌋ = m - 1 := by
    rw [Int.floor_eq_iff]; push_cast; constructor <;> linarith
  unfold roundHalfEven
  rw [hfl]
  have e : (m : ℚ) - 1 / 2 - ((m - 1 : ℤ) : ℚ) = 1 / 2 := by push_cast; ring
  rw [e]
  have hodd : ¬ (m - 1) % 2 = 0 := by omega
  simp [hodd]

theorem roundHalfEven_neg (x : ℚ) : roundHalfEven (-x) = -roundHalfEven x := by
  have h1 := Int.floor_le x
  have h2 := Int.lt_floor_add_one x
  rcases lt_trichotomy (x - ⌊x⌋) (1 / 2) with hlt | heq | hgt
  · have e : roundHalfEven x = ⌊x⌋ := by unfold roundHalfEven; rw [if_pos hlt]
    rw [e]
    apply roundHalfEven_eq_of_abs_lt
    rw [abs_lt]; push_cast; constructor <;> linarith
  · have hx : x = ⌊x⌋ + 1 / 2 := by linarith
    by_cases hev : ⌊x⌋ % 2 = 0
    · have e : roundHalfEven x = ⌊x⌋ := by
        unfold roundHalfEven
        rw [if_neg (by linarith), if_neg (by linarith), if_pos hev]
      rw [e]
      have e2 : -x = ((-⌊x⌋ : ℤ) : ℚ) - 1 / 2 := by push_cast; linarith
      rw [e2]
      exact roundHalfEven_tie_sub _ (by omega)
    · have e : roundHalfEven x = ⌊x⌋ + 1 := by
        unfold roundHalfEven
        rw [if_neg (by linarith), if_neg (by linarith), if_neg hev]
      rw [e]
      have e2 : -x = ((-(⌊x⌋ + 1) : ℤ) : ℚ) + 1 / 2 := by push_cast; linarith
      rw [e2]
      exact roundHalfEven_tie _ (by omega)
  · have e : roundHalfEven x = ⌊x⌋ + 1 := by
      unfold roundHalfEven; rw [if_neg (by linarith), if_pos hgt]
    rw [e]
    apply roundHalfEven_eq_of_abs_lt
    rw [abs_lt]; push_cast; constructor <;> linarith

theorem roundBin_neg (p : ℕ) (q : ℚ) : roundBin p (-q) = -roundBin p q := by
  unfold roundBin
  by_cases hq : q = 0
  · simp [hq]
  · rw [if_neg hq, if_neg (neg_ne_zero.2 hq), abs_neg, neg_div, roundHalfEven_neg]
    push_cast
    ring

theorem roundBin_nonneg (p : ℕ) {q : ℚ} (h : 0 ≤ q) : 0 ≤ roundBin p q := by
  unfold roundBin
  split_ifs with hq
  · exact le_refl _
  · apply mul_nonneg _ (by positivity)
    have h0 : roundHalfEven ((0 : ℤ) : ℚ) ≤ roundHalfEven (q / 2 ^ (Int.log 2 |q| - p + 1)) :=
      roundHalfEven_mono (by push_cast; positivity)
    rw [roundHalfEven_intCast] at h0
    exact_mod_cast h0

theorem roundHalfEven_bounds_of_pos (p : ℕ) (hp : 1 ≤ p) {q : ℚ} (hq : 0 < q) :
    ((2 : ℤ) ^ (p - 1) ≤ roundHalfEven (q / 2 ^ (Int.log 2 |q| - p + 1))) ∧
    (roundHalfEven (q / 2 ^ (Int.log 2 |q| - p + 1)) ≤ (2 : ℤ) ^ p) := by
  rw [abs_of_pos hq]
  set e := Int.log 2 q with he
  have hlo : (2 : ℚ) ^ e ≤ q := by
    have h0 := Int.zpow_log_le_self (b := 2) (by norm_num) hq
    simpa [he] using h0
  have hhi : q < (2 : ℚ) ^ (e + 1) := by
    have h0 := Int.lt_zpow_succ_log_self (b := 2) (by norm_num) q
    simpa [he] using h0
  have hs : (0 : ℚ) < 2 ^ (e - p + 1) := by positivity
  have e1 : (2 : ℚ) ^ e = 2 ^ (p - 1) * 2 ^ (e - p + 1) := by
    rw [← zpow_natCast, ← zpow_add₀ (by norm_num)]
    congr 1
    have : ((p - 1 : ℕ) : ℤ) = (p : ℤ) - 1 := by omega
    rw [this]; ring
  have e2 : (2 : ℚ) ^ (e + 1) = 2 ^ p * 2 ^ (e - p + 1) := by
    rw [← zpow_natCast, ← zpow_add₀ (by norm_num)]
    congr 1
    ring
  constructor
  · have h1 : (((2 : ℤ) ^ (p - 1) : ℤ) : ℚ) ≤ q / 2 ^ (e - p + 1) := by
      rw [le_div_iff₀ hs]; push_cast; rw [← e1]; exact hlo
    have h2 := roundHalfEven_mono h1
    rwa [roundHalfEven_intCast] at h2
  · have h1 : q / 2 ^ (e - p + 1) ≤ (((2 : ℤ) ^ p : ℤ) : ℚ) := by
      rw [div_le_iff₀ hs]; push_cast; rw [← e2]; exact hhi.le
    have h2 := roundHalfEven_mono h1
    rwa [roundHalfEven_intCast] at h2

theorem roundBin_bounds_of_pos (p : ℕ) (hp : 1 ≤ p) {q : ℚ} (hq : 0 < q) :
    (2 : ℚ) ^ (Int.log 2 q) ≤ roundBin p q ∧ roundBin p q ≤ (2 : ℚ) ^ (Int.log 2 q + 1) := by
  obtain ⟨h1, h2⟩ := roundHalfEven_bounds_of_pos p hp hq
  rw [abs_of_pos hq] at h1 h2
  unfold roundBin
  rw [if_neg hq.ne', abs_of_pos hq]
  set e := Int.log 2 q with he
  have hs : (0 : ℚ) < 2 ^ (e - p + 1) := by positivity
  have e1 : (2 : ℚ) ^ e = 2 ^ (p - 1) * 2 ^ (e - p + 1) := by
    rw [← zpow_natCast, ← zpow_add₀ (by norm_num)]
    congr 1
    have : ((p - 1 : ℕ) : ℤ) = (p : ℤ) - 1 := by omega
    rw [this]; ring
  have e2 : (2 : ℚ) ^ (e + 1) = 2 ^ p * 2 ^ (e - p + 1) := by
    rw [← zpow_natCast, ← zpow_add₀ (by norm_num)]
    congr 1
    ring
  constructor
  · rw [e1]
    apply mul_le_mul_of_nonneg_right _ hs.le
    have : (((2 : ℤ) ^ (p - 1) : ℤ) : ℚ) ≤ roundHalfEven (q / 2 ^ (e - p + 1)) := by
      exact_mod_cast h1
    simpa using this
  · rw [e2]
    apply mul_le_mul_of_nonneg_right _ hs.le
    have : ((roundHalfEven (q / 2 ^ (e - p + 1)) : ℤ) : ℚ) ≤ (((2 : ℤ) ^ p : ℤ) : ℚ) := by
      exact_mod_cast h2
    simpa using this

theorem roundBin_mono_of_pos (p : ℕ) (hp : 1 ≤ p) {q1 q2 : ℚ} (h1 : 0 < q1) (h : q1 ≤ q2) :
    roundBin p q1 ≤ roundBin p q2 := by
  have h2 : 0 < q2 := lt_of_lt_of_le h1 h
  have hlog := Int.log_mono_right (b := 2) h1 h
  rcases eq_or_lt_of_le hlog with heq | hlt
  · unfold roundBin
    rw [if_neg h1.ne', if_neg h2.ne', abs_of_pos h1, abs_of_pos h2, heq]
    apply mul_le_mul_of_nonneg_right _ (by positivity)
    have : roundHalfEven (q1 / 2 ^ (Int.log 2 q2 - p + 1))
        ≤ roundHalfEven (q2 / 2 ^ (Int.log 2 q2 - p + 1)) :=
      roundHalfEven_mono (div_le_div_of_nonneg_right h (by positivity))
    exact_mod_cast this
  · have b1 := (roundBin_bounds_of_pos p hp h1).2
    have b2 := (roundBin_bounds_of_pos p hp h2).1
    have : (2 : ℚ) ^ (Int.log 2 q1 + 1) ≤ 2 ^ (Int.log 2 q2) :=
      zpow_le_zpow_right₀ (by norm_num) (by omega)
    linarith

theorem roundBin_mono (p : ℕ) (hp : 1 ≤ p) {q1 q2 : ℚ} (h : q1 ≤ q2) :
    roundBin p q1 ≤ roundBin p q2 := by
  rcases lt_trichotomy 0 q1 with h1 | h1 | h1
  · exact roundBin_mono_of_pos p hp h1 h
  · rw [← h1, roundBin_zero]; exact roundBin_nonneg p (by linarith)
  · rcases le_or_lt 0 q2 with h2 | h2
    · have a1 : roundBin p q1 ≤ 0 := by
        have := roundBin_nonneg p (by linarith : 0 ≤ -q1)
        rw [roundBin_neg] at this; linarith
      exact le_trans a1 (roundBin_nonneg p h2)
    · have := roundBin_mono_of_pos p hp (by linarith : 0 < -q2) (by linarith : -q2 ≤ -q1)
      rw [roundBin_neg, roundBin_neg] at this
      linarith

theorem roundBin_idem (p : ℕ) (hp : 1 ≤ p) (q : ℚ) : roundBin p (roundBin p q) = roundBin p q := by
  have pos : ∀ q : ℚ, 0 < q → roundBin p (roundBin p q) = roundBin p q := by
    intro q hq
    obtain ⟨h1, h2⟩ := roundHalfEven_bounds_of_pos p hp hq
    have hdef : roundBin p q =
        (roundHalfEven (q / 2 ^ (Int.log 2 |q| - p + 1)) : ℚ) * 2 ^ (Int.log 2 |q| - p + 1) := by
      unfold roundBin; rw [if_neg hq.ne']
    rw [hdef]
    set m := roundHalfEven (q / 2 ^ (Int.log 2 |q| - p + 1)) with hm
    set s := Int.log 2 |q| - p + 1 with hs
    have hmpos : 0 < m := lt_of_lt_of_le (by positivity) h1
    rcases eq_or_lt_of_le h2 with heq | hlt
    · have e : (m : ℚ) * 2 ^ s = ((1 : ℤ) : ℚ) * 2 ^ (s + p) := by
        have e0 : (2 : ℚ) ^ (s + (p : ℤ)) = 2 ^ s * 2 ^ p := by
          rw [zpow_add₀ (by norm_num), zpow_natCast]
        rw [e0, heq]; push_cast; ring
      rw [e]
      apply roundBin_intCast_mul_zpow
      rw [abs_one]
      exact one_lt_pow₀ (by norm_num) (by omega)
    · apply roundBin_intCast_mul_zpow
      rw [abs_of_pos hmpos]; exact hlt
  rcases lt_trichotomy 0 q with h1 | h1 | h1
  · exact pos q h1
  · rw [← h1, roundBin_zero, roundBin_zero]
  · have := pos (-q) (by linarith)
    rw [roundBin_neg, roundBin_neg] at this
    linarith

theorem f32_mono {q1 q2 : ℚ} (h : q1 ≤ q2) : f32 q1 ≤ f32 q2 := roundBin_mono 24 (by norm_num) h

theorem f64_mono {q1 q2 : ℚ} (h : q1 ≤ q2) : f64 q1 ≤ f64 q2 := roundBin_mono 53 (by norm_num) h

theorem f32_idem (q : ℚ) : f32 (f32 q) = f32 q := roundBin_idem 24 (by norm_num) q

theorem f64_idem (q : ℚ) : f64 (f64 q) = f64 q := roundBin_idem 53 (by norm_num) q

theorem f32_nonneg {q : ℚ} (h : 0 ≤ q) : 0 ≤ f32 q := roundBin_nonneg 24 h

theorem f64_nonneg {q : ℚ} (h : 0 ≤ q) : 0 ≤ f64 q := roundBin_nonneg 53 h

theorem f32_le_one {q : ℚ} (h : q ≤ 1) : f32 q ≤ 1 := by
  have := f32_mono h; rwa [f32_one] at this

theorem f64_le_one {q : ℚ} (h : q ≤ 1) : f64 q ≤ 1 := by
  have := f64_mono h; rwa [f64_one] at this

/-! ## Colour lemmas -/

theorem qRound_near (w : ℚ) (v : ℕ) (hv : v ≤ 65535) (hw : |w - v| ≤ 1 / 4) (hw0 : 0 ≤ w) :
    qRound w = v := by
  have hwabs := abs_le.1 hw
  have hvq : (v : ℚ) ≤ 65535 := by exact_mod_cast hv
  have hv0 : (0 : ℚ) ≤ v := by positivity
  have ht := abs_le.1 (abs_f64_sub_le (w + 1 / 2))
  have hpos : 0 ≤ w + 1 / 2 := by linarith
  rw [abs_of_nonneg hpos] at ht
  have hsmall : (w + 1 / 2) / 2 ^ 53 ≤ 1 / 8 := by
    rw [div_le_iff₀ (by positivity)]
    norm_num
    linarith [hwabs.2]
  have hnn : 0 ≤ f64 (w + 1 / 2) := f64_nonneg hpos
  unfold qRound toInt
  rw [if_pos hw0, if_pos hnn, Int.floor_eq_iff]
  push_cast
  constructor <;> linarith [ht.1, ht.2, hwabs.1, hwabs.2]

theorem channelF_range (v : ℕ) (hv : v ≤ 65535) :
    0 ≤ f64 ((v : ℚ) / 65535) ∧ f64 ((v : ℚ) / 65535) ≤ 1 := by
  have hvq : (v : ℚ) ≤ 65535 := by exact_mod_cast hv
  constructor
  · exact f64_nonneg (by positivity)
  · apply f64_le_one
    rw [div_le_iff₀ (by norm_num)]
    linarith

theorem quantize_channelF (v : ℕ) (hv : v ≤ 65535) :
    (qRound (f64 (f64 ((v : ℚ) / 65535) * 65535)) % 65536).toNat = v := by
  have hvq : (v : ℚ) ≤ 65535 := by exact_mod_cast hv
  have hv0 : (0 : ℚ) ≤ v := by positivity
  obtain ⟨hr0, hr1⟩ := channelF_range v hv
  have hz0 : (0 : ℚ) ≤ (v : ℚ) / 65535 := by positivity
  have hz1 : (v : ℚ) / 65535 ≤ 1 := by
    rw [div_le_iff₀ (by norm_num)]; linarith
  have h1 := abs_le.1 (abs_f64_sub_le ((v : ℚ) / 65535))
  rw [abs_of_nonneg hz0] at h1
  have hs1 : (v : ℚ) / 65535 / 2 ^ 53 ≤ 1 / 2 ^ 53 :=
    div_le_div_of_nonneg_right hz1 (by positivity)
  have hw'0 : 0 ≤ f64 ((v : ℚ) / 65535) * 65535 := by positivity
  have h2 := abs_le.1 (abs_f64_sub_le (f64 ((v : ℚ) / 65535) * 65535))
  rw [abs_of_nonneg hw'0] at h2
  have hs2 : f64 ((v : ℚ) / 65535) * 65535 / 2 ^ 53 ≤ 65535 / 2 ^ 53 := by
    apply div_le_div_of_nonneg_right _ (by positivity)
    nlinarith
  have hvz : (v : ℚ) = (v : ℚ) / 65535 * 65535 := by field_simp
  have hq : qRound (f64 (f64 ((v : ℚ) / 65535) * 65535)) = v := by
    apply qRound_near _ _ hv _ (f64_nonneg hw'0)
    rw [abs_le]
    have e53 : (1 : ℚ) / 2 ^ 53 ≤ 1 / 65535 / 1048576 := by norm_num
    have e53b : (65535 : ℚ) / 2 ^ 53 ≤ 1 / 1048576 := by norm_num
    constructor <;> nlinarith [h1.1, h1.2, h2.1, h2.2]
  rw [hq]
  omega

theorem mixF_zero (a b : ℚ) : mixF (f64 a) b 0 = f64 a := by
  unfold mixF
  simp only [sub_zero, mul_zero, f32_one, mul_one, f64_zero, add_zero, f64_idem]

theorem mixColor_zero (c d : QColor) (hv : c.valid = true) (ha : c.alpha ≤ 65535)
    (hr : c.red ≤ 65535) (hg : c.green ≤ 65535) (hb : c.blue ≤ 65535) : mixColor c d 0 = c := by
  unfold mixColor QColor.redF QColor.greenF QColor.blueF QColor.alphaF
  simp only [mixF_zero]
  unfold QColor.fromRgbF
  have r1 := channelF_range c.red hr
  have g1 := channelF_range c.green hg
  have b1 := channelF_range c.blue hb
  have a1 := channelF_range c.alpha ha
  rw [if_neg (by
    intro h
    rcases h with h | h | h | h | h | h | h | h <;> linarith [r1.1, r1.2, g1.1, g1.2, b1.1, b1.2, a1.1, a1.2])]
  rw [quantize_channelF _ ha, quantize_channelF _ hr, quantize_channelF _ hg,
    quantize_channelF _ hb]
  cases c
  simp_all

theorem pixelColor_of_valid (img : QImage) (x y : ℤ) (h : img.valid x y) :
    (img.pixelColor x y).valid = true ∧ (img.pixelColor x y).alpha ≤ 65535 ∧
    (img.pixelColor x y).red ≤ 65535 ∧ (img.pixelColor x y).green ≤ 65535 ∧
    (img.pixelColor x y).blue ≤ 65535 := by
  unfold QImage.pixelColor
  rw [if_pos h]
  have h1 := (img.pix x y).alpha.isLt
  have h2 := (img.pix x y).red.isLt
  have h3 := (img.pix x y).green.isLt
  have h4 := (img.pix x y).blue.isLt
  refine ⟨rfl, ?_, ?_, ?_, ?_⟩
  · show (if img.hasAlphaChannel = true then ((img.pix x y).alpha : ℕ) else 255) * 257 ≤ 65535
    split_ifs <;> omega
  · show ((img.pix x y).red : ℕ) * 257 ≤ 65535
    omega
  · show ((img.pix x y).green : ℕ) * 257 ≤ 65535
    omega
  · show ((img.pix x y).blue : ℕ) * 257 ≤ 65535
    omega

theorem sampleBilinear_at_grid (img : QImage) (x y : ℤ) (h : img.valid x y)
    (hx : f32 (x : ℚ) = x) (hy : f32 (y : ℚ) = y) :
    sampleBilinear img (x : ℚ) (y : ℚ) = img.pixelColor x y := by
  obtain ⟨hv, ha, hr, hg, hb⟩ := pixelColor_of_valid img x y h
  unfold sampleBilinear
  simp only [qFloor, Int.floor_intCast, hx, hy, sub_self, f32_zero, if_pos h]
  rw [mixColor_zero _ _ hv ha hr hg hb, mixColor_zero _ _ hv ha hr hg hb]

/-! ## The warp -/

theorem setPixelColor_eq (img : QImage) (x y : ℤ) (c : QColor) :
    img.setPixelColor x y c =
      if c.valid = true then img.setPixel x y (toArgb32 img.hasAlphaChannel c) else img := by
  unfold QImage.setPixelColor
  by_cases hv : img.valid x y
  · by_cases hc : c.valid = true
    · simp [hv, hc]
    · simp [hv, hc]
  · have : img.setPixel x y (toArgb32 img.hasAlphaChannel c) = img := by
      unfold QImage.setPixel; rw [if_neg hv]
    simp [hv, this]

/-- The image `applyWarp` leaves in `currentImage`, pixel by pixel: a pixel of
the image inside the radius for which the sampled colour is valid holds that
colour, every other pixel is the one of the old image. -/
theorem applyWarp_pix (L : Lib) (w : GooWidget) (location direction : QPointF) :
    (applyWarp L w location direction).currentImage.width = w.currentImage.width ∧
    (applyWarp L w location direction).currentImage.height = w.currentImage.height ∧
    (applyWarp L w location direction).currentImage.hasAlphaChannel
      = w.currentImage.hasAlphaChannel ∧
    ∀ a b : ℤ, (applyWarp L w location direction).currentImage.pix a b =
      if w.currentImage.valid a b ∧ pixelDist L location a.toNat b.toNat < w.radius ∧
          (warpColor L w location direction a.toNat b.toNat).valid = true
      then toArgb32 w.currentImage.hasAlphaChannel
        (warpColor L w location direction a.toNat b.toNat)
      else w.currentImage.pix a b := by
  obtain ⟨h1, h2, h3, h4⟩ := paintImage w.currentImage.hasAlphaChannel w.currentImage.width
    (fun x y => decide (pixelDist L location x y < w.radius) &&
      (warpColor L w location direction x y).valid)
    (fun x y => toArgb32 w.currentImage.hasAlphaChannel (warpColor L w location direction x y))
    w.currentImage.width
    (fun y img => forLoop img.width (fun x im => warpPixel L w location direction x y im) img)
    (fun x y im => warpPixel L w location direction x y im)
    (fun y img hw _ => by show forLoop img.width _ img = _; rw [hw])
    (fun x y img ha => by
      show warpPixel L w location direction x y img = _
      unfold warpPixel
      rw [setPixelColor_eq, ha]
      by_cases hd : pixelDist L location x y < w.radius
      · by_cases hc : (warpColor L w location direction x y).valid = true
        · simp [hd, hc]
        · simp [hd, hc]
      · simp [hd])
    w.currentImage.height w.currentImage rfl rfl
  refine ⟨h1, h2, h3, fun a b => ?_⟩
  show (forLoop w.currentImage.height
    (fun y img => forLoop img.width (fun x im => warpPixel L w location direction x y im) img)
    w.currentImage).pix a b = _
  rw [h4]
  apply if_congr _ rfl rfl
  constructor
  · intro h
    have h5 := h.2.2.2.2.2
    simp only [Bool.and_eq_true, decide_eq_true_eq] at h5
    exact ⟨h.2.2.2.2.1, h5.1, h5.2⟩
  · intro h
    have hv := h.1
    unfold QImage.valid at hv
    refine ⟨hv.1, hv.2.1, hv.2.2.1, hv.2.2.2, h.1, ?_⟩
    simp only [Bool.and_eq_true, decide_eq_true_eq]
    exact ⟨h.2.1, h.2.2⟩

theorem div257_mul (k : Fin 256) : div257 ((k : ℕ) * 257) = k := by
  have hk := k.isLt
  unfold div257
  apply Fin.ext
  simp only [Fin.ofNat, Fin.val_mk]
  have h1 : ((k : ℕ) * 257 + 128) / 256 = k ∨ ((k : ℕ) * 257 + 128) / 256 = k + 1 := by omega
  have h2 : ((k : ℕ) * 257 + 128 - ((k : ℕ) * 257 + 128) / 256) / 256 = k := by
    rcases h1 with h | h <;> rw [h] <;> omega
  rw [h2]
  omega

theorem scale_zero (p : QPointF) : p.scale 0 = ⟨0, 0⟩ := by
  simp [QPointF.scale, f64_zero]

theorem zero_scale (s : ℚ) : (⟨0, 0⟩ : QPointF).scale s = ⟨0, 0⟩ := by
  simp [QPointF.scale, f64_zero]

theorem brushOffset_force_zero (L : Lib) (w : GooWidget) (location direction coord : QPointF)
    (s : ℚ) (hf : w.force = 0) : brushOffset L w location direction coord s = ⟨0, 0⟩ := by
  unfold brushOffset
  cases hb : w.brush <;> simp [hf, f32_zero, scale_zero, zero_scale]

theorem warpColor_force_zero (L : Lib) (w : GooWidget) (location direction : QPointF)
    (x y : ℕ) (hf : w.force = 0) (hx : x < 2 ^ 24) (hy : y < 2 ^ 24)
    (hv : w.currentImage.valid x y) :
    warpColor L w location direction x y = w.currentImage.pixelColor x y := by
  unfold warpColor
  simp only [brushOffset_force_zero L w location direction _ _ hf, QPointF.sub, sub_zero]
  have hx64 : f64 (x : ℚ) = x := f64_natCast x (lt_of_lt_of_le hx (by norm_num))
  have hy64 : f64 (y : ℚ) = y := f64_natCast y (lt_of_lt_of_le hy (by norm_num))
  rw [hx64, hy64, f32_natCast x hx, f32_natCast y hy]
  have h := sampleBilinear_at_grid w.currentImage x y hv
    (by push_cast; exact f32_natCast x hx) (by push_cast; exact f32_natCast y hy)
  simpa using h

theorem toArgb32_pixelColor (img : QImage) (x y : ℤ) (hv : img.valid x y) :
    toArgb32 img.hasAlphaChannel (img.pixelColor x y)
      = ⟨if img.hasAlphaChannel then (img.pix x y).alpha else 255, (img.pix x y).red,
          (img.pix x y).green, (img.pix x y).blue⟩ := by
  unfold toArgb32 QImage.pixelColor
  rw [if_pos hv]
  simp only [div257_mul]
  cases img.hasAlphaChannel <;> simp [div257_mul]

/-! ## The claims on `sampleBilinear` and `applyWarp` -/

/-- C2, as amended. For every image and every integer coordinate `(x, y)`
inside its bounds that is exact in single precision (the `float` parameters
hold `x` and `y` themselves), `sampleBilinear(img, x, y)` returns exactly the
colour stored at `(x, y)`, in all four channels, whatever the neighbouring
pixels hold and also on the last column and row, where the `x + 1` and `y + 1`
corners are outside the image. -/
theorem sampleBilinear_integer_coordinate (img : QImage) (x y : ℤ) (h : img.valid x y)
    (hx : f32 (x : ℚ) = x) (hy : f32 (y : ℚ) = y) :
    sampleBilinear img (x : ℚ) (y : ℚ) = img.pixelColor x y :=
  sampleBilinear_at_grid img x y h hx hy

theorem sampleBilinear_integer_coordinate_witness :
    smallImage.valid 1 1 ∧ ¬ smallImage.valid 2 1 ∧ ¬ smallImage.valid 1 2 ∧
    sampleBilinear smallImage ((1 : ℤ) : ℚ) ((1 : ℤ) : ℚ) = smallImage.pixelColor 1 1 :=
  ⟨by decide, by decide, by decide,
    sampleBilinear_integer_coordinate smallImage 1 1 (by decide)
      (by simpa using f32_one) (by simpa using f32_one)⟩

theorem f32_ofNat (n : ℕ) [n.AtLeastTwo] (h : n < 2 ^ 24) :
    f32 (no_index (OfNat.ofNat n : ℚ)) = OfNat.ofNat n := by
  have := f32_natCast n h
  simpa using this

theorem f64_ofNat (n : ℕ) [n.AtLeastTwo] (h : n < 2 ^ 53) :
    f64 (no_index (OfNat.ofNat n : ℚ)) = OfNat.ofNat n := by
  have := f64_natCast n h
  simpa using this

theorem exampleLib_sqrt_sq (n : ℕ) : exampleLib.sqrt ((n * n : ℕ) : ℚ) = n := by
  show ((Nat.sqrt ⌊((n * n : ℕ) : ℚ)⌋₊ : ℕ) : ℚ) = n
  rw [Nat.floor_natCast, Nat.sqrt_eq]

theorem exampleLib_sqrt_zero : exampleLib.sqrt 0 = 0 := by
  have := exampleLib_sqrt_sq 0
  simpa using this

theorem pixelColor_congr (img img2 : QImage) (x y : ℤ) (hw : img2.width = img.width)
    (hh : img2.height = img.height) (ha : img2.hasAlphaChannel = img.hasAlphaChannel)
    (hp : img2.pix x y = ⟨if img.hasAlphaChannel then (img.pix x y).alpha else 255,
      (img.pix x y).red, (img.pix x y).green, (img.pix x y).blue⟩) :
    img2.pixelColor x y = img.pixelColor x y := by
  simp only [QImage.pixelColor, QImage.valid, hw, hh, ha, hp]
  cases img.hasAlphaChannel <;> simp

/-- With `force = 0` on an image whose coordinates are exact in single
precision, `applyWarp` leaves every pixel colour as it was. -/
theorem warp_zero_force_pixelColor (L : Lib) (w : GooWidget) (location direction : QPointF)
    (hf : w.force = 0) (hw : w.currentImage.width ≤ 2 ^ 24) (hh : w.currentImage.height ≤ 2 ^ 24)
    (x y : ℤ) (hv : w.currentImage.valid x y) :
    (applyWarp L w location direction).currentImage.pixelColor x y
      = w.currentImage.pixelColor x y := by
  obtain ⟨h1, h2, h3, h4⟩ := applyWarp_pix L w location direction
  have hv' := hv
  unfold QImage.valid at hv'
  have hx : ((x.toNat : ℕ) : ℤ) = x := Int.toNat_of_nonneg hv'.1
  have hy : ((y.toNat : ℕ) : ℤ) = y := Int.toNat_of_nonneg hv'.2.2.1
  have hxl : x.toNat < 2 ^ 24 := by omega
  have hyl : y.toNat < 2 ^ 24 := by omega
  have hc := warpColor_force_zero L w location direction x.toNat y.toNat hf hxl hyl
    (by rw [hx, hy]; exact hv)
  rw [hx, hy] at hc
  by_cases hcond : w.currentImage.valid x y ∧ pixelDist L location x.toNat y.toNat < w.radius ∧
      (warpColor L w location direction x.toNat y.toNat).valid = true
  · apply pixelColor_congr _ _ _ _ h1 h2 h3
    rw [h4, if_pos hcond, hc, toArgb32_pixelColor _ _ _ hv]
  · have hp := h4 x y
    rw [if_neg hcond] at hp
    simp only [QImage.pixelColor, QImage.valid, h1, h2, h3, hp]

/-- C1, as the code has it. For every image of width and height at most
`2 ^ 24` (every pixel coordinate is then exact as a `float`), every brush kind,
every radius > 0, every brush centre and every stroke direction, `applyWarp`
with `force = 0` produces an image of the same size whose colour equals the
colour of the input image at every pixel. -/
theorem applyWarp_force_zero (L : Lib) (w : GooWidget) (location direction : QPointF)
    (_hr : 0 < w.radius) (hf : w.force = 0) (hw : w.currentImage.width ≤ 2 ^ 24)
    (hh : w.currentImage.height ≤ 2 ^ 24) :
    (applyWarp L w location direction).currentImage.width = w.currentImage.width ∧
    (applyWarp L w location direction).currentImage.height = w.currentImage.height ∧
    ∀ x y : ℤ, w.currentImage.valid x y →
      (applyWarp L w location direction).currentImage.pixelColor x y
        = w.currentImage.pixelColor x y :=
  ⟨(applyWarp_pix L w location direction).1, (applyWarp_pix L w location direction).2.1,
    fun x y hv => warp_zero_force_pixelColor L w location direction hf hw hh x y hv⟩

theorem applyWarp_force_zero_witness :
    (0 : ℚ) < smallWidget.radius ∧ smallWidget.force = 0 ∧ smallImage.valid 1 1 ∧
    (applyWarp exampleLib smallWidget ⟨0, 0⟩ ⟨1, 0⟩).currentImage.pixelColor 1 1
      = smallImage.pixelColor 1 1 :=
  ⟨by norm_num [smallWidget], rfl, by decide,
    (applyWarp_force_zero exampleLib smallWidget ⟨0, 0⟩ ⟨1, 0⟩ (by norm_num [smallWidget]) rfl
      (by norm_num [smallWidget, smallImage]) (by norm_num [smallWidget, smallImage])).2.2 1 1
      (by decide)⟩

theorem f32_16777217 : f32 16777217 = 16777216 := by
  unfold f32
  rw [roundBin_eq_of_tie 24 16777217 24 8388608 (by norm_num [abs_of_pos])
    (by norm_num [abs_of_pos]) (by norm_num) (by norm_num)]
  norm_num

theorem f32_16777216 : f32 16777216 = 16777216 := by
  have h := roundBin_intCast_mul_zpow 24 1 24 (by norm_num)
  unfold f32
  norm_num at h
  exact h

/-- C1 fails as stated: on an image 16777218 pixels wide, `applyWarp` with
`force = 0` and the brush centred on the pixel `x = 16777217` reads the source
coordinate `16777217`, which the `float` parameter of `sampleBilinear` rounds
to `16777216`; the white pixel becomes black. -/
theorem applyWarp_force_zero_counterexample :
    (0 : ℚ) < wideWidget.radius ∧ wideWidget.force = 0 ∧
    wideWidget.currentImage.valid 16777217 0 ∧
    (applyWarp exampleLib wideWidget ⟨16777217, 0⟩ ⟨1, 0⟩).currentImage.pix 16777217 0
      = blackPixel ∧
    wideWidget.currentImage.pix 16777217 0 = whitePixel ∧
    (applyWarp exampleLib wideWidget ⟨16777217, 0⟩ ⟨1, 0⟩).currentImage.pixelColor 16777217 0
      ≠ wideWidget.currentImage.pixelColor 16777217 0 := by
  have hv : wideWidget.currentImage.valid 16777217 0 := by decide
  have hv2 : wideImage.valid ((16777216 : ℤ)) ((0 : ℤ)) := by decide
  obtain ⟨h1, h2, h3, h4⟩ := applyWarp_pix exampleLib wideWidget ⟨16777217, 0⟩ ⟨1, 0⟩
  have hd : pixelDist exampleLib ⟨16777217, 0⟩ 16777217 0 = 0 := by
    unfold pixelDist lineLength
    norm_num [f64_zero, f32_zero, exampleLib_sqrt_zero]
  have hc : warpColor exampleLib wideWidget ⟨16777217, 0⟩ ⟨1, 0⟩ 16777217 0
      = wideImage.pixelColor 16777216 0 := by
    unfold warpColor
    simp only [brushOffset_force_zero exampleLib wideWidget _ _ _ _ rfl, QPointF.sub, sub_zero]
    have e1 : f64 ((16777217 : ℕ) : ℚ) = 16777217 := by
      rw [f64_natCast _ (by norm_num)]; norm_num
    have e2 : f64 ((0 : ℕ) : ℚ) = 0 := by norm_num [f64_zero]
    rw [e1, e2, f32_16777217, f32_zero]
    have h := sampleBilinear_at_grid wideImage 16777216 0 hv2
      (by push_cast; exact f32_16777216) (by push_cast; exact f32_zero)
    simpa [wideWidget] using h
  have hcv : (wideImage.pixelColor 16777216 0).valid = true :=
    (pixelColor_of_valid wideImage 16777216 0 hv2).1
  have hp : (applyWarp exampleLib wideWidget ⟨16777217, 0⟩ ⟨1, 0⟩).currentImage.pix 16777217 0
      = blackPixel := by
    rw [h4, if_pos]
    · have e : ((16777217 : ℤ)).toNat = 16777217 := rfl
      have e0 : ((0 : ℤ)).toNat = 0 := rfl
      rw [e, e0, hc]
      have h := toArgb32_pixelColor wideImage 16777216 0 hv2
      have ha : wideWidget.currentImage.hasAlphaChannel = wideImage.hasAlphaChannel := rfl
      rw [ha, h]
      simp [wideImage, blackPixel]
    · have e : ((16777217 : ℤ)).toNat = 16777217 := rfl
      have e0 : ((0 : ℤ)).toNat = 0 := rfl
      rw [e, e0, hd, hc]
      exact ⟨hv, by norm_num [wideWidget], hcv⟩
  have hold : wideWidget.currentImage.pix 16777217 0 = whitePixel := by
    simp [wideWidget, wideImage]
  refine ⟨by norm_num [wideWidget], rfl, hv, hp, hold, ?_⟩
  intro hne
  have hv3 : (applyWarp exampleLib wideWidget ⟨16777217, 0⟩ ⟨1, 0⟩).currentImage.valid
      16777217 0 := by
    unfold QImage.valid; rw [h1, h2]; exact hv
  unfold QImage.pixelColor at hne
  rw [if_pos hv3, if_pos hv, hp, hold] at hne
  simp [blackPixel, whitePixel] at hne
  exact absurd hne.2 (by decide)

/-! ## The brush influence -/

theorem f32_err {q B : ℚ} (h0 : 0 ≤ q) (hB : q ≤ B) : |f32 q - q| ≤ B / 2 ^ 24 := by
  have h := abs_f32_sub_le q
  rw [abs_of_nonneg h0] at h
  exact le_trans h (div_le_div_of_nonneg_right hB (by positivity))

theorem f32_two : f32 2 = 2 := by simp [f32_ofNat]

theorem f32_three : f32 3 = 3 := by simp [f32_ofNat]

/-- The float evaluation of `n * n * (3 - 2 * n)` for `n` in `[0, 1]` is within
`11 / 2 ^ 24` of the exact value, and not negative. -/
theorem smoothstep_err (n : ℚ) (h0 : 0 ≤ n) (h1 : n ≤ 1) :
    |f32 (f32 (n * n) * f32 (3 - f32 (2 * n))) - n * n * (3 - 2 * n)| ≤ 11 / 2 ^ 24 ∧
    0 ≤ f32 (f32 (n * n) * f32 (3 - f32 (2 * n))) := by
  have hnn0 : 0 ≤ n * n := mul_nonneg h0 h0
  have hnn1 : n * n ≤ 1 := by nlinarith
  have ha := f32_err hnn0 hnn1
  have ha0 : 0 ≤ f32 (n * n) := f32_nonneg hnn0
  have ha1 : f32 (n * n) ≤ 1 := f32_le_one hnn1
  have h2n0 : 0 ≤ 2 * n := by linarith
  have h2n2 : 2 * n ≤ 2 := by linarith
  have hb1 := f32_err h2n0 h2n2
  have hb10 : 0 ≤ f32 (2 * n) := f32_nonneg h2n0
  have hb12 : f32 (2 * n) ≤ 2 := by
    have := f32_mono h2n2; rwa [f32_two] at this
  have h3b0 : 0 ≤ 3 - f32 (2 * n) := by linarith
  have h3b3 : 3 - f32 (2 * n) ≤ 3 := by linarith
  have hb := f32_err h3b0 h3b3
  have hbl : 1 ≤ f32 (3 - f32 (2 * n)) := by
    have := f32_mono (by linarith : (1 : ℚ) ≤ 3 - f32 (2 * n)); rwa [f32_one] at this
  have hbu : f32 (3 - f32 (2 * n)) ≤ 3 := by
    have := f32_mono h3b3; rwa [f32_three] at this
  have hab0 : 0 ≤ f32 (n * n) * f32 (3 - f32 (2 * n)) := mul_nonneg ha0 (by linarith)
  have hab3 : f32 (n * n) * f32 (3 - f32 (2 * n)) ≤ 3 := by nlinarith
  have hc := f32_err hab0 hab3
  refine ⟨?_, f32_nonneg hab0⟩
  have hδ : |f32 (3 - f32 (2 * n)) - (3 - 2 * n)| ≤ 5 / 2 ^ 24 := by
    have e : f32 (3 - f32 (2 * n)) - (3 - 2 * n)
        = (f32 (3 - f32 (2 * n)) - (3 - f32 (2 * n))) - (f32 (2 * n) - 2 * n) := by ring
    rw [e]
    calc |(f32 (3 - f32 (2 * n)) - (3 - f32 (2 * n))) - (f32 (2 * n) - 2 * n)|
        ≤ |f32 (3 - f32 (2 * n)) - (3 - f32 (2 * n))| + |f32 (2 * n) - 2 * n| := abs_sub _ _
      _ ≤ 3 / 2 ^ 24 + 2 / 2 ^ 24 := add_le_add hb hb1
      _ = 5 / 2 ^ 24 := by ring
  have t2 : |f32 (n * n) * (f32 (3 - f32 (2 * n)) - (3 - 2 * n))| ≤ 5 / 2 ^ 24 := by
    rw [abs_mul, abs_of_nonneg ha0]
    calc f32 (n * n) * |f32 (3 - f32 (2 * n)) - (3 - 2 * n)|
        ≤ 1 * (5 / 2 ^ 24) := mul_le_mul ha1 hδ (abs_nonneg _) (by norm_num)
      _ = 5 / 2 ^ 24 := by ring
  have t3 : |(f32 (n * n) - n * n) * (3 - 2 * n)| ≤ 3 / 2 ^ 24 := by
    rw [abs_mul, abs_of_nonneg (by linarith : 0 ≤ 3 - 2 * n)]
    calc |f32 (n * n) - n * n| * (3 - 2 * n)
        ≤ 1 / 2 ^ 24 * 3 := mul_le_mul ha (by linarith) (by linarith) (by positivity)
      _ = 3 / 2 ^ 24 := by ring
  have e : f32 (f32 (n * n) * f32 (3 - f32 (2 * n))) - n * n * (3 - 2 * n)
      = (f32 (f32 (n * n) * f32 (3 - f32 (2 * n))) - f32 (n * n) * f32 (3 - f32 (2 * n)))
        + f32 (n * n) * (f32 (3 - f32 (2 * n)) - (3 - 2 * n))
        + (f32 (n * n) - n * n) * (3 - 2 * n) := by ring
  rw [e]
  calc _ ≤ |f32 (f32 (n * n) * f32 (3 - f32 (2 * n))) - f32 (n * n) * f32 (3 - f32 (2 * n))
          + f32 (n * n) * (f32 (3 - f32 (2 * n)) - (3 - 2 * n))|
          + |(f32 (n * n) - n * n) * (3 - 2 * n)| := abs_add _ _
    _ ≤ |f32 (f32 (n * n) * f32 (3 - f32 (2 * n))) - f32 (n * n) * f32 (3 - f32 (2 * n))|
          + |f32 (n * n) * (f32 (3 - f32 (2 * n)) - (3 - 2 * n))|
          + |(f32 (n * n) - n * n) * (3 - 2 * n)| := by
        gcongr; exact abs_add _ _
    _ ≤ 3 / 2 ^ 24 + 5 / 2 ^ 24 + 3 / 2 ^ 24 := by gcongr
    _ = 11 / 2 ^ 24 := by ring

/-- Inside the radius `normDist` lies in `[0, 1]`, within `2 / 2 ^ 24` of
`1 - d / r`. -/
theorem normDist_err (d r : ℚ) (hd : 0 ≤ d) (hlt : d < r) :
    0 ≤ normDist d r ∧ normDist d r ≤ 1 ∧ |normDist d r - (1 - d / r)| ≤ 2 / 2 ^ 24 := by
  have hr : 0 < r := lt_of_le_of_lt hd hlt
  have ht0 : 0 ≤ d / r := div_nonneg hd hr.le
  have ht1 : d / r ≤ 1 := by rw [div_le_one hr]; exact hlt.le
  have h1 := f32_err ht0 ht1
  have hf0 : 0 ≤ f32 (d / r) := f32_nonneg ht0
  have hf1 : f32 (d / r) ≤ 1 := f32_le_one ht1
  have h2 := f32_err (by linarith : 0 ≤ 1 - f32 (d / r)) (by linarith : 1 - f32 (d / r) ≤ 1)
  unfold normDist
  refine ⟨f32_nonneg (by linarith), f32_le_one (by linarith), ?_⟩
  have e : f32 (1 - f32 (d / r)) - (1 - d / r)
      = (f32 (1 - f32 (d / r)) - (1 - f32 (d / r))) - (f32 (d / r) - d / r) := by ring
  rw [e]
  calc _ ≤ |f32 (1 - f32 (d / r)) - (1 - f32 (d / r))| + |f32 (d / r) - d / r| := abs_sub _ _
    _ ≤ 1 / 2 ^ 24 + 1 / 2 ^ 24 := add_le_add h2 h1
    _ = 2 / 2 ^ 24 := by ring

theorem smoothstep_mono {a b : ℚ} (ha0 : 0 ≤ a) (hb1 : b ≤ 1) (hab : a ≤ b) :
    a * a * (3 - 2 * a) ≤ b * b * (3 - 2 * b) := by
  have hb0 : 0 ≤ b := le_trans ha0 hab
  have ha1 : a ≤ 1 := le_trans hab hb1
  have hK : 0 ≤ 3 * (a + b) - 2 * (a * a + a * b + b * b) := by
    nlinarith [mul_nonneg ha0 (by linarith : 0 ≤ 1 - a), mul_nonneg hb0 (by linarith : 0 ≤ 1 - b),
      mul_nonneg ha0 (by linarith : 0 ≤ 1 - b), mul_nonneg hb0 (by linarith : 0 ≤ 1 - a)]
  nlinarith [mul_nonneg (by linarith : 0 ≤ b - a) hK]

theorem smoothstep_lipschitz {a b : ℚ} (ha0 : 0 ≤ a) (ha1 : a ≤ 1) (hb0 : 0 ≤ b) (hb1 : b ≤ 1) :
    |a * a * (3 - 2 * a) - b * b * (3 - 2 * b)| ≤ 3 / 2 * |a - b| := by
  have e : a * a * (3 - 2 * a) - b * b * (3 - 2 * b)
      = (a - b) * (3 * (a + b) - 2 * (a * a + a * b + b * b)) := by ring
  have hK0 : 0 ≤ 3 * (a + b) - 2 * (a * a + a * b + b * b) := by
    nlinarith [mul_nonneg ha0 (by linarith : 0 ≤ 1 - a), mul_nonneg hb0 (by linarith : 0 ≤ 1 - b),
      mul_nonneg ha0 (by linarith : 0 ≤ 1 - b), mul_nonneg hb0 (by linarith : 0 ≤ 1 - a)]
  have hK1 : 3 * (a + b) - 2 * (a * a + a * b + b * b) ≤ 3 / 2 := by
    nlinarith [sq_nonneg (a + b - 1), sq_nonneg (a - b)]
  rw [e, abs_mul, abs_of_nonneg hK0, mul_comm]
  exact mul_le_mul_of_nonneg_right hK1 (abs_nonneg _)

/-- Inside the radius the computed influence is within `14 / 2 ^ 24` of the
exact smoothstep of `1 - d / r`. -/
theorem influence_err (d r : ℚ) (hd : 0 ≤ d) (hlt : d < r) :
    |influence d r - (1 - d / r) * (1 - d / r) * (3 - 2 * (1 - d / r))| ≤ 14 / 2 ^ 24 ∧
    0 ≤ influence d r := by
  have hr : 0 < r := lt_of_le_of_lt hd hlt
  have ht0 : 0 ≤ d / r := div_nonneg hd hr.le
  have ht1 : d / r ≤ 1 := by rw [div_le_one hr]; exact hlt.le
  obtain ⟨hn0, hn1, hne⟩ := normDist_err d r hd hlt
  obtain ⟨hs, hs0⟩ := smoothstep_err (normDist d r) hn0 hn1
  have hl := smoothstep_lipschitz hn0 hn1 (by linarith : 0 ≤ 1 - d / r) (by linarith : 1 - d / r ≤ 1)
  unfold influence smoothed
  rw [if_pos hlt]
  refine ⟨?_, hs0⟩
  have e : f32 (f32 (normDist d r * normDist d r) * f32 (3 - f32 (2 * normDist d r)))
        - (1 - d / r) * (1 - d / r) * (3 - 2 * (1 - d / r))
      = (f32 (f32 (normDist d r * normDist d r) * f32 (3 - f32 (2 * normDist d r)))
          - normDist d r * normDist d r * (3 - 2 * normDist d r))
        + (normDist d r * normDist d r * (3 - 2 * normDist d r)
          - (1 - d / r) * (1 - d / r) * (3 - 2 * (1 - d / r))) := by ring
  rw [e]
  calc _ ≤ |f32 (f32 (normDist d r * normDist d r) * f32 (3 - f32 (2 * normDist d r)))
          - normDist d r * normDist d r * (3 - 2 * normDist d r)|
        + |normDist d r * normDist d r * (3 - 2 * normDist d r)
          - (1 - d / r) * (1 - d / r) * (3 - 2 * (1 - d / r))| := abs_add _ _
    _ ≤ 11 / 2 ^ 24 + 3 / 2 * (2 / 2 ^ 24) := by
        apply add_le_add hs
        exact le_trans hl (by nlinarith [hne])
    _ = 14 / 2 ^ 24 := by ring

theorem influence_zero (r : ℚ) (hr : 0 < r) : influence 0 r = 1 := by
  unfold influence smoothed normDist
  rw [if_pos hr]
  norm_num [f32_zero, f32_one, f32_two, f32_three]

theorem influence_outside (d r : ℚ) (h : r ≤ d) : influence d r = 0 := by
  unfold influence
  rw [if_neg (not_lt.2 h)]

theorem influence_almost_antitone (r d1 d2 : ℚ) (h0 : 0 ≤ d1) (h12 : d1 ≤ d2) :
    influence d2 r ≤ influence d1 r + 1 / 2 ^ 19 := by
  by_cases h2 : d2 < r
  · have h1 : d1 < r := lt_of_le_of_lt h12 h2
    have hr : 0 < r := lt_of_le_of_lt h0 h1
    obtain ⟨e1, _⟩ := influence_err d1 r h0 h1
    obtain ⟨e2, _⟩ := influence_err d2 r (le_trans h0 h12) h2
    have hm := smoothstep_mono (a := 1 - d2 / r) (b := 1 - d1 / r)
      (by have : d2 / r ≤ 1 := by rw [div_le_one hr]; exact h2.le
          linarith)
      (by have : 0 ≤ d1 / r := div_nonneg h0 hr.le
          linarith)
      (by have : d1 / r ≤ d2 / r := div_le_div_of_nonneg_right h12 hr.le
          linarith)
    have a1 := abs_le.1 e1
    have a2 := abs_le.1 e2
    have : (14 : ℚ) / 2 ^ 24 + 14 / 2 ^ 24 ≤ 1 / 2 ^ 19 := by norm_num
    linarith [a1.1, a2.2]
  · rw [influence_outside d2 r (not_lt.1 h2)]
    by_cases h1 : d1 < r
    · have := (influence_err d1 r h0 h1).2
      have : (0 : ℚ) ≤ 1 / 2 ^ 19 := by positivity
      linarith
    · rw [influence_outside d1 r (not_lt.1 h1)]
      positivity

theorem f32_eq_of (q r : ℚ) (e m : ℤ) (h1 : (2 : ℚ) ^ e ≤ |q|) (h2 : |q| < 2 ^ (e + 1))
    (h3 : |q / 2 ^ (e - 23) - m| < 1 / 2) (hr : r = m * 2 ^ (e - 23)) : f32 q = r := by
  unfold f32
  rw [roundBin_eq_of_bounds 24 q e m h1 h2 (by
    have e1 : e - ((24 : ℕ) : ℤ) + 1 = e - 23 := by push_cast; ring
    rw [e1]; exact h3), hr]
  congr 2
  push_cast; ring

theorem influence_five : influence 5 32768 = 8388607 / 8388608 := by
  have ht : f32 (5 / 32768) = 5 / 32768 :=
    f32_eq_of _ _ (-13) 10485760 (by norm_num [abs_of_pos]) (by norm_num [abs_of_pos])
      (by norm_num [abs_lt]) (by norm_num)
  have hn : f32 (1 - 5 / 32768) = 32763 / 32768 :=
    f32_eq_of _ _ (-1) 16774656 (by norm_num [abs_of_pos]) (by norm_num [abs_of_pos])
      (by norm_num [abs_lt]) (by norm_num)
  have ha : f32 (32763 / 32768 * (32763 / 32768)) = 16379 / 16384 :=
    f32_eq_of _ _ (-1) 16772096 (by norm_num [abs_of_pos]) (by norm_num [abs_of_pos])
      (by norm_num [abs_lt]) (by norm_num)
  have hb1 : f32 (2 * (32763 / 32768)) = 32763 / 16384 :=
    f32_eq_of _ _ 0 16774656 (by norm_num [abs_of_pos]) (by norm_num [abs_of_pos])
      (by norm_num [abs_lt]) (by norm_num)
  have hb : f32 (3 - 32763 / 16384) = 16389 / 16384 :=
    f32_eq_of _ _ 0 8391168 (by norm_num [abs_of_pos]) (by norm_num [abs_of_pos])
      (by norm_num [abs_lt]) (by norm_num)
  have hc : f32 (16379 / 16384 * (16389 / 16384)) = 8388607 / 8388608 :=
    f32_eq_of _ _ (-1) 16777214 (by norm_num [abs_of_pos]) (by norm_num [abs_of_pos])
      (by norm_num [abs_lt]) (by norm_num)
  unfold influence smoothed normDist
  rw [if_pos (by norm_num), ht, hn, ha, hb1, hb, hc]

theorem influence_six : influence 6 32768 = 16777215 / 16777216 := by
  have ht : f32 (6 / 32768) = 3 / 16384 :=
    f32_eq_of _ _ (-13) 12582912 (by norm_num [abs_of_pos]) (by norm_num [abs_of_pos])
      (by norm_num [abs_lt]) (by norm_num)
  have hn : f32 (1 - 3 / 16384) = 16381 / 16384 :=
    f32_eq_of _ _ (-1) 16774144 (by norm_num [abs_of_pos]) (by norm_num [abs_of_pos])
      (by norm_num [abs_lt]) (by norm_num)
  have ha : f32 (16381 / 16384 * (16381 / 16384)) = 16771073 / 16777216 :=
    f32_eq_of _ _ (-1) 16771073 (by norm_num [abs_of_pos]) (by norm_num [abs_of_pos])
      (by norm_num [abs_lt]) (by norm_num)
  have hb1 : f32 (2 * (16381 / 16384)) = 16381 / 8192 :=
    f32_eq_of _ _ 0 16774144 (by norm_num [abs_of_pos]) (by norm_num [abs_of_pos])
      (by norm_num [abs_lt]) (by norm_num)
  have hb : f32 (3 - 16381 / 8192) = 8195 / 8192 :=
    f32_eq_of _ _ 0 8391680 (by norm_num [abs_of_pos]) (by norm_num [abs_of_pos])
      (by norm_num [abs_lt]) (by norm_num)
  have hc : f32 (16771073 / 16777216 * (8195 / 8192)) = 16777215 / 16777216 :=
    f32_eq_of _ _ (-1) 16777215 (by norm_num [abs_of_pos]) (by norm_num [abs_of_pos])
      (by norm_num [abs_lt]) (by norm_num)
  unfold influence smoothed normDist
  rw [if_pos (by norm_num), ht, hn, ha, hb1, hb, hc]

/-- C3 fails as stated: with radius 32768 the influence computed in single
precision is `1 - 2 ^ (-23)` at distance 5 and `1 - 2 ^ (-24)` at distance 6,
so it increases with the distance there. -/
theorem influence_monotone_counterexample :
    (0 : ℚ) < 32768 ∧ (0 : ℚ) ≤ 5 ∧ (5 : ℚ) ≤ 6 ∧ influence 5 32768 < influence 6 32768 := by
  rw [influence_five, influence_six]
  norm_num

/-- C3, as the code has it. For every radius `r > 0` the brush influence
computed in `applyWarp` is 1 at distance 0 and 0 at every distance `d ≥ r`, and
it is non-increasing in `d ≥ 0` up to the rounding of the single precision
evaluation: for `0 ≤ d1 ≤ d2` the influence at `d2` exceeds the influence at
`d1` by at most `2 ^ (-19)`. -/
theorem influence_spec (r : ℚ) (hr : 0 < r) :
    influence 0 r = 1 ∧ (∀ d : ℚ, r ≤ d → influence d r = 0) ∧
    ∀ d1 d2 : ℚ, 0 ≤ d1 → d1 ≤ d2 → influence d2 r ≤ influence d1 r + 1 / 2 ^ 19 :=
  ⟨influence_zero r hr, fun d h => influence_outside d r h,
    fun d1 d2 h0 h12 => influence_almost_antitone r d1 d2 h0 h12⟩

theorem influence_spec_witness :
    (0 : ℚ) < 100 ∧ influence 0 100 = 1 ∧ influence 100 100 = 0 ∧
    influence 50 100 ≤ influence 0 100 + 1 / 2 ^ 19 :=
  ⟨by norm_num, (influence_spec 100 (by norm_num)).1,
    (influence_spec 100 (by norm_num)).2.1 100 (le_refl _),
    (influence_spec 100 (by norm_num)).2.2 0 50 (le_refl _) (by norm_num)⟩

/-! ## The blends -/

/-- The image `updateFusion` leaves in `fusion`, pixel by pixel. -/
theorem updateFusion_pix (c : FusionCanvas) (fresh : ℤ → ℤ → QRgb) :
    (updateFusion c fresh).fusion.width = c.imgA.width ∧
    (updateFusion c fresh).fusion.height = c.imgA.height ∧
    (updateFusion c fresh).fusion.hasAlphaChannel = true ∧
    ∀ a b : ℤ, (updateFusion c fresh).fusion.pix a b =
      if c.imgA.valid a b ∧ (fuseColor c a.toNat b.toNat).valid = true
      then toArgb32 true (fuseColor c a.toNat b.toNat) else fresh a b := by
  obtain ⟨h1, h2, h3, h4⟩ := paintImage true c.imgA.width
    (fun x y => (fuseColor c x y).valid)
    (fun x y => toArgb32 true (fuseColor c x y))
    c.imgA.width
    (fun y img => forLoop img.width (fun x im => fusePixel c x y im) img)
    (fun x y im => fusePixel c x y im)
    (fun y img hw _ => by show forLoop img.width _ img = _; rw [hw])
    (fun x y img ha => by
      show fusePixel c x y img = _
      unfold fusePixel
      rw [setPixelColor_eq, ha])
    c.imgA.height ⟨c.imgA.width, c.imgA.height, true, fresh⟩ rfl rfl
  refine ⟨h1, h2, h3, fun a b => ?_⟩
  show (forLoop c.imgA.height
    (fun y img => forLoop img.width (fun x im => fusePixel c x y im) img)
    ⟨c.imgA.width, c.imgA.height, true, fresh⟩).pix a b = _
  rw [h4]
  apply if_congr _ rfl rfl
  constructor
  · intro h
    exact ⟨⟨h.1, h.2.1, h.2.2.1, h.2.2.2.1⟩, h.2.2.2.2.2⟩
  · intro h
    have hv := h.1
    unfold QImage.valid at hv
    exact ⟨hv.1, hv.2.1, hv.2.2.1, hv.2.2.2, hv, h.2⟩

/-- The image `blendFusion` returns, pixel by pixel. -/
theorem blendFusion_pix (L : Lib) (imgA imgB : QImage) (blendAmount warpAmount : ℚ) (time : ℤ)
    (fresh : ℤ → ℤ → QRgb) :
    (blendFusion L imgA imgB blendAmount warpAmount time fresh).width = canvasWidth ∧
    (blendFusion L imgA imgB blendAmount warpAmount time fresh).height = canvasHeight ∧
    (blendFusion L imgA imgB blendAmount warpAmount time fresh).hasAlphaChannel = false ∧
    ∀ a b : ℤ, (blendFusion L imgA imgB blendAmount warpAmount time fresh).pix a b =
      if (0 ≤ a ∧ a < canvasWidth ∧ 0 ≤ b ∧ b < canvasHeight) ∧
          ¬ (warpX L warpAmount time a.toNat b.toNat < 0 ∨
            warpX L warpAmount time a.toNat b.toNat ≥ canvasWidth ∨
            warpY L warpAmount time a.toNat b.toNat < 0 ∨
            warpY L warpAmount time a.toNat b.toNat ≥ canvasHeight) ∧
          (mixedColor imgA imgB blendAmount a.toNat b.toNat
            (warpX L warpAmount time a.toNat b.toNat)
            (warpY L warpAmount time a.toNat b.toNat)).valid = true
      then toArgb32 false (mixedColor imgA imgB blendAmount a.toNat b.toNat
            (warpX L warpAmount time a.toNat b.toNat)
            (warpY L warpAmount time a.toNat b.toNat))
      else fresh a b := by
  have e : blendFusion L imgA imgB blendAmount warpAmount time fresh
      = forLoop canvasHeight
        (fun y img => forLoop canvasWidth
          (fun x im => blendPixel L imgA imgB blendAmount warpAmount time x y im) img)
        ⟨canvasWidth, canvasHeight, false, fresh⟩ := rfl
  rw [e]
  obtain ⟨h1, h2, h3, h4⟩ := paintImage false canvasWidth
    (fun x y => decide (¬ (warpX L warpAmount time x y < 0 ∨
            warpX L warpAmount time x y ≥ canvasWidth ∨
            warpY L warpAmount time x y < 0 ∨
            warpY L warpAmount time x y ≥ canvasHeight)) &&
          (mixedColor imgA imgB blendAmount x y (warpX L warpAmount time x y)
            (warpY L warpAmount time x y)).valid)
    (fun x y => toArgb32 false (mixedColor imgA imgB blendAmount x y
      (warpX L warpAmount time x y) (warpY L warpAmount time x y)))
    canvasWidth
    (fun y img => forLoop canvasWidth
      (fun x im => blendPixel L imgA imgB blendAmount warpAmount time x y im) img)
    (fun x y im => blendPixel L imgA imgB blendAmount warpAmount time x y im)
    (fun y img _ _ => rfl)
    (fun x y img ha => by
      show blendPixel L imgA imgB blendAmount warpAmount time x y img = _
      unfold blendPixel
      simp only [setPixelColor_eq, ha]
      by_cases hc : (warpX L warpAmount time x y < 0 ∨
            warpX L warpAmount time x y ≥ canvasWidth ∨
            warpY L warpAmount time x y < 0 ∨
            warpY L warpAmount time x y ≥ canvasHeight)
      · simp [hc]
      · by_cases hm : (mixedColor imgA imgB blendAmount x y (warpX L warpAmount time x y)
            (warpY L warpAmount time x y)).valid = true
        · simp [hc, hm]
        · simp [hc, hm])
    canvasHeight ⟨canvasWidth, canvasHeight, false, fresh⟩ rfl rfl
  refine ⟨h1, h2, h3, fun a b => ?_⟩
  rw [h4]
  apply if_congr _ rfl rfl
  constructor
  · intro h
    have h5 := h.2.2.2.2.2
    simp only [Bool.and_eq_true, decide_eq_true_eq] at h5
    exact ⟨⟨h.1, h.2.1, h.2.2.1, h.2.2.2.1⟩, h5.1, h5.2⟩
  · intro h
    refine ⟨h.1.1, h.1.2.1, h.1.2.2.1, h.1.2.2.2, h.1, ?_⟩
    simp only [Bool.and_eq_true, decide_eq_true_eq]
    exact ⟨h.2.1, h.2.2⟩

theorem toInt_intCast (z : ℤ) : toInt (z : ℚ) = z := by
  unfold toInt
  split_ifs <;> simp

theorem f32_intCast (a : ℤ) (h0 : 0 ≤ a) (h1 : a ≤ 255) : f32 (a : ℚ) = a :=
  roundBin_intCast 24 a (by rw [abs_of_nonneg h0]; omega)

theorem blendF_zero (a b : ℤ) (h0 : 0 ≤ a) (h1 : a ≤ 255) : blendF a b 0 = a := by
  unfold blendF
  rw [f32_intCast a h0 h1]
  simp [f32_one, f32_zero, f32_intCast a h0 h1]

theorem blendF_one (a b : ℤ) (h0 : 0 ≤ b) (h1 : b ≤ 255) : blendF a b 1 = b := by
  unfold blendF
  rw [f32_intCast b h0 h1]
  simp [f32_zero, f32_intCast b h0 h1]

theorem red8_pixelColor (img : QImage) (x y : ℤ) (hv : img.valid x y) :
    (img.pixelColor x y).red8 = ((img.pix x y).red : ℕ) := by
  have h := (img.pix x y).red.isLt
  unfold QColor.red8 QImage.pixelColor
  rw [if_pos hv]
  show (((((img.pix x y).red : ℕ) * 257 / 256 : ℕ)) : ℤ) = _
  congr 1
  omega

theorem green8_pixelColor (img : QImage) (x y : ℤ) (hv : img.valid x y) :
    (img.pixelColor x y).green8 = ((img.pix x y).green : ℕ) := by
  have h := (img.pix x y).green.isLt
  unfold QColor.green8 QImage.pixelColor
  rw [if_pos hv]
  show (((((img.pix x y).green : ℕ) * 257 / 256 : ℕ)) : ℤ) = _
  congr 1
  omega

theorem blue8_pixelColor (img : QImage) (x y : ℤ) (hv : img.valid x y) :
    (img.pixelColor x y).blue8 = ((img.pix x y).blue : ℕ) := by
  have h := (img.pix x y).blue.isLt
  unfold QColor.blue8 QImage.pixelColor
  rw [if_pos hv]
  show (((((img.pix x y).blue : ℕ) * 257 / 256 : ℕ)) : ℤ) = _
  congr 1
  omega

/-- The colour built from three channels of a stored pixel is valid and is
stored back as that pixel with alpha 255. -/
theorem fromRgb_channels (hA : Bool) (r g b : Fin 256) :
    (QColor.fromRgb ((r : ℕ) : ℤ) ((g : ℕ) : ℤ) ((b : ℕ) : ℤ) 255).valid = true ∧
    toArgb32 hA (QColor.fromRgb ((r : ℕ) : ℤ) ((g : ℕ) : ℤ) ((b : ℕ) : ℤ) 255)
      = ⟨255, r, g, b⟩ := by
  have hr := r.isLt
  have hg := g.isLt
  have hb := b.isLt
  unfold QColor.fromRgb
  rw [if_neg (by omega)]
  refine ⟨rfl, ?_⟩
  unfold toArgb32
  have e1 : ((((r : ℕ) : ℤ) * 257).toNat) = (r : ℕ) * 257 := by omega
  have e2 : ((((g : ℕ) : ℤ) * 257).toNat) = (g : ℕ) * 257 := by omega
  have e3 : ((((b : ℕ) : ℤ) * 257).toNat) = (b : ℕ) * 257 := by omega
  have e4 : (((255 : ℤ) * 257).toNat) = ((255 : Fin 256) : ℕ) * 257 := by decide
  simp only [e1, e2, e3, e4, div257_mul]
  cases hA <;> simp

theorem fuseColor_mask_zero (c : FusionCanvas) (x y : ℕ) (hA : c.imgA.valid x y)
    (hM : c.mask.valid x y) (h0 : (c.mask.pix x y).red = 0) :
    fuseColor c x y = QColor.fromRgb (((c.imgA.pix x y).red : ℕ) : ℤ)
      (((c.imgA.pix x y).green : ℕ) : ℤ) (((c.imgA.pix x y).blue : ℕ) : ℤ) 255 := by
  have hr := (c.imgA.pix x y).red.isLt
  have hg := (c.imgA.pix x y).green.isLt
  have hb := (c.imgA.pix x y).blue.isLt
  unfold fuseColor
  simp only [red8_pixelColor _ _ _ hM, red8_pixelColor _ _ _ hA, green8_pixelColor _ _ _ hA,
    blue8_pixelColor _ _ _ hA, h0]
  have e : f32 (f32 (((((0 : Fin 256) : ℕ) : ℤ) : ℚ)) / 255) = 0 := by
    simp [f32_zero]
  rw [e, blendF_zero _ _ (by omega) (by omega), blendF_zero _ _ (by omega) (by omega),
    blendF_zero _ _ (by omega) (by omega)]
  simp only [toInt_intCast]

theorem fuseColor_mask_full (c : FusionCanvas) (x y : ℕ) (hB : c.imgB.valid x y)
    (hM : c.mask.valid x y) (h0 : (c.mask.pix x y).red = 255) :
    fuseColor c x y = QColor.fromRgb (((c.imgB.pix x y).red : ℕ) : ℤ)
      (((c.imgB.pix x y).green : ℕ) : ℤ) (((c.imgB.pix x y).blue : ℕ) : ℤ) 255 := by
  have hr := (c.imgB.pix x y).red.isLt
  have hg := (c.imgB.pix x y).green.isLt
  have hb := (c.imgB.pix x y).blue.isLt
  unfold fuseColor
  simp only [red8_pixelColor _ _ _ hM, red8_pixelColor _ _ _ hB, green8_pixelColor _ _ _ hB,
    blue8_pixelColor _ _ _ hB, h0]
  have e : f32 (f32 (((((255 : Fin 256) : ℕ) : ℤ) : ℚ)) / 255) = 1 := by
    have e0 : ((255 : Fin 256) : ℕ) = 255 := rfl
    have e1 : (((((255 : Fin 256) : ℕ) : ℤ) : ℚ)) = 255 := by rw [e0]; norm_num
    rw [e1]
    simp [f32_ofNat, f32_one]
  rw [e, blendF_one _ _ (by omega) (by omega), blendF_one _ _ (by omega) (by omega),
    blendF_one _ _ (by omega) (by omega)]
  simp only [toInt_intCast]

theorem updateFusion_pix_mask_zero (c : FusionCanvas) (fresh : ℤ → ℤ → QRgb) (x y : ℤ)
    (hA : c.imgA.valid x y) (hM : c.mask.valid x y) (h0 : (c.mask.pix x y).red = 0) :
    (updateFusion c fresh).fusion.pix x y
      = ⟨255, (c.imgA.pix x y).red, (c.imgA.pix x y).green, (c.imgA.pix x y).blue⟩ := by
  have hA' := hA
  unfold QImage.valid at hA'
  have hx : ((x.toNat : ℕ) : ℤ) = x := Int.toNat_of_nonneg hA'.1
  have hy : ((y.toNat : ℕ) : ℤ) = y := Int.toNat_of_nonneg hA'.2.2.1
  have hc := fuseColor_mask_zero c x.toNat y.toNat (by rw [hx, hy]; exact hA)
    (by rw [hx, hy]; exact hM) (by rw [hx, hy]; exact h0)
  rw [hx, hy] at hc
  obtain ⟨hv, hs⟩ := fromRgb_channels true (c.imgA.pix x y).red (c.imgA.pix x y).green
    (c.imgA.pix x y).blue
  rw [(updateFusion_pix c fresh).2.2.2 x y, hc, if_pos ⟨hA, hv⟩, hs]

theorem updateFusion_pix_mask_full (c : FusionCanvas) (fresh : ℤ → ℤ → QRgb) (x y : ℤ)
    (hA : c.imgA.valid x y) (hB : c.imgB.valid x y) (hM : c.mask.valid x y)
    (h0 : (c.mask.pix x y).red = 255) :
    (updateFusion c fresh).fusion.pix x y
      = ⟨255, (c.imgB.pix x y).red, (c.imgB.pix x y).green, (c.imgB.pix x y).blue⟩ := by
  have hA' := hA
  unfold QImage.valid at hA'
  have hx : ((x.toNat : ℕ) : ℤ) = x := Int.toNat_of_nonneg hA'.1
  have hy : ((y.toNat : ℕ) : ℤ) = y := Int.toNat_of_nonneg hA'.2.2.1
  have hc := fuseColor_mask_full c x.toNat y.toNat (by rw [hx, hy]; exact hB)
    (by rw [hx, hy]; exact hM) (by rw [hx, hy]; exact h0)
  rw [hx, hy] at hc
  obtain ⟨hv, hs⟩ := fromRgb_channels true (c.imgB.pix x y).red (c.imgB.pix x y).green
    (c.imgB.pix x y).blue
  rw [(updateFusion_pix c fresh).2.2.2 x y, hc, if_pos ⟨hA, hv⟩, hs]

theorem valid_of_size_eq (img img2 : QImage) (x y : ℤ) (hw : img2.width = img.width)
    (hh : img2.height = img.height) (hv : img.valid x y) : img2.valid x y := by
  unfold QImage.valid at hv ⊢
  rw [hw, hh]; exact hv

/-- C4. For all equally sized images A and B with a mask M of the same size and
every pixel `(x, y)`, `updateFusion` gives the fused pixel the red, green and
blue of A at `(x, y)` when `M(x, y) = 0` and those of B when `M(x, y) = 255`
(the fused alpha is 255); so a constant 0 mask reproduces A and a constant 255
mask reproduces B; and for the 4 by 4 all red A, all blue B and the mask that
is 0 on the left two columns and 255 on the right two, the result is pure red
on the left half and pure blue on the right half. -/
theorem updateFusion_mask_extremes :
    (∀ (c : FusionCanvas) (fresh : ℤ → ℤ → QRgb) (x y : ℤ),
      c.imgB.width = c.imgA.width → c.imgB.height = c.imgA.height →
      c.mask.width = c.imgA.width → c.mask.height = c.imgA.height → c.imgA.valid x y →
      ((c.mask.pix x y).red = 0 → (updateFusion c fresh).fusion.pix x y
        = ⟨255, (c.imgA.pix x y).red, (c.imgA.pix x y).green, (c.imgA.pix x y).blue⟩) ∧
      ((c.mask.pix x y).red = 255 → (updateFusion c fresh).fusion.pix x y
        = ⟨255, (c.imgB.pix x y).red, (c.imgB.pix x y).green, (c.imgB.pix x y).blue⟩)) ∧
    (∀ (fresh : ℤ → ℤ → QRgb) (x y : ℤ), 0 ≤ x → x < 4 → 0 ≤ y → y < 4 →
      (updateFusion scenarioCanvas fresh).fusion.pix x y
        = if x < 2 then ⟨255, 255, 0, 0⟩ else ⟨255, 0, 0, 255⟩) := by
  constructor
  · intro c fresh x y hbw hbh hmw hmh hA
    have hB := valid_of_size_eq c.imgA c.imgB x y hbw hbh hA
    have hM := valid_of_size_eq c.imgA c.mask x y hmw hmh hA
    exact ⟨fun h0 => updateFusion_pix_mask_zero c fresh x y hA hM h0,
      fun h0 => updateFusion_pix_mask_full c fresh x y hA hB hM h0⟩
  · intro fresh x y hx0 hx4 hy0 hy4
    have hA : scenarioCanvas.imgA.valid x y := ⟨hx0, hx4, hy0, hy4⟩
    have hB : scenarioCanvas.imgB.valid x y := ⟨hx0, hx4, hy0, hy4⟩
    have hM : scenarioCanvas.mask.valid x y := ⟨hx0, hx4, hy0, hy4⟩
    by_cases h2 : x < 2
    · rw [if_pos h2, updateFusion_pix_mask_zero scenarioCanvas fresh x y hA hM
        (by simp [scenarioCanvas, halfMask, h2])]
      rfl
    · rw [if_neg h2, updateFusion_pix_mask_full scenarioCanvas fresh x y hA hB hM
        (by simp [scenarioCanvas, halfMask, h2])]
      rfl

theorem updateFusion_mask_extremes_witness :
    scenarioCanvas.imgB.width = scenarioCanvas.imgA.width ∧
    scenarioCanvas.imgB.height = scenarioCanvas.imgA.height ∧
    scenarioCanvas.mask.width = scenarioCanvas.imgA.width ∧
    scenarioCanvas.mask.height = scenarioCanvas.imgA.height ∧
    scenarioCanvas.imgA.valid 3 0 ∧ (scenarioCanvas.mask.pix 3 0).red = 255 ∧
    (updateFusion scenarioCanvas (fun _ _ => blackPixel)).fusion.pix 3 0
      = ⟨255, (scenarioCanvas.imgB.pix 3 0).red, (scenarioCanvas.imgB.pix 3 0).green,
        (scenarioCanvas.imgB.pix 3 0).blue⟩ ∧
    (updateFusion scenarioCanvas (fun _ _ => blackPixel)).fusion.pix 1 2
      = (if (1 : ℤ) < 2 then ⟨255, 255, 0, 0⟩ else ⟨255, 0, 0, 255⟩) :=
  ⟨rfl, rfl, rfl, rfl, by decide, by decide,
    (updateFusion_mask_extremes.1 scenarioCanvas (fun _ _ => blackPixel) 3 0 rfl rfl rfl rfl
      (by decide)).2 (by decide),
    updateFusion_mask_extremes.2 (fun _ _ => blackPixel) 1 2 (by norm_num) (by norm_num)
      (by norm_num) (by norm_num)⟩

theorem toInt_natCast (n : ℕ) : toInt (n : ℚ) = n := by
  have h := toInt_intCast (n : ℤ)
  simpa using h

theorem warpX_zero (L : Lib) (time : ℤ) (x y : ℕ) (hx : x < 2 ^ 53) :
    warpX L 0 time x y = x := by
  unfold warpX
  simp only [zero_mul, f64_zero, add_zero, f64_natCast x hx, toInt_natCast]

theorem warpY_zero (L : Lib) (time : ℤ) (x y : ℕ) (hy : y < 2 ^ 53) :
    warpY L 0 time x y = y := by
  unfold warpY
  simp only [zero_mul, f64_zero, add_zero, f64_natCast y hy, toInt_natCast]

theorem mixedColor_zero (imgA imgB : QImage) (x y : ℕ) (xx yy : ℤ) (hA : imgA.valid x y) :
    mixedColor imgA imgB 0 x y xx yy = QColor.fromRgb (((imgA.pix x y).red : ℕ) : ℤ)
      (((imgA.pix x y).green : ℕ) : ℤ) (((imgA.pix x y).blue : ℕ) : ℤ) 255 := by
  have hr := (imgA.pix x y).red.isLt
  have hg := (imgA.pix x y).green.isLt
  have hb := (imgA.pix x y).blue.isLt
  unfold mixedColor
  simp only [red8_pixelColor _ _ _ hA, green8_pixelColor _ _ _ hA, blue8_pixelColor _ _ _ hA]
  rw [blendF_zero _ _ (by omega) (by omega), blendF_zero _ _ (by omega) (by omega),
    blendF_zero _ _ (by omega) (by omega)]
  simp only [toInt_intCast]

theorem mixedColor_one (imgA imgB : QImage) (x y : ℕ) (xx yy : ℤ) (hB : imgB.valid xx yy) :
    mixedColor imgA imgB 1 x y xx yy = QColor.fromRgb (((imgB.pix xx yy).red : ℕ) : ℤ)
      (((imgB.pix xx yy).green : ℕ) : ℤ) (((imgB.pix xx yy).blue : ℕ) : ℤ) 255 := by
  have hr := (imgB.pix xx yy).red.isLt
  have hg := (imgB.pix xx yy).green.isLt
  have hb := (imgB.pix xx yy).blue.isLt
  unfold mixedColor
  simp only [red8_pixelColor _ _ _ hB, green8_pixelColor _ _ _ hB, blue8_pixelColor _ _ _ hB]
  rw [blendF_one _ _ (by omega) (by omega), blendF_one _ _ (by omega) (by omega),
    blendF_one _ _ (by omega) (by omega)]
  simp only [toInt_intCast]

/-- With `warpAmount = 0` every pixel of the canvas is written with the colour
`mixed` of the pixel itself. -/
theorem blendFusion_pix_no_warp (L : Lib) (imgA imgB : QImage) (blendAmount : ℚ) (time : ℤ)
    (fresh : ℤ → ℤ → QRgb) (x y : ℤ) (hx0 : 0 ≤ x) (hx : x < canvasWidth) (hy0 : 0 ≤ y)
    (hy : y < canvasHeight)
    (hm : (mixedColor imgA imgB blendAmount x.toNat y.toNat x y).valid = true) :
    (blendFusion L imgA imgB blendAmount 0 time fresh).pix x y
      = toArgb32 false (mixedColor imgA imgB blendAmount x.toNat y.toNat x y) := by
  have hxn : ((x.toNat : ℕ) : ℤ) = x := Int.toNat_of_nonneg hx0
  have hyn : ((y.toNat : ℕ) : ℤ) = y := Int.toNat_of_nonneg hy0
  have hcw : ((canvasWidth : ℕ) : ℤ) = 512 := rfl
  have hch : ((canvasHeight : ℕ) : ℤ) = 512 := rfl
  have hxl : x.toNat < 2 ^ 53 := by
    have : x.toNat < 512 := by omega
    exact lt_trans this (by norm_num)
  have hyl : y.toNat < 2 ^ 53 := by
    have : y.toNat < 512 := by omega
    exact lt_trans this (by norm_num)
  rw [(blendFusion_pix L imgA imgB blendAmount 0 time fresh).2.2.2 x y]
  simp only [warpX_zero L time _ _ hxl, warpY_zero L time _ _ hyl, hxn, hyn]
  rw [if_pos]
  refine ⟨⟨hx0, hx, hy0, hy⟩, ?_, hm⟩
  omega

/-- C5. For all canvas sized images A and B and every time value,
`blendFusion` with `warpAmount = 0` writes every pixel of the canvas: whatever
the result image held before the loops, the pixel has alpha 255 and the red,
green and blue of A when `blendAmount = 0` and those of B when
`blendAmount = 1`. -/
theorem blendFusion_extremes (L : Lib) (imgA imgB : QImage) (time : ℤ)
    (fresh : ℤ → ℤ → QRgb) (hAw : imgA.width = canvasWidth) (hAh : imgA.height = canvasHeight)
    (hBw : imgB.width = canvasWidth) (hBh : imgB.height = canvasHeight)
    (x y : ℤ) (hx0 : 0 ≤ x) (hx : x < canvasWidth) (hy0 : 0 ≤ y) (hy : y < canvasHeight) :
    (blendFusion L imgA imgB 0 0 time fresh).pix x y
      = ⟨255, (imgA.pix x y).red, (imgA.pix x y).green, (imgA.pix x y).blue⟩ ∧
    (blendFusion L imgA imgB 1 0 time fresh).pix x y
      = ⟨255, (imgB.pix x y).red, (imgB.pix x y).green, (imgB.pix x y).blue⟩ := by
  have hxn : ((x.toNat : ℕ) : ℤ) = x := Int.toNat_of_nonneg hx0
  have hyn : ((y.toNat : ℕ) : ℤ) = y := Int.toNat_of_nonneg hy0
  have hA : imgA.valid x y := by
    unfold QImage.valid; rw [hAw, hAh]; exact ⟨hx0, hx, hy0, hy⟩
  have hB : imgB.valid x y := by
    unfold QImage.valid; rw [hBw, hBh]; exact ⟨hx0, hx, hy0, hy⟩
  have h0 := mixedColor_zero imgA imgB x.toNat y.toNat x y (by rw [hxn, hyn]; exact hA)
  have h1 := mixedColor_one imgA imgB x.toNat y.toNat x y hB
  rw [hxn, hyn] at h0
  obtain ⟨va, sa⟩ := fromRgb_channels false (imgA.pix x y).red (imgA.pix x y).green
    (imgA.pix x y).blue
  obtain ⟨vb, sb⟩ := fromRgb_channels false (imgB.pix x y).red (imgB.pix x y).green
    (imgB.pix x y).blue
  constructor
  · rw [blendFusion_pix_no_warp L imgA imgB 0 time fresh x y hx0 hx hy0 hy (by rw [h0]; exact va),
      h0, sa]
  · rw [blendFusion_pix_no_warp L imgA imgB 1 time fresh x y hx0 hx hy0 hy (by rw [h1]; exact vb),
      h1, sb]

theorem blendFusion_extremes_witness :
    dimImage.width = canvasWidth ∧ dimImage.height = canvasHeight ∧
    (blendFusion exampleLib dimImage dimImage 0 0 7 (fun _ _ => blackPixel)).pix 511 0
      = ⟨255, (dimImage.pix 511 0).red, (dimImage.pix 511 0).green, (dimImage.pix 511 0).blue⟩ :=
  ⟨rfl, rfl,
    (blendFusion_extremes exampleLib dimImage dimImage 7 (fun _ _ => blackPixel) rfl rfl rfl rfl
      511 0 (by norm_num) (by norm_num [canvasWidth]) (by norm_num)
      (by norm_num [canvasHeight])).1⟩

theorem f32_four_percent : f32 (4 / 100) = 5368709 / 134217728 :=
  f32_eq_of _ _ (-5) 10737418 (by norm_num [abs_of_pos]) (by norm_num [abs_of_pos])
    (by norm_num [abs_lt]) (by norm_num)

/-- The blend of the channel 3 with itself at the weight `4 / 100.0f` is
`3 - 2 ^ (-22)` in single precision. -/
theorem blendF_three : blendF 3 3 (5368709 / 134217728) = 12582911 / 4194304 := by
  have h3 : f32 (((3 : ℤ) : ℚ)) = 3 := by
    have := f32_intCast 3 (by norm_num) (by norm_num)
    simpa using this
  have h1 : f32 (1 - 5368709 / 134217728) = 16106127 / 16777216 :=
    f32_eq_of _ _ (-1) 16106127 (by norm_num [abs_of_pos]) (by norm_num [abs_of_pos])
      (by norm_num [abs_lt]) (by norm_num)
  have h2 : f32 (3 * (16106127 / 16777216)) = 12079595 / 4194304 :=
    f32_eq_of _ _ 1 12079595 (by norm_num [abs_of_pos]) (by norm_num [abs_of_pos])
      (by norm_num [abs_lt]) (by norm_num)
  have h4 : f32 (3 * (5368709 / 134217728)) = 16106127 / 134217728 :=
    f32_eq_of _ _ (-4) 16106127 (by norm_num [abs_of_pos]) (by norm_num [abs_of_pos])
      (by norm_num [abs_lt]) (by norm_num)
  have h5 : f32 (12079595 / 4194304 + 16106127 / 134217728) = 12582911 / 4194304 :=
    f32_eq_of _ _ 1 12582911 (by norm_num [abs_of_pos]) (by norm_num [abs_of_pos])
      (by norm_num [abs_lt]) (by norm_num)
  unfold blendF
  rw [h3, h1, h2, h4, h5]

theorem toInt_blendF_three : toInt (blendF 3 3 (5368709 / 134217728)) = 2 := by
  rw [blendF_three]
  unfold toInt
  rw [if_pos (by norm_num), Int.floor_eq_iff]
  constructor <;> norm_num

/-- C6 fails on the code: blending the canvas sized image whose channels are all
3 with itself at `blendAmount = 4 / 100.0f` (the blend slider at 4) and
`warpAmount = 0` gives the channels 2, because `3 * (1 - t) + 3 * t` is
`3 - 2 ^ (-22)` in single precision and the conversion to `int` truncates. -/
theorem blendFusion_self_counterexample :
    f32 (4 / 100) = 5368709 / 134217728 ∧ (0 : ℚ) ≤ f32 (4 / 100) ∧ f32 (4 / 100) ≤ 1 ∧
    dimImage.pix 0 0 = ⟨255, 3, 3, 3⟩ ∧
    (blendFusion exampleLib dimImage dimImage (f32 (4 / 100)) 0 0 (fun _ _ => blackPixel)).pix 0 0
      = ⟨255, 2, 2, 2⟩ := by
  have hv : dimImage.valid ((0 : ℕ) : ℤ) ((0 : ℕ) : ℤ) := by decide
  have hr : (dimImage.pixelColor ((0 : ℕ) : ℤ) ((0 : ℕ) : ℤ)).red8 = 3 := by
    rw [red8_pixelColor _ _ _ hv]; rfl
  have hg : (dimImage.pixelColor ((0 : ℕ) : ℤ) ((0 : ℕ) : ℤ)).green8 = 3 := by
    rw [green8_pixelColor _ _ _ hv]; rfl
  have hb : (dimImage.pixelColor ((0 : ℕ) : ℤ) ((0 : ℕ) : ℤ)).blue8 = 3 := by
    rw [blue8_pixelColor _ _ _ hv]; rfl
  have hm : mixedColor dimImage dimImage (5368709 / 134217728) 0 0 0 0
      = QColor.fromRgb 2 2 2 255 := by
    unfold mixedColor
    have e0 : (((0 : ℕ) : ℤ)) = 0 := rfl
    rw [e0] at hr hg hb
    simp only [e0, hr, hg, hb, toInt_blendF_three]
  refine ⟨f32_four_percent, by rw [f32_four_percent]; norm_num,
    by rw [f32_four_percent]; norm_num, rfl, ?_⟩
  rw [f32_four_percent,
    blendFusion_pix_no_warp exampleLib dimImage dimImage _ 0 _ 0 0 (by norm_num)
      (by norm_num [canvasWidth]) (by norm_num) (by norm_num [canvasHeight])
      (by show (mixedColor dimImage dimImage (5368709 / 134217728) 0 0 0 0).valid = true
          rw [hm]; rfl)]
  show toArgb32 false (mixedColor dimImage dimImage (5368709 / 134217728) 0 0 0 0) = _
  rw [hm]
  decide

/-! ## The corners of `sampleBilinear` -/

theorem f64_half : f64 (1 / 2) = 1 / 2 := by
  have h := roundBin_intCast_mul_zpow 53 1 (-1) (by norm_num)
  unfold f64
  norm_num at h
  exact h

theorem f32_half : f32 (1 / 2) = 1 / 2 := by
  have h := roundBin_intCast_mul_zpow 24 1 (-1) (by norm_num)
  unfold f32
  norm_num at h
  exact h

theorem qRound_natCast (v : ℕ) (hv : v ≤ 65535) : qRound (v : ℚ) = v :=
  qRound_near v v hv (by simp) (by positivity)

theorem mixColor_transparent (t : ℚ) :
    mixColor QColor.transparent QColor.transparent t = QColor.transparent := by
  have hq : qRound (0 : ℚ) = 0 := by
    have := qRound_natCast 0 (by norm_num)
    simpa using this
  simp [mixColor, mixF, QColor.redF, QColor.greenF, QColor.blueF, QColor.alphaF,
    QColor.transparent, QColor.fromRgbF, f64_zero, hq]

theorem sampleBilinear_corners (img : QImage) (x y : ℚ) :
    sampleBilinear img x y =
      mixColor
        (mixColor (cornerColor img (qFloor x) (qFloor y) (qFloor x) (qFloor y))
          (cornerColor img (qFloor x) (qFloor y) (qFloor x + 1) (qFloor y))
          (f32 (x - f32 (qFloor x))))
        (mixColor (cornerColor img (qFloor x) (qFloor y) (qFloor x) (qFloor y + 1))
          (cornerColor img (qFloor x) (qFloor y) (qFloor x + 1) (qFloor y + 1))
          (f32 (x - f32 (qFloor x))))
        (f32 (y - f32 (qFloor y))) := by
  unfold sampleBilinear cornerColor
  by_cases h00 : img.valid (qFloor x) (qFloor y) <;> simp [h00]

theorem sampleBilinear_all_outside (img : QImage) (x y : ℚ)
    (h00 : ¬ img.valid (qFloor x) (qFloor y)) (h10 : ¬ img.valid (qFloor x + 1) (qFloor y))
    (h01 : ¬ img.valid (qFloor x) (qFloor y + 1))
    (h11 : ¬ img.valid (qFloor x + 1) (qFloor y + 1)) :
    sampleBilinear img x y = QColor.transparent := by
  unfold sampleBilinear
  simp only [if_neg h00, if_neg h10, if_neg h01, if_neg h11, mixColor_transparent]

theorem qFloor_half : qFloor (1 / 2) = 0 := by
  unfold qFloor
  rw [Int.floor_eq_iff]
  constructor <;> norm_num

theorem onePixel_pixelColor : onePixel.pixelColor 0 0 = ⟨true, 65535, 65535, 65535, 65535⟩ := by
  decide

theorem whiteF : f64 ((65535 : ℕ) / 65535 : ℚ) = 1 := by
  norm_num [f64_one]

theorem mixF_white_white : mixF 1 1 (1 / 2) = 1 := by
  unfold mixF
  norm_num [f32_half, f64_half, f64_one]

theorem mixF_white_clear : mixF 1 0 (1 / 2) = 1 / 2 := by
  unfold mixF
  norm_num [f32_half, f64_half, f64_zero]

theorem qRound_white : qRound (f64 (1 * 65535)) = 65535 := by
  have h := qRound_natCast 65535 (by norm_num)
  norm_num [f64_ofNat]
  simpa using h

theorem qRound_grey : qRound (f64 (1 / 2 * 65535)) = 32768 := by
  have e : f64 (1 / 2 * 65535) = 65535 / 2 := by
    have h := roundBin_intCast_mul_zpow 53 65535 (-1) (by norm_num)
    unfold f64
    norm_num at h ⊢
    exact h
  rw [e]
  unfold qRound toInt
  norm_num [f64_ofNat]

theorem mixColor_white_white :
    mixColor ⟨true, 65535, 65535, 65535, 65535⟩ ⟨true, 65535, 65535, 65535, 65535⟩ (1 / 2)
      = ⟨true, 65535, 65535, 65535, 65535⟩ := by
  unfold mixColor QColor.redF QColor.greenF QColor.blueF QColor.alphaF
  simp only [whiteF, mixF_white_white]
  unfold QColor.fromRgbF
  rw [if_neg (by norm_num), qRound_white]
  rfl

theorem mixColor_white_clear :
    mixColor ⟨true, 65535, 65535, 65535, 65535⟩ QColor.transparent (1 / 2)
      = ⟨true, 32768, 32768, 32768, 32768⟩ := by
  have z : f64 (((0 : ℕ) : ℚ) / 65535) = 0 := by norm_num [f64_zero]
  unfold mixColor QColor.redF QColor.greenF QColor.blueF QColor.alphaF QColor.transparent
  simp only [whiteF, z, mixF_white_clear]
  unfold QColor.fromRgbF
  rw [if_neg (by norm_num), qRound_grey]
  rfl

/-- C8 fails as stated: on the image of one opaque white pixel the sample at
`(0.5, 0)` has its corner `(1, 0)` outside the image; the code replaces it by
the colour of `(0, 0)` and returns opaque white, where transparent black in the
weighted sum would give the half transparent grey `(32768, 32768, 32768,
32768)`. -/
theorem sampleBilinear_corner_counterexample :
    onePixel.valid 0 0 ∧ ¬ onePixel.valid 1 0 ∧
    sampleBilinear onePixel (1 / 2) 0 = ⟨true, 65535, 65535, 65535, 65535⟩ ∧
    sampleBilinearSpec onePixel (1 / 2) 0 = ⟨true, 32768, 32768, 32768, 32768⟩ ∧
    sampleBilinear onePixel (1 / 2) 0 ≠ sampleBilinearSpec onePixel (1 / 2) 0 := by
  have hq0 : qFloor (0 : ℚ) = 0 := by simp [qFloor]
  have hdx : f32 (1 / 2 - f32 (((0 : ℤ) : ℚ))) = 1 / 2 := by norm_num [f32_zero, f32_half]
  have hdy : f32 (0 - f32 (((0 : ℤ) : ℚ))) = 0 := by norm_num [f32_zero]
  have v00 : onePixel.valid 0 0 := by decide
  have v10 : ¬ onePixel.valid (0 + 1) 0 := by decide
  have v01 : ¬ onePixel.valid 0 (0 + 1) := by decide
  have v11 : ¬ onePixel.valid (0 + 1) (0 + 1) := by decide
  have hcode : sampleBilinear onePixel (1 / 2) 0 = ⟨true, 65535, 65535, 65535, 65535⟩ := by
    unfold sampleBilinear
    simp only [qFloor_half, hq0, hdx, hdy, if_pos v00, if_neg v10, if_neg v01, if_neg v11,
      onePixel_pixelColor, mixColor_white_white]
    exact mixColor_zero _ _ rfl (by norm_num) (by norm_num) (by norm_num) (by norm_num)
  have hspec : sampleBilinearSpec onePixel (1 / 2) 0 = ⟨true, 32768, 32768, 32768, 32768⟩ := by
    unfold sampleBilinearSpec
    simp only [qFloor_half, hq0, hdx, hdy, if_pos v00, if_neg v10, if_neg v01, if_neg v11,
      onePixel_pixelColor, mixColor_white_clear, mixColor_transparent]
    exact mixColor_zero _ _ rfl (by norm_num) (by norm_num) (by norm_num) (by norm_num)
  refine ⟨v00, by decide, hcode, hspec, ?_⟩
  rw [hcode, hspec]
  decide

/-- C8, as the code has it. For every image and every sample coordinate
`sampleBilinear` returns a colour: the weighted sum in which the corner
`(x0, y0)` is transparent black when it lies outside the image, and each of
the other three corners that lies outside the image is replaced by the colour
used for `(x0, y0)`; when all four corners lie outside the image the result is
transparent black `(0, 0, 0, 0)`. -/
theorem sampleBilinear_fallback (img : QImage) (x y : ℚ) :
    sampleBilinear img x y =
      mixColor
        (mixColor (cornerColor img (qFloor x) (qFloor y) (qFloor x) (qFloor y))
          (cornerColor img (qFloor x) (qFloor y) (qFloor x + 1) (qFloor y))
          (f32 (x - f32 (qFloor x))))
        (mixColor (cornerColor img (qFloor x) (qFloor y) (qFloor x) (qFloor y + 1))
          (cornerColor img (qFloor x) (qFloor y) (qFloor x + 1) (qFloor y + 1))
          (f32 (x - f32 (qFloor x))))
        (f32 (y - f32 (qFloor y))) ∧
    (¬ img.valid (qFloor x) (qFloor y) →
      cornerColor img (qFloor x) (qFloor y) (qFloor x) (qFloor y) = QColor.transparent) ∧
    (¬ img.valid (qFloor x) (qFloor y) → ¬ img.valid (qFloor x + 1) (qFloor y) →
      ¬ img.valid (qFloor x) (qFloor y + 1) → ¬ img.valid (qFloor x + 1) (qFloor y + 1) →
      sampleBilinear img x y = QColor.transparent) :=
  ⟨sampleBilinear_corners img x y,
    fun h => by unfold cornerColor; rw [if_neg h, if_neg h],
    fun h00 h10 h01 h11 => sampleBilinear_all_outside img x y h00 h10 h01 h11⟩

theorem sampleBilinear_fallback_witness :
    ¬ onePixel.valid (qFloor 5) (qFloor 5) ∧ ¬ onePixel.valid (qFloor 5 + 1) (qFloor 5) ∧
    ¬ onePixel.valid (qFloor 5) (qFloor 5 + 1) ∧ ¬ onePixel.valid (qFloor 5 + 1) (qFloor 5 + 1) ∧
    sampleBilinear onePixel 5 5 = QColor.transparent := by
  have hq : qFloor (5 : ℚ) = 5 := by
    unfold qFloor
    rw [Int.floor_eq_iff]
    constructor <;> norm_num
  have h00 : ¬ onePixel.valid (qFloor 5) (qFloor 5) := by rw [hq]; decide
  have h10 : ¬ onePixel.valid (qFloor 5 + 1) (qFloor 5) := by rw [hq]; decide
  have h01 : ¬ onePixel.valid (qFloor 5) (qFloor 5 + 1) := by rw [hq]; decide
  have h11 : ¬ onePixel.valid (qFloor 5 + 1) (qFloor 5 + 1) := by rw [hq]; decide
  exact ⟨h00, h10, h01, h11, (sampleBilinear_fallback onePixel 5 5).2.2 h00 h10 h01 h11⟩

/-! ## No size check in the blends -/

/-- A blended channel of two 8 bit channels at a weight in `[0, 1]` is at least
0 and below 256, so its conversion to `int` is a channel value. -/
theorem blendF_range (a b : ℤ) (t : ℚ) (ha0 : 0 ≤ a) (ha : a ≤ 255) (hb0 : 0 ≤ b) (hb : b ≤ 255)
    (ht0 : 0 ≤ t) (ht1 : t ≤ 1) : 0 ≤ blendF a b t ∧ blendF a b t < 256 := by
  have haq0 : (0 : ℚ) ≤ a := by exact_mod_cast ha0
  have haq : (a : ℚ) ≤ 255 := by exact_mod_cast ha
  have hbq0 : (0 : ℚ) ≤ b := by exact_mod_cast hb0
  have hbq : (b : ℚ) ≤ 255 := by exact_mod_cast hb
  unfold blendF
  rw [f32_intCast a ha0 ha, f32_intCast b hb0 hb]
  have hs0 : 0 ≤ f32 (1 - t) := f32_nonneg (by linarith)
  have hs1 : f32 (1 - t) ≤ 1 := f32_le_one (by linarith)
  have hse := abs_le.1 (f32_err (by linarith : 0 ≤ 1 - t) (by linarith : 1 - t ≤ 1))
  have hp1n : 0 ≤ (a : ℚ) * f32 (1 - t) := mul_nonneg haq0 hs0
  have hp1u : (a : ℚ) * f32 (1 - t) ≤ 255 := by nlinarith
  have hp1 := abs_le.1 (f32_err hp1n hp1u)
  have hp2n : 0 ≤ (b : ℚ) * t := mul_nonneg hbq0 ht0
  have hp2u : (b : ℚ) * t ≤ 255 := by nlinarith
  have hp2 := abs_le.1 (f32_err hp2n hp2u)
  have hf1 : 0 ≤ f32 ((a : ℚ) * f32 (1 - t)) := f32_nonneg hp1n
  have hf2 : 0 ≤ f32 ((b : ℚ) * t) := f32_nonneg hp2n
  have hsum0 : 0 ≤ f32 ((a : ℚ) * f32 (1 - t)) + f32 ((b : ℚ) * t) := by linarith
  have hconv : (a : ℚ) * f32 (1 - t) + (b : ℚ) * t ≤ 255 + 255 / 2 ^ 24 := by
    have h1 : (a : ℚ) * f32 (1 - t) ≤ 255 * f32 (1 - t) := mul_le_mul_of_nonneg_right haq hs0
    have h2 : (b : ℚ) * t ≤ 255 * t := mul_le_mul_of_nonneg_right hbq ht0
    have h3 : f32 (1 - t) + t ≤ 1 + 1 / 2 ^ 24 := by linarith [hse.2]
    linarith
  have hsumu : f32 ((a : ℚ) * f32 (1 - t)) + f32 ((b : ℚ) * t) ≤ 511 / 2 := by
    have : (255 : ℚ) + 255 / 2 ^ 24 + 255 / 2 ^ 24 + 255 / 2 ^ 24 ≤ 511 / 2 := by norm_num
    linarith [hp1.2, hp2.2]
  have hfin := abs_le.1 (f32_err hsum0 hsumu)
  refine ⟨f32_nonneg hsum0, ?_⟩
  have : (511 : ℚ) / 2 + 511 / 2 / 2 ^ 24 < 256 := by norm_num
  linarith [hfin.2]

theorem red8_range (img : QImage) (x y : ℤ) :
    0 ≤ (img.pixelColor x y).red8 ∧ (img.pixelColor x y).red8 ≤ 255 := by
  by_cases hv : img.valid x y
  · rw [red8_pixelColor _ _ _ hv]
    have := (img.pix x y).red.isLt
    omega
  · unfold QImage.pixelColor; rw [if_neg hv]; decide

theorem green8_range (img : QImage) (x y : ℤ) :
    0 ≤ (img.pixelColor x y).green8 ∧ (img.pixelColor x y).green8 ≤ 255 := by
  by_cases hv : img.valid x y
  · rw [green8_pixelColor _ _ _ hv]
    have := (img.pix x y).green.isLt
    omega
  · unfold QImage.pixelColor; rw [if_neg hv]; decide

theorem blue8_range (img : QImage) (x y : ℤ) :
    0 ≤ (img.pixelColor x y).blue8 ∧ (img.pixelColor x y).blue8 ≤ 255 := by
  by_cases hv : img.valid x y
  · rw [blue8_pixelColor _ _ _ hv]
    have := (img.pix x y).blue.isLt
    omega
  · unfold QImage.pixelColor; rw [if_neg hv]; decide

theorem toInt_range {q : ℚ} (h0 : 0 ≤ q) (h1 : q < 256) : 0 ≤ toInt q ∧ toInt q ≤ 255 := by
  unfold toInt
  rw [if_pos h0]
  constructor
  · exact Int.floor_nonneg.2 h0
  · have : ⌊q⌋ < 256 := by
      rw [Int.floor_lt]; exact_mod_cast h1
    omega

theorem fromRgb_valid (r g b : ℤ) (hr0 : 0 ≤ r) (hr : r ≤ 255) (hg0 : 0 ≤ g) (hg : g ≤ 255)
    (hb0 : 0 ≤ b) (hb : b ≤ 255) : (QColor.fromRgb r g b 255).valid = true := by
  unfold QColor.fromRgb
  rw [if_neg (by omega)]

theorem maskWeight_range (img : QImage) (x y : ℤ) :
    0 ≤ f32 (f32 ((img.pixelColor x y).red8 : ℚ) / 255) ∧
    f32 (f32 ((img.pixelColor x y).red8 : ℚ) / 255) ≤ 1 := by
  obtain ⟨h0, h1⟩ := red8_range img x y
  rw [f32_intCast _ h0 h1]
  have q0 : (0 : ℚ) ≤ (img.pixelColor x y).red8 := by exact_mod_cast h0
  have q1 : (((img.pixelColor x y).red8 : ℤ) : ℚ) ≤ 255 := by exact_mod_cast h1
  constructor
  · exact f32_nonneg (by positivity)
  · apply f32_le_one
    rw [div_le_one (by norm_num)]
    exact q1

/-- The colour `updateFusion` mixes is valid for every canvas, whatever the
sizes of the three images. -/
theorem fuseColor_valid (c : FusionCanvas) (x y : ℕ) : (fuseColor c x y).valid = true := by
  obtain ⟨t0, t1⟩ := maskWeight_range c.mask x y
  obtain ⟨ra0, ra1⟩ := red8_range c.imgA x y
  obtain ⟨rb0, rb1⟩ := red8_range c.imgB x y
  obtain ⟨ga0, ga1⟩ := green8_range c.imgA x y
  obtain ⟨gb0, gb1⟩ := green8_range c.imgB x y
  obtain ⟨ba0, ba1⟩ := blue8_range c.imgA x y
  obtain ⟨bb0, bb1⟩ := blue8_range c.imgB x y
  obtain ⟨r0, r1⟩ := blendF_range _ _ _ ra0 ra1 rb0 rb1 t0 t1
  obtain ⟨g0, g1⟩ := blendF_range _ _ _ ga0 ga1 gb0 gb1 t0 t1
  obtain ⟨b0, b1⟩ := blendF_range _ _ _ ba0 ba1 bb0 bb1 t0 t1
  unfold fuseColor
  exact fromRgb_valid _ _ _ (toInt_range r0 r1).1 (toInt_range r0 r1).2 (toInt_range g0 g1).1
    (toInt_range g0 g1).2 (toInt_range b0 b1).1 (toInt_range b0 b1).2

theorem invalid_channels (img : QImage) (x y : ℤ) (hv : ¬ img.valid x y) :
    (img.pixelColor x y).red8 = 0 ∧ (img.pixelColor x y).green8 = 0 ∧
    (img.pixelColor x y).blue8 = 0 := by
  unfold QImage.pixelColor
  rw [if_neg hv]
  decide

theorem mixedColor_one_outside (imgA imgB : QImage) (x y : ℕ) (xx yy : ℤ)
    (hB : ¬ imgB.valid xx yy) :
    mixedColor imgA imgB 1 x y xx yy = QColor.fromRgb 0 0 0 255 := by
  obtain ⟨r, g, b⟩ := invalid_channels imgB xx yy hB
  unfold mixedColor
  simp only [r, g, b]
  have hb1 : ∀ a : ℤ, blendF a 0 1 = 0 := fun a => by
    have := blendF_one a 0 (by norm_num) (by norm_num)
    simpa using this
  have h := toInt_intCast 0
  simp only [Int.cast_zero] at h
  simp only [hb1, h]

theorem fuseColor_full_outside (c : FusionCanvas) (x y : ℕ) (hM : c.mask.valid x y)
    (h0 : (c.mask.pix x y).red = 255) (hB : ¬ c.imgB.valid x y) :
    fuseColor c x y = QColor.fromRgb 0 0 0 255 := by
  obtain ⟨r, g, b⟩ := invalid_channels c.imgB x y hB
  unfold fuseColor
  simp only [red8_pixelColor _ _ _ hM, h0, r, g, b]
  have e : f32 (f32 (((((255 : Fin 256) : ℕ) : ℤ) : ℚ)) / 255) = 1 := by
    have e0 : ((255 : Fin 256) : ℕ) = 255 := rfl
    have e1 : (((((255 : Fin 256) : ℕ) : ℤ) : ℚ)) = 255 := by rw [e0]; norm_num
    rw [e1]
    simp [f32_ofNat, f32_one]
  have hb1 : ∀ a : ℤ, blendF a 0 1 = 0 := fun a => by
    have := blendF_one a 0 (by norm_num) (by norm_num)
    simpa using this
  have h := toInt_intCast 0
  simp only [Int.cast_zero] at h
  simp only [e, hb1, h]

/-- C9 fails as stated: with image B of 1 by 1 pixel against the 4 by 4 image A
and mask, `updateFusion` is not rejected, it writes the pixel `(3, 0)`, black
from the read of B outside its bounds; and `blendFusion` on images of 4 by 4
and 1 by 1 pixels does the same. -/
theorem size_mismatch_counterexample :
    mismatchCanvas.imgB.width ≠ mismatchCanvas.imgA.width ∧
    (updateFusion mismatchCanvas (fun _ _ => whitePixel)).fusion.pix 3 0 = blackPixel ∧
    onePixel.width ≠ redImage.width ∧
    (blendFusion exampleLib redImage onePixel 1 0 0 (fun _ _ => whitePixel)).pix 3 0
      = blackPixel ∧
    whitePixel ≠ blackPixel := by
  have hA : mismatchCanvas.imgA.valid 3 0 := by decide
  have hM : mismatchCanvas.mask.valid ((3 : ℕ) : ℤ) ((0 : ℕ) : ℤ) := by decide
  have hB : ¬ mismatchCanvas.imgB.valid ((3 : ℕ) : ℤ) ((0 : ℕ) : ℤ) := by decide
  have hB2 : ¬ onePixel.valid 3 0 := by decide
  have hc := fuseColor_full_outside mismatchCanvas 3 0 hM (by decide) hB
  have hm := mixedColor_one_outside redImage onePixel 3 0 3 0 hB2
  refine ⟨by decide, ?_, by decide, ?_, by decide⟩
  · rw [(updateFusion_pix mismatchCanvas _).2.2.2 3 0]
    have e3 : ((3 : ℤ)).toNat = 3 := rfl
    have e0 : ((0 : ℤ)).toNat = 0 := rfl
    rw [e3, e0, hc, if_pos ⟨hA, rfl⟩]
    decide
  · rw [blendFusion_pix_no_warp exampleLib redImage onePixel 1 0 _ 3 0 (by norm_num)
      (by norm_num [canvasWidth]) (by norm_num) (by norm_num [canvasHeight])
      (by show (mixedColor redImage onePixel 1 3 0 3 0).valid = true
          rw [hm]; rfl)]
    show toArgb32 false (mixedColor redImage onePixel 1 3 0 3 0) = _
    rw [hm]
    decide

/-- C9, as the code has it. Neither blend checks sizes or has an error result.
For every canvas, whatever the sizes of B and of the mask, `updateFusion`
produces a fusion raster of the width and height of A and writes every pixel of
it with the mixed colour, in which a read of B or of the mask outside its
bounds gives red, green and blue 0; for all images, whatever their sizes,
`blendFusion` produces a raster of the canvas size. -/
theorem blends_accept_any_size :
    (∀ (c : FusionCanvas) (fresh : ℤ → ℤ → QRgb),
      (updateFusion c fresh).fusion.width = c.imgA.width ∧
      (updateFusion c fresh).fusion.height = c.imgA.height ∧
      ∀ x y : ℤ, c.imgA.valid x y →
        (updateFusion c fresh).fusion.pix x y = toArgb32 true (fuseColor c x.toNat y.toNat)) ∧
    (∀ (img : QImage) (x y : ℤ), ¬ img.valid x y →
      (img.pixelColor x y).red8 = 0 ∧ (img.pixelColor x y).green8 = 0 ∧
      (img.pixelColor x y).blue8 = 0) ∧
    (∀ (L : Lib) (imgA imgB : QImage) (blendAmount warpAmount : ℚ) (time : ℤ)
      (fresh : ℤ → ℤ → QRgb),
      (blendFusion L imgA imgB blendAmount warpAmount time fresh).width = canvasWidth ∧
      (blendFusion L imgA imgB blendAmount warpAmount time fresh).height = canvasHeight) := by
  refine ⟨fun c fresh => ?_, invalid_channels, fun L imgA imgB t w time fresh => ?_⟩
  · obtain ⟨h1, h2, _, h4⟩ := updateFusion_pix c fresh
    refine ⟨h1, h2, fun x y hv => ?_⟩
    rw [h4, if_pos ⟨hv, fuseColor_valid c _ _⟩]
  · obtain ⟨h1, h2, _, _⟩ := blendFusion_pix L imgA imgB t w time fresh
    exact ⟨h1, h2⟩

theorem blends_accept_any_size_witness :
    mismatchCanvas.imgA.valid 3 0 ∧ ¬ mismatchCanvas.imgB.valid 3 0 ∧
    (updateFusion mismatchCanvas (fun _ _ => whitePixel)).fusion.pix 3 0
      = toArgb32 true (fuseColor mismatchCanvas (3 : ℤ).toNat (0 : ℤ).toNat) ∧
    (mismatchCanvas.imgB.pixelColor 3 0).red8 = 0 :=
  ⟨by decide, by decide,
    (blends_accept_any_size.1 mismatchCanvas (fun _ _ => whitePixel)).2.2 3 0 (by decide),
    (blends_accept_any_size.2.1 mismatchCanvas.imgB 3 0 (by decide)).1⟩

/-! ## The fractal -/

theorem escapeLoop_i_le (L : Lib) (time : ℤ) (fuel : ℕ) (s : EscapeState) (h : s.i ≤ 255) :
    (escapeLoop L time fuel s).i ≤ 255 := by
  induction fuel generalizing s with
  | zero => exact h
  | succ n ih =>
    unfold escapeLoop
    by_cases hc : escapeCond s
    · rw [if_pos hc]
      apply ih
      have := hc.2
      show s.i + 1 ≤ 255
      omega
    · rw [if_neg hc]; exact h

/-- With enough fuel to reach `i = 255` the loop stops because its condition
fails, not because the fuel is used up. -/
theorem escapeLoop_done (L : Lib) (time : ℤ) (fuel : ℕ) (s : EscapeState)
    (h : 255 ≤ s.i + fuel) : ¬ escapeCond (escapeLoop L time fuel s) := by
  induction fuel generalizing s with
  | zero =>
    intro hc
    have := hc.2
    simp only [escapeLoop] at this
    omega
  | succ n ih =>
    unfold escapeLoop
    by_cases hc : escapeCond s
    · rw [if_pos hc]
      apply ih
      show 255 ≤ s.i + 1 + n
      omega
    · rw [if_neg hc]; exact hc

/-- The image `generateFractal` returns, pixel by pixel. -/
theorem generateFractal_pix (L : Lib) (zoom : Dbl) (time : ℤ) (fresh : ℤ → ℤ → QRgb) :
    (generateFractal L zoom time fresh).width = canvasWidth ∧
    (generateFractal L zoom time fresh).height = canvasHeight ∧
    ∀ a b : ℤ, (generateFractal L zoom time fresh).pix a b =
      if 0 ≤ a ∧ a < canvasWidth ∧ 0 ≤ b ∧ b < canvasHeight
      then qRgb (escape L zoom time a.toNat b.toNat).i (escape L zoom time a.toNat b.toNat).i
        (escape L zoom time a.toNat b.toNat).i
      else fresh a b := by
  have e : generateFractal L zoom time fresh
      = forLoop canvasHeight
        (fun y im => forLoop canvasWidth
          (fun x im2 => im2.setPixel x y
            (qRgb (escape L zoom time x y).i (escape L zoom time x y).i
              (escape L zoom time x y).i)) im)
        ⟨canvasWidth, canvasHeight, false, fresh⟩ := rfl
  rw [e]
  obtain ⟨h1, h2, _, h4⟩ := paintImage false canvasWidth (fun _ _ => true)
    (fun x y => qRgb (escape L zoom time x y).i (escape L zoom time x y).i
      (escape L zoom time x y).i)
    canvasWidth
    (fun y im => forLoop canvasWidth
      (fun x im2 => im2.setPixel x y
        (qRgb (escape L zoom time x y).i (escape L zoom time x y).i
          (escape L zoom time x y).i)) im)
    (fun x y im2 => im2.setPixel x y
      (qRgb (escape L zoom time x y).i (escape L zoom time x y).i (escape L zoom time x y).i))
    (fun y img _ _ => rfl)
    (fun x y img _ => by simp)
    canvasHeight ⟨canvasWidth, canvasHeight, false, fresh⟩ rfl rfl
  refine ⟨h1, h2, fun a b => ?_⟩
  rw [h4]
  apply if_congr _ rfl rfl
  constructor
  · intro h
    exact ⟨h.1, h.2.1, h.2.2.1, h.2.2.2.1⟩
  · intro h
    exact ⟨h.1, h.2.1, h.2.2.1, h.2.2.2, h, rfl⟩

theorem qRgb_gray (i : ℕ) (h : i ≤ 255) :
    (qRgb i i i).alpha = 255 ∧ ((qRgb i i i).red : ℕ) = i ∧ ((qRgb i i i).green : ℕ) = i ∧
    ((qRgb i i i).blue : ℕ) = i := by
  unfold qRgb
  have e : (((i : ℤ) % 256).toNat) = i := by omega
  simp only [e, Fin.ofNat, Fin.val_mk]
  refine ⟨trivial, ?_, ?_, ?_⟩ <;> omega

/-! ## The computed distance and the Euclidean distance -/

theorem roundBin_repr (p : ℕ) (hp : 1 ≤ p) (q : ℚ) :
    ∃ m s : ℤ, |m| ≤ 2 ^ p ∧ roundBin p q = m * 2 ^ s := by
  have pos : ∀ q : ℚ, 0 < q → ∃ m s : ℤ, |m| ≤ 2 ^ p ∧ roundBin p q = m * 2 ^ s := by
    intro q hq
    obtain ⟨h1, h2⟩ := roundHalfEven_bounds_of_pos p hp hq
    refine ⟨roundHalfEven (q / 2 ^ (Int.log 2 |q| - p + 1)), Int.log 2 |q| - p + 1, ?_, ?_⟩
    · rw [abs_of_nonneg (le_trans (by positivity) h1)]; exact h2
    · unfold roundBin; rw [if_neg hq.ne']
  rcases lt_trichotomy 0 q with h | h | h
  · exact pos q h
  · exact ⟨0, 0, by simp, by rw [← h, roundBin_zero]; simp⟩
  · obtain ⟨m, s, hm, hr⟩ := pos (-q) (by linarith)
    refine ⟨-m, s, by rwa [abs_neg], ?_⟩
    rw [roundBin_neg] at hr
    push_cast
    linarith

/-- A `float` value is a `double` value. -/
theorem f64_f32 (q : ℚ) : f64 (f32 q) = f32 q := by
  obtain ⟨m, s, hm, hr⟩ := roundBin_repr 24 (by norm_num) q
  unfold f64 f32
  rw [hr]
  exact roundBin_intCast_mul_zpow 53 m s (lt_of_le_of_lt hm (by norm_num))

theorem f64_intCast (z : ℤ) (h : |z| < 2 ^ 53) : f64 (z : ℚ) = z := roundBin_intCast 53 z h

/-- For a brush centre and a pixel with integer coordinates below `2 ^ 24` in
absolute value the distance the code computes is not below a `float` radius
that the Euclidean distance reaches, when the library square root of a double
is not below any double whose square the argument reaches. -/
theorem pixelDist_ge_of_euclid (L : Lib)
    (hsqrt : ∀ s r : ℚ, 0 ≤ r → f64 r = r → r * r ≤ s → r ≤ L.sqrt s)
    (lx ly : ℤ) (x y : ℕ) (r : ℚ) (hr0 : 0 ≤ r) (hrf : f32 r = r)
    (hlx : |lx| ≤ 2 ^ 24) (hly : |ly| ≤ 2 ^ 24) (hx : x < 2 ^ 24) (hy : y < 2 ^ 24)
    (he : r * r ≤ (((lx - x) ^ 2 + (ly - y) ^ 2 : ℤ) : ℚ)) :
    r ≤ pixelDist L ⟨lx, ly⟩ x y := by
  have hlx' := abs_le.1 hlx
  have hly' := abs_le.1 hly
  have hdx : |lx - (x : ℤ)| < 2 ^ 26 := by
    rw [abs_lt]; constructor <;> omega
  have hdy : |ly - (y : ℤ)| < 2 ^ 26 := by
    rw [abs_lt]; constructor <;> omega
  have hdx2 : (lx - (x : ℤ)) ^ 2 < 2 ^ 52 := by
    have := abs_lt.1 hdx
    nlinarith [this.1, this.2]
  have hdy2 : (ly - (y : ℤ)) ^ 2 < 2 ^ 52 := by
    have := abs_lt.1 hdy
    nlinarith [this.1, this.2]
  have e1 : f64 ((lx : ℚ) - (x : ℚ)) = ((lx - x : ℤ) : ℚ) := by
    have := f64_intCast (lx - x) (lt_trans hdx (by norm_num))
    push_cast at this ⊢
    exact this
  have e2 : f64 ((ly : ℚ) - (y : ℚ)) = ((ly - y : ℤ) : ℚ) := by
    have := f64_intCast (ly - y) (lt_trans hdy (by norm_num))
    push_cast at this ⊢
    exact this
  have e3 : f64 (((lx - x : ℤ) : ℚ) * ((lx - x : ℤ) : ℚ)) = (((lx - x) ^ 2 : ℤ) : ℚ) := by
    have := f64_intCast ((lx - x) ^ 2)
      (by rw [abs_of_nonneg (sq_nonneg _)]; exact lt_trans hdx2 (by norm_num))
    rw [← this]; congr 1; push_cast; ring
  have e4 : f64 (((ly - y : ℤ) : ℚ) * ((ly - y : ℤ) : ℚ)) = (((ly - y) ^ 2 : ℤ) : ℚ) := by
    have := f64_intCast ((ly - y) ^ 2)
      (by rw [abs_of_nonneg (sq_nonneg _)]; exact lt_trans hdy2 (by norm_num))
    rw [← this]; congr 1; push_cast; ring
  have e5 : f64 ((((lx - x) ^ 2 : ℤ) : ℚ) + (((ly - y) ^ 2 : ℤ) : ℚ))
      = (((lx - x) ^ 2 + (ly - y) ^ 2 : ℤ) : ℚ) := by
    have := f64_intCast ((lx - x) ^ 2 + (ly - y) ^ 2)
      (by rw [abs_of_nonneg (add_nonneg (sq_nonneg _) (sq_nonneg _))]
          have : (2 : ℤ) ^ 52 + 2 ^ 52 = 2 ^ 53 := by norm_num
          omega)
    rw [← this]; congr 1; push_cast; ring
  have hrd : f64 r = r := by rw [← hrf]; exact f64_f32 r
  have h1 := hsqrt _ r hr0 hrd he
  have h2 := f64_mono h1
  rw [hrd] at h2
  have h3 := f32_mono h2
  rw [hrf] at h3
  unfold pixelDist lineLength
  simp only [e1, e2, e3, e4, e5]
  exact h3

theorem upperSqrtLib_sqrt (s r : ℚ) (hr0 : 0 ≤ r) (h : r * r ≤ s) : r ≤ upperSqrtLib.sqrt s := by
  show r ≤ (Nat.sqrt ⌈s⌉₊ : ℚ) + 1
  have h1 : s ≤ (⌈s⌉₊ : ℚ) := Nat.le_ceil s
  have h2 : ⌈s⌉₊ < (Nat.sqrt ⌈s⌉₊ + 1) * (Nat.sqrt ⌈s⌉₊ + 1) := Nat.lt_succ_sqrt _
  have h3 : (⌈s⌉₊ : ℚ) < ((Nat.sqrt ⌈s⌉₊ : ℚ) + 1) * ((Nat.sqrt ⌈s⌉₊ : ℚ) + 1) := by
    exact_mod_cast h2
  have h4 : (0 : ℚ) ≤ (Nat.sqrt ⌈s⌉₊ : ℚ) + 1 := by positivity
  by_contra hc
  push_neg at hc
  nlinarith

/-- A pixel whose computed distance is not below the radius keeps its stored
value and its colour. -/
theorem warp_keeps_outside (L : Lib) (w : GooWidget) (location direction : QPointF) (x y : ℕ)
    (hd : w.radius ≤ pixelDist L location x y) :
    (applyWarp L w location direction).currentImage.pix x y = w.currentImage.pix x y ∧
    (applyWarp L w location direction).currentImage.pixelColor x y
      = w.currentImage.pixelColor x y := by
  obtain ⟨h1, h2, h3, h4⟩ := applyWarp_pix L w location direction
  have hp : (applyWarp L w location direction).currentImage.pix x y = w.currentImage.pix x y := by
    rw [h4, if_neg]
    intro h
    have := h.2.1
    simp only [Int.toNat_natCast] at this
    linarith
  refine ⟨hp, ?_⟩
  simp only [QImage.pixelColor, QImage.valid, h1, h2, h3, hp]

/-- C7. For every image, brush kind, radius > 0, force, brush centre and stroke
direction, a pixel of the image whose distance to the brush centre is greater
than or equal to the radius has the same colour in the output of `applyWarp`
as in its input.  First for the distance as the code computes it, the
`QLineF(coord, location).length()` narrowed to `float`, for every brush centre;
then for the exact Euclidean distance, for a brush centre with integer
coordinates up to `2 ^ 24` in absolute value (the mouse position the handler
passes), pixel coordinates below `2 ^ 24`, a radius that is a `float` value and
a library square root that is not below a double whose square its argument
reaches. -/
theorem applyWarp_outside_radius (L : Lib) (w : GooWidget) (location direction : QPointF)
    (x y : ℕ) (hr : 0 < w.radius) (_hv : w.currentImage.valid x y) :
    (w.radius ≤ pixelDist L location x y →
      (applyWarp L w location direction).currentImage.pix x y = w.currentImage.pix x y ∧
      (applyWarp L w location direction).currentImage.pixelColor x y
        = w.currentImage.pixelColor x y) ∧
    (∀ lx ly : ℤ, location = ⟨lx, ly⟩ →
      (∀ s r : ℚ, 0 ≤ r → f64 r = r → r * r ≤ s → r ≤ L.sqrt s) →
      f32 w.radius = w.radius → |lx| ≤ 2 ^ 24 → |ly| ≤ 2 ^ 24 → x < 2 ^ 24 → y < 2 ^ 24 →
      w.radius * w.radius ≤ (((lx - x) ^ 2 + (ly - y) ^ 2 : ℤ) : ℚ) →
      (applyWarp L w location direction).currentImage.pix x y = w.currentImage.pix x y ∧
      (applyWarp L w location direction).currentImage.pixelColor x y
        = w.currentImage.pixelColor x y) := by
  refine ⟨fun hd => warp_keeps_outside L w location direction x y hd, ?_⟩
  intro lx ly hloc hsqrt hrf hlx hly hx hy he
  apply warp_keeps_outside L w location direction x y
  rw [hloc]
  exact pixelDist_ge_of_euclid L hsqrt lx ly x y w.radius hr.le hrf hlx hly hx hy he

theorem applyWarp_outside_radius_witness :
    (0 : ℚ) < smallWidget.radius ∧ smallImage.valid (0 : ℕ) (0 : ℕ) ∧
    smallWidget.radius ≤ pixelDist exampleLib ⟨50, 0⟩ 0 0 ∧
    (applyWarp exampleLib smallWidget ⟨50, 0⟩ ⟨1, 0⟩).currentImage.pix (0 : ℕ) (0 : ℕ)
      = smallImage.pix (0 : ℕ) (0 : ℕ) ∧
    f32 smallWidget.radius = smallWidget.radius ∧
    smallWidget.radius * smallWidget.radius
      ≤ ((((50 : ℤ) - (0 : ℕ)) ^ 2 + ((0 : ℤ) - (0 : ℕ)) ^ 2 : ℤ) : ℚ) ∧
    (applyWarp upperSqrtLib smallWidget ⟨((50 : ℤ) : ℚ), ((0 : ℤ) : ℚ)⟩ ⟨1, 0⟩).currentImage.pix
        (0 : ℕ) (0 : ℕ) = smallImage.pix (0 : ℕ) (0 : ℕ) := by
  have hd : pixelDist exampleLib ⟨50, 0⟩ 0 0 = 50 := by
    unfold pixelDist lineLength
    have h2500 : exampleLib.sqrt (2500 : ℚ) = 50 := by
      have := exampleLib_sqrt_sq 50
      norm_num at this
      exact this
    norm_num [f64_zero, f64_ofNat, f32_ofNat, h2500]
  have hr : (0 : ℚ) < smallWidget.radius := by norm_num [smallWidget]
  have hle : smallWidget.radius ≤ pixelDist exampleLib ⟨50, 0⟩ 0 0 := by
    rw [hd]; norm_num [smallWidget]
  have hrf : f32 smallWidget.radius = smallWidget.radius := by
    simp [smallWidget, f32_ofNat]
  have he : smallWidget.radius * smallWidget.radius
      ≤ ((((50 : ℤ) - (0 : ℕ)) ^ 2 + ((0 : ℤ) - (0 : ℕ)) ^ 2 : ℤ) : ℚ) := by
    norm_num [smallWidget]
  exact ⟨hr, by decide, hle,
    ((applyWarp_outside_radius exampleLib smallWidget ⟨50, 0⟩ ⟨1, 0⟩ 0 0 hr (by decide)).1 hle).1,
    hrf, he,
    ((applyWarp_outside_radius upperSqrtLib smallWidget ⟨((50 : ℤ) : ℚ), ((0 : ℤ) : ℚ)⟩ ⟨1, 0⟩
      0 0 hr (by decide)).2 50 0 rfl
      (fun s r hr0 _ h => upperSqrtLib_sqrt s r hr0 h) hrf (by norm_num) (by norm_num)
      (by norm_num) (by norm_num) he).1⟩

/-! ## The range of a blended channel -/

theorem f32_eq_of_tie (q r : ℚ) (e m : ℤ) (h1 : (2 : ℚ) ^ e ≤ |q|) (h2 : |q| < 2 ^ (e + 1))
    (h3 : q / 2 ^ (e - 23) = m + 1 / 2) (hm : m % 2 = 0) (hr : r = m * 2 ^ (e - 23)) :
    f32 q = r := by
  unfold f32
  rw [roundBin_eq_of_tie 24 q e m h1 h2 (by
    have e1 : e - ((24 : ℕ) : ℤ) + 1 = e - 23 := by push_cast; ring
    rw [e1]; exact h3) hm, hr]
  congr 2
  push_cast; ring

theorem f32_err_mul {q B u : ℚ} (hu : u = 1 / 2 ^ 24) (h0 : 0 ≤ q) (hB : q ≤ B) :
    q - B * u ≤ f32 q ∧ f32 q ≤ q + B * u := by
  have h := abs_le.1 (f32_err h0 hB)
  have e : B * u = B / 2 ^ 24 := by rw [hu]; ring
  rw [e]
  constructor <;> linarith [h.1, h.2]

/-- A blended channel of two 8 bit channels between `lo` and `hi`, at a weight
in `[0, 1]`, converts to an `int` that is at least `lo - 1` and at most `hi`:
the rounding of the float operations can bring the sum just below `lo`, and
the conversion truncates. -/
theorem toInt_blendF_bounds (a b lo hi : ℤ) (t : ℚ) (hlo0 : 0 ≤ lo) (hhi : hi ≤ 255)
    (hla : lo ≤ a) (hlb : lo ≤ b) (hah : a ≤ hi) (hbh : b ≤ hi) (ht0 : 0 ≤ t) (ht1 : t ≤ 1) :
    lo - 1 ≤ toInt (blendF a b t) ∧ toInt (blendF a b t) ≤ hi := by
  have ha0 : 0 ≤ a := le_trans hlo0 hla
  have ha : a ≤ 255 := le_trans hah hhi
  have hb0 : 0 ≤ b := le_trans hlo0 hlb
  have hb : b ≤ 255 := le_trans hbh hhi
  have haq0 : (0 : ℚ) ≤ a := by exact_mod_cast ha0
  have haq : (a : ℚ) ≤ 255 := by exact_mod_cast ha
  have hbq0 : (0 : ℚ) ≤ b := by exact_mod_cast hb0
  have hbq : (b : ℚ) ≤ 255 := by exact_mod_cast hb
  have hloq0 : (0 : ℚ) ≤ lo := by exact_mod_cast hlo0
  have hhiq : (hi : ℚ) ≤ 255 := by exact_mod_cast hhi
  have hlaq : (lo : ℚ) ≤ a := by exact_mod_cast hla
  have hlbq : (lo : ℚ) ≤ b := by exact_mod_cast hlb
  have hahq : (a : ℚ) ≤ hi := by exact_mod_cast hah
  have hbhq : (b : ℚ) ≤ hi := by exact_mod_cast hbh
  have hhi0 : (0 : ℚ) ≤ hi := le_trans haq0 hahq
  have hlo255 : (lo : ℚ) ≤ 255 := le_trans hlaq haq
  obtain ⟨hr0, _⟩ := blendF_range a b t ha0 ha hb0 hb ht0 ht1
  have e : blendF a b t = f32 (f32 ((a : ℚ) * f32 (1 - t)) + f32 ((b : ℚ) * t)) := by
    unfold blendF
    rw [f32_intCast a ha0 ha, f32_intCast b hb0 hb]
  obtain ⟨u, hu⟩ : ∃ u : ℚ, u = 1 / 2 ^ 24 := ⟨_, rfl⟩
  have hu0 : 0 ≤ u := by rw [hu]; positivity
  have hu1 : 1022 * u < 1 := by rw [hu]; norm_num
  have hs0 : 0 ≤ f32 (1 - t) := f32_nonneg (by linarith)
  have hs1 : f32 (1 - t) ≤ 1 := f32_le_one (by linarith)
  have hse := f32_err_mul hu (by linarith : 0 ≤ 1 - t) (by linarith : 1 - t ≤ 1)
  have hp1n : 0 ≤ (a : ℚ) * f32 (1 - t) := mul_nonneg haq0 hs0
  have hp1u : (a : ℚ) * f32 (1 - t) ≤ 255 :=
    le_trans (mul_le_mul haq hs1 hs0 (by norm_num)) (by norm_num)
  have hp1 := f32_err_mul hu hp1n hp1u
  have hp2n : 0 ≤ (b : ℚ) * t := mul_nonneg hbq0 ht0
  have hp2u : (b : ℚ) * t ≤ 255 :=
    le_trans (mul_le_mul hbq ht1 ht0 (by norm_num)) (by norm_num)
  have hp2 := f32_err_mul hu hp2n hp2u
  have hf1 : 0 ≤ f32 ((a : ℚ) * f32 (1 - t)) := f32_nonneg hp1n
  have hf2 : 0 ≤ f32 ((b : ℚ) * t) := f32_nonneg hp2n
  have hsum0 : 0 ≤ f32 ((a : ℚ) * f32 (1 - t)) + f32 ((b : ℚ) * t) := by linarith
  have hup : (a : ℚ) * f32 (1 - t) + (b : ℚ) * t ≤ hi + 255 * u := by
    have h1 : (a : ℚ) * f32 (1 - t) ≤ hi * f32 (1 - t) := mul_le_mul_of_nonneg_right hahq hs0
    have h2 : (b : ℚ) * t ≤ hi * t := mul_le_mul_of_nonneg_right hbhq ht0
    have h3 : (hi : ℚ) * (f32 (1 - t) + t) ≤ hi * (1 + u) :=
      mul_le_mul_of_nonneg_left (by linarith [hse.2]) hhi0
    have h4 : (hi : ℚ) * u ≤ 255 * u := mul_le_mul_of_nonneg_right hhiq hu0
    have h5 : (hi : ℚ) * (f32 (1 - t) + t) = hi * f32 (1 - t) + hi * t := by ring
    have h6 : (hi : ℚ) * (1 + u) = hi + hi * u := by ring
    linarith
  have hdn : (lo : ℚ) - 255 * u ≤ (a : ℚ) * f32 (1 - t) + (b : ℚ) * t := by
    have h1 : (lo : ℚ) * f32 (1 - t) ≤ a * f32 (1 - t) := mul_le_mul_of_nonneg_right hlaq hs0
    have h2 : (lo : ℚ) * t ≤ b * t := mul_le_mul_of_nonneg_right hlbq ht0
    have h3 : (lo : ℚ) * (1 - u) ≤ lo * (f32 (1 - t) + t) :=
      mul_le_mul_of_nonneg_left (by linarith [hse.1]) hloq0
    have h4 : (lo : ℚ) * u ≤ 255 * u := mul_le_mul_of_nonneg_right hlo255 hu0
    have h5 : (lo : ℚ) * (f32 (1 - t) + t) = lo * f32 (1 - t) + lo * t := by ring
    have h6 : (lo : ℚ) * (1 - u) = lo - lo * u := by ring
    linarith
  have hsumu : f32 ((a : ℚ) * f32 (1 - t)) + f32 ((b : ℚ) * t) ≤ 256 := by
    linarith [hp1.2, hp2.2]
  have hfin := f32_err_mul hu hsum0 hsumu
  have hlow : (lo : ℚ) - 1 < blendF a b t := by
    rw [e]
    linarith [hfin.1, hp1.1, hp2.1]
  have hhigh : blendF a b t < hi + 1 := by
    rw [e]
    linarith [hfin.2, hp1.2, hp2.2]
  unfold toInt
  rw [if_pos hr0]
  constructor
  · apply Int.le_floor.2
    push_cast
    exact hlow.le
  · have : ⌊blendF a b t⌋ < hi + 1 := by
      rw [Int.floor_lt]; push_cast; exact hhigh
    omega

/-- The blend of the channel 3 with itself at the weight of the mask value 65
is `3 - 2 ^ (-22)` in single precision. -/
theorem blendF_three_mask : blendF 3 3 (8553091 / 33554432) = 12582911 / 4194304 := by
  have h3 : f32 (((3 : ℤ) : ℚ)) = 3 := by
    have := f32_intCast 3 (by norm_num) (by norm_num)
    simpa using this
  have h1 : f32 (1 - 8553091 / 33554432) = 6250335 / 8388608 :=
    f32_eq_of_tie _ _ (-1) 12500670 (by norm_num [abs_of_pos]) (by norm_num [abs_of_pos])
      (by norm_num) (by norm_num) (by norm_num)
  have h2 : f32 (3 * (6250335 / 8388608)) = 4687751 / 2097152 :=
    f32_eq_of_tie _ _ 1 9375502 (by norm_num [abs_of_pos]) (by norm_num [abs_of_pos])
      (by norm_num) (by norm_num) (by norm_num)
  have h4 : f32 (3 * (8553091 / 33554432)) = 3207409 / 4194304 :=
    f32_eq_of_tie _ _ (-1) 12829636 (by norm_num [abs_of_pos]) (by norm_num [abs_of_pos])
      (by norm_num) (by norm_num) (by norm_num)
  have h5 : f32 (4687751 / 2097152 + 3207409 / 4194304) = 12582911 / 4194304 :=
    f32_eq_of _ _ 1 12582911 (by norm_num [abs_of_pos]) (by norm_num [abs_of_pos])
      (by norm_num [abs_lt]) (by norm_num)
  unfold blendF
  rw [h3, h1, h2, h4, h5]

theorem maskWeight_65 : f32 (f32 (((65 : ℤ) : ℚ)) / 255) = 8553091 / 33554432 := by
  have h65 : f32 (((65 : ℤ) : ℚ)) = 65 := by
    have := f32_intCast 65 (by norm_num) (by norm_num)
    simpa using this
  rw [h65]
  exact f32_eq_of _ _ (-2) 8553091 (by norm_num [abs_of_pos]) (by norm_num [abs_of_pos])
    (by norm_num [abs_lt]) (by norm_num)

/-- C12 fails on the code: with the channels `a = b = 3` and the mask value 65,
the weight is `t = 65 / 255.0f`, the float value of `3 * (1 - t) + 3 * t` is
`3 - 2 ^ (-22)` and its conversion to `int` is 2, below `min(a, b) = 3`;
`updateFusion` stores the pixel `(2, 2, 2)`.  The channel is still in
`0..255`. -/
theorem blend_below_min_counterexample :
    f32 (f32 (((65 : ℤ) : ℚ)) / 255) = 8553091 / 33554432 ∧
    (0 : ℚ) ≤ 8553091 / 33554432 ∧ (8553091 / 33554432 : ℚ) ≤ 1 ∧
    toInt (blendF 3 3 (8553091 / 33554432)) = 2 ∧
    toInt (blendF 3 3 (8553091 / 33554432)) < min 3 3 ∧
    (updateFusion dimCanvas (fun _ _ => blackPixel)).fusion.pix 0 0 = ⟨255, 2, 2, 2⟩ := by
  have ht : toInt (blendF 3 3 (8553091 / 33554432)) = 2 := by
    rw [blendF_three_mask]
    unfold toInt
    rw [if_pos (by norm_num), Int.floor_eq_iff]
    constructor <;> norm_num
  have hA : dimCanvas.imgA.valid ((0 : ℕ) : ℤ) ((0 : ℕ) : ℤ) := by decide
  have hB : dimCanvas.imgB.valid ((0 : ℕ) : ℤ) ((0 : ℕ) : ℤ) := by decide
  have hM : dimCanvas.mask.valid ((0 : ℕ) : ℤ) ((0 : ℕ) : ℤ) := by decide
  have hc : fuseColor dimCanvas 0 0 = QColor.fromRgb 2 2 2 255 := by
    unfold fuseColor
    have m : (dimCanvas.mask.pixelColor ((0 : ℕ) : ℤ) ((0 : ℕ) : ℤ)).red8 = 65 := by
      rw [red8_pixelColor _ _ _ hM]; rfl
    have ra : (dimCanvas.imgA.pixelColor ((0 : ℕ) : ℤ) ((0 : ℕ) : ℤ)).red8 = 3 := by
      rw [red8_pixelColor _ _ _ hA]; rfl
    have ga : (dimCanvas.imgA.pixelColor ((0 : ℕ) : ℤ) ((0 : ℕ) : ℤ)).green8 = 3 := by
      rw [green8_pixelColor _ _ _ hA]; rfl
    have ba : (dimCanvas.imgA.pixelColor ((0 : ℕ) : ℤ) ((0 : ℕ) : ℤ)).blue8 = 3 := by
      rw [blue8_pixelColor _ _ _ hA]; rfl
    have rb : (dimCanvas.imgB.pixelColor ((0 : ℕ) : ℤ) ((0 : ℕ) : ℤ)).red8 = 3 := by
      rw [red8_pixelColor _ _ _ hB]; rfl
    have gb : (dimCanvas.imgB.pixelColor ((0 : ℕ) : ℤ) ((0 : ℕ) : ℤ)).green8 = 3 := by
      rw [green8_pixelColor _ _ _ hB]; rfl
    have bb : (dimCanvas.imgB.pixelColor ((0 : ℕ) : ℤ) ((0 : ℕ) : ℤ)).blue8 = 3 := by
      rw [blue8_pixelColor _ _ _ hB]; rfl
    simp only [m, ra, ga, ba, rb, gb, bb, maskWeight_65, ht]
  refine ⟨maskWeight_65, by norm_num, by norm_num, ht, by rw [ht]; decide, ?_⟩
  rw [(updateFusion_pix dimCanvas _).2.2.2 0 0]
  have e0 : ((0 : ℤ)).toNat = 0 := rfl
  rw [e0, hc, if_pos ⟨by decide, rfl⟩]
  decide



/-! ## The tile spin at angle 0 -/

theorem tileWidth_pos (n : ℤ) (hn : 1 ≤ n) (hd : n ∣ 512) :
    0 < Int.tdiv canvasWidth n ∧ n * Int.tdiv canvasWidth n = 512 := by
  have e : ((canvasWidth : ℕ) : ℤ) = 512 := rfl
  rw [e, Int.tdiv_eq_ediv (by norm_num) (by omega)]
  have h := Int.mul_ediv_cancel' hd
  refine ⟨?_, h⟩
  by_contra hc
  push_neg at hc
  have : n * (512 / n) ≤ 0 := Int.mul_nonpos_of_nonneg_of_nonpos (by omega) hc
  omega

theorem tileHeight_pos (n : ℤ) (hn : 1 ≤ n) (hd : n ∣ 512) :
    0 < Int.tdiv canvasHeight n ∧ n * Int.tdiv canvasHeight n = 512 :=
  tileWidth_pos n hn hd

theorem tileRect_contains (n x y a b : ℤ) :
    (tileRect n x y).contains a b ↔
      x * Int.tdiv canvasWidth n ≤ a ∧ a < x * Int.tdiv canvasWidth n + Int.tdiv canvasWidth n ∧
      y * Int.tdiv canvasHeight n ≤ b ∧
      b < y * Int.tdiv canvasHeight n + Int.tdiv canvasHeight n := by
  simp only [tileRect, QRect.contains, QRect.ofSize]
  constructor
  · rintro ⟨h1, h2, h3, h4⟩
    exact ⟨h1, by omega, h3, by omega⟩
  · rintro ⟨h1, h2, h3, h4⟩
    exact ⟨h1, by omega, h3, by omega⟩

theorem tile_index_unique (w i k a : ℤ) (hi : i * w ≤ a) (hi2 : a < i * w + w)
    (hk : k * w ≤ a) (hk2 : a < k * w + w) : i = k := by
  have hw : 0 < w := by omega
  by_contra hne
  rcases lt_or_gt_of_ne hne with h | h
  · have : (i + 1) * w ≤ k * w := mul_le_mul_of_nonneg_right (by omega) hw.le
    have e : (i + 1) * w = i * w + w := by ring
    omega
  · have : (k + 1) * w ≤ i * w := mul_le_mul_of_nonneg_right (by omega) hw.le
    have e : (k + 1) * w = k * w + w := by ring
    omega

theorem tile_index_exists (w n a : ℤ) (hw : 0 < w) (hnw : n * w = 512) (ha0 : 0 ≤ a)
    (ha : a < 512) : ∃ i : ℤ, 0 ≤ i ∧ i < n ∧ i * w ≤ a ∧ a < i * w + w := by
  refine ⟨a / w, Int.ediv_nonneg ha0 hw.le, ?_, ?_, ?_⟩
  · have h1 := Int.ediv_add_emod a w
    have h2 := Int.emod_nonneg a hw.ne'
    have h3 : a / w * w ≤ a := by
      have : w * (a / w) = a / w * w := mul_comm _ _
      omega
    by_contra hc
    push_neg at hc
    have : n * w ≤ a / w * w := mul_le_mul_of_nonneg_right hc hw.le
    omega
  · have h1 := Int.ediv_add_emod a w
    have h2 := Int.emod_nonneg a hw.ne'
    have : w * (a / w) = a / w * w := mul_comm _ _
    omega
  · have h1 := Int.ediv_add_emod a w
    have h2 := Int.emod_lt_of_pos a hw
    have : w * (a / w) = a / w * w := mul_comm _ _
    omega

/-- For a tile count `n >= 1` that divides 512, every canvas pixel lies in the
rectangle of exactly one of the `n * n` tiles. -/
theorem tiles_cover_once (n : ℤ) (hn : 1 ≤ n) (hd : n ∣ 512) (a b : ℤ) (ha0 : 0 ≤ a)
    (ha : a < 512) (hb0 : 0 ≤ b) (hb : b < 512) :
    ∃! t : ℤ × ℤ, (0 ≤ t.1 ∧ t.1 < n ∧ 0 ≤ t.2 ∧ t.2 < n) ∧ (tileRect n t.1 t.2).contains a b := by
  obtain ⟨hw, hnw⟩ := tileWidth_pos n hn hd
  obtain ⟨hh, hnh⟩ := tileHeight_pos n hn hd
  obtain ⟨i, hi0, hin, hi1, hi2⟩ := tile_index_exists _ n a hw hnw ha0 ha
  obtain ⟨j, hj0, hjn, hj1, hj2⟩ := tile_index_exists _ n b hh hnh hb0 hb
  refine ⟨(i, j), ⟨⟨hi0, hin, hj0, hjn⟩, (tileRect_contains n i j a b).2 ⟨hi1, hi2, hj1, hj2⟩⟩, ?_⟩
  rintro ⟨i2, j2⟩ ⟨_, hc⟩
  obtain ⟨c1, c2, c3, c4⟩ := (tileRect_contains n i2 j2 a b).1 hc
  have e1 := tile_index_unique _ i2 i a c1 c2 hi1 hi2
  have e2 := tile_index_unique _ j2 j b c3 c4 hj1 hj2
  simp only at e1 e2
  rw [e1, e2]

theorem translate_identity (c d : ℤ) (hc : |c| < 2 ^ 53) (hd : |d| < 2 ^ 53) :
    QTransform.identity.translate c d = ⟨1, 0, 0, 1, c, d⟩ := by
  have h : QTransform.identity.isTranslation := ⟨rfl, rfl, rfl, rfl⟩
  unfold QTransform.translate
  rw [if_pos h]
  simp only [QTransform.identity, zero_add, f64_intCast c hc, f64_intCast d hd]

theorem translate_back (c d : ℤ) :
    (⟨1, 0, 0, 1, c, d⟩ : QTransform).translate ((-c : ℤ) : ℚ) ((-d : ℤ) : ℚ) =
      QTransform.identity := by
  have h : (⟨1, 0, 0, 1, c, d⟩ : QTransform).isTranslation := ⟨rfl, rfl, rfl, rfl⟩
  unfold QTransform.translate
  rw [if_pos h]
  simp [QTransform.identity, f64_zero]

theorem tileRect_center_bounds (n : ℤ) (hn : 1 ≤ n) (hd : n ∣ 512) (x y : ℤ) (hx0 : 0 ≤ x)
    (hx : x < n) (hy0 : 0 ≤ y) (hy : y < n) :
    |(tileRect n x y).center.x| < 2 ^ 53 ∧ |(tileRect n x y).center.y| < 2 ^ 53 := by
  obtain ⟨hw, hnw⟩ := tileWidth_pos n hn hd
  obtain ⟨hh, hnh⟩ := tileHeight_pos n hn hd
  simp only [tileRect, QRect.center, QRect.ofSize]
  generalize Int.tdiv canvasWidth n = w at hw hnw
  generalize Int.tdiv canvasHeight n = h at hh hnh
  have h1 : 0 ≤ x * w := mul_nonneg hx0 hw.le
  have h2 : (x + 1) * w ≤ n * w := mul_le_mul_of_nonneg_right (by omega) hw.le
  have h3 : (x + 1) * w = x * w + w := by ring
  have h4 : 0 ≤ y * h := mul_nonneg hy0 hh.le
  have h5 : (y + 1) * h ≤ n * h := mul_le_mul_of_nonneg_right (by omega) hh.le
  have h6 : (y + 1) * h = y * h + h := by ring
  rw [Int.tdiv_eq_ediv (by omega) (by norm_num), Int.tdiv_eq_ediv (by omega) (by norm_num)]
  constructor
  · rw [abs_lt]; constructor <;> omega
  · rw [abs_lt]; constructor <;> omega

/-- At angle 0 the transform calls of a tile leave the transform of the painter
at the identity: the two translations cancel and `rotate(0)` does nothing. -/
theorem tileTransform_zero (P : PaintLib) (n : ℤ) (hn : 1 ≤ n) (hd : n ∣ 512) (x y : ℤ)
    (hx0 : 0 ≤ x) (hx : x < n) (hy0 : 0 ≤ y) (hy : y < n) (p : QPainter)
    (ht : p.transform = QTransform.identity) :
    tileTransform P 0 n x y p = ⟨p.device, QTransform.identity, QTransform.identity :: p.saved⟩ := by
  obtain ⟨hc, hd2⟩ := tileRect_center_bounds n hn hd x y hx0 hx hy0 hy
  unfold tileTransform QPainter.translate QPainter.rotate QPainter.save
  simp only [ht, if_true, QPoint.neg, translate_identity _ _ hc hd2, translate_back]

theorem tileRect_size (n x y : ℤ) :
    (tileRect n x y).width = Int.tdiv canvasWidth n ∧
    (tileRect n x y).height = Int.tdiv canvasHeight n := by
  simp only [tileRect, QRect.width, QRect.height, QRect.ofSize]
  constructor <;> ring

/-- At angle 0 the body of the inner loop composes every device pixel of the
rectangle of the tile with the source pixel at the same coordinate, and leaves
the transform and the saved stack of the painter as they were. -/
theorem spinTile_zero (P : PaintLib) (src : QImage) (n : ℤ) (hn : 1 ≤ n) (hd : n ∣ 512)
    (x y : ℕ) (hx : (x : ℤ) < n) (hy : (y : ℤ) < n) (p : QPainter)
    (ht : p.transform = QTransform.identity) (ha : p.device.hasAlphaChannel = false) :
    spinTile P src 0 n x y p =
      ⟨{ p.device with
          pix := fun a b =>
            if p.device.valid a b ∧ (tileRect n x y).contains a b ∧ src.valid a b then
              sourceOver P src.hasAlphaChannel (src.pix a b) (p.device.pix a b)
            else p.device.pix a b },
        QTransform.identity, p.saved⟩ := by
  obtain ⟨hw, _⟩ := tileWidth_pos n hn hd
  obtain ⟨hh, _⟩ := tileHeight_pos n hn hd
  obtain ⟨sw, sh⟩ := tileRect_size n x y
  unfold spinTile
  rw [tileTransform_zero P n hn hd x y (by omega) hx (by omega) hy p ht]
  unfold QPainter.drawImage
  have hcond : QTransform.identity.isTranslation ∧ QTransform.identity.dx.den = 1 ∧
      QTransform.identity.dy.den = 1 ∧ p.device.hasAlphaChannel = false ∧
      0 < (tileRect n x y).width ∧ 0 < (tileRect n x y).height ∧
      (tileRect n x y).width = (tileRect n x y).width ∧
      (tileRect n x y).height = (tileRect n x y).height :=
    ⟨⟨rfl, rfl, rfl, rfl⟩, rfl, rfl, ha, by rw [sw]; exact hw, by rw [sh]; exact hh, rfl, rfl⟩
  rw [if_pos hcond]
  have e0 : QTransform.identity.dx.num = 0 := rfl
  have e1 : QTransform.identity.dy.num = 0 := rfl
  have e2 : ∀ a c : ℤ, a - (c + 0) + c = a := by intro a c; ring
  simp only [e0, e1, e2, QPainter.restore]

theorem tilesDrawn_congr (P : PaintLib) (src : QImage) (n : ℤ) (fresh : ℤ → ℤ → QRgb)
    (T U : ℕ → ℕ → Prop) (h : ∀ i j, T i j ↔ U i j) (p : QPainter)
    (hp : TilesDrawn P src n fresh T p) : TilesDrawn P src n fresh U p := by
  have e : T = U := by
    funext i j
    exact propext (h i j)
  rw [← e]; exact hp

theorem tileRect_contains_valid (n : ℤ) (hn : 1 ≤ n) (hd : n ∣ 512) (i j : ℕ) (hi : (i : ℤ) < n)
    (hj : (j : ℤ) < n) (a b : ℤ) (hc : (tileRect n i j).contains a b) :
    0 ≤ a ∧ a < 512 ∧ 0 ≤ b ∧ b < 512 := by
  obtain ⟨hw, hnw⟩ := tileWidth_pos n hn hd
  obtain ⟨hh, hnh⟩ := tileHeight_pos n hn hd
  obtain ⟨c1, c2, c3, c4⟩ := (tileRect_contains n i j a b).1 hc
  generalize Int.tdiv canvasWidth n = w at hw hnw c1 c2
  generalize Int.tdiv canvasHeight n = h at hh hnh c3 c4
  have h1 : 0 ≤ (i : ℤ) * w := mul_nonneg (by omega) hw.le
  have h2 : ((i : ℤ) + 1) * w ≤ n * w := mul_le_mul_of_nonneg_right (by omega) hw.le
  have h3 : ((i : ℤ) + 1) * w = i * w + w := by ring
  have h4 : 0 ≤ (j : ℤ) * h := mul_nonneg (by omega) hh.le
  have h5 : ((j : ℤ) + 1) * h ≤ n * h := mul_le_mul_of_nonneg_right (by omega) hh.le
  have h6 : ((j : ℤ) + 1) * h = j * h + h := by ring
  refine ⟨by omega, by omega, by omega, by omega⟩

theorem tileRect_disjoint (n : ℤ) (i j k l : ℕ) (a b : ℤ) (h1 : (tileRect n i j).contains a b)
    (h2 : (tileRect n k l).contains a b) : i = k ∧ j = l := by
  obtain ⟨c1, c2, c3, c4⟩ := (tileRect_contains n i j a b).1 h1
  obtain ⟨d1, d2, d3, d4⟩ := (tileRect_contains n k l a b).1 h2
  have e1 := tile_index_unique _ (i : ℤ) (k : ℤ) a c1 c2 d1 d2
  have e2 := tile_index_unique _ (j : ℤ) (l : ℤ) b c3 c4 d3 d4
  exact ⟨by exact_mod_cast e1, by exact_mod_cast e2⟩

/-- Drawing one more tile at angle 0 keeps the state of the painter. -/
theorem tilesDrawn_step (P : PaintLib) (src : QImage) (n : ℤ) (fresh : ℤ → ℤ → QRgb)
    (hn : 1 ≤ n) (hd : n ∣ 512) (hsw : src.width = canvasWidth)
    (hsh : src.height = canvasHeight) (T : ℕ → ℕ → Prop) (x y : ℕ) (hx : (x : ℤ) < n)
    (hy : (y : ℤ) < n) (hxy : ¬ T x y) (p : QPainter) (hp : TilesDrawn P src n fresh T p) :
    TilesDrawn P src n fresh (fun i j => T i j ∨ (i = x ∧ j = y))
      (spinTile P src 0 n x y p) := by
  obtain ⟨ht, hs, hw, hh, ha, hpix⟩ := hp
  rw [spinTile_zero P src n hn hd x y hx hy p ht ha]
  refine ⟨rfl, hs, hw, hh, ha, ?_⟩
  intro a b
  have hvalid : (tileRect n x y).contains a b → p.device.valid a b ∧ src.valid a b := by
    intro hc
    obtain ⟨v1, v2, v3, v4⟩ := tileRect_contains_valid n hn hd x y hx hy a b hc
    have e : ((canvasWidth : ℕ) : ℤ) = 512 := rfl
    have e2 : ((canvasHeight : ℕ) : ℤ) = 512 := rfl
    unfold QImage.valid
    rw [hw, hh, hsw, hsh, e, e2]
    exact ⟨⟨v1, v2, v3, v4⟩, ⟨v1, v2, v3, v4⟩⟩
  show ((∃ i j : ℕ, (T i j ∨ (i = x ∧ j = y)) ∧ (tileRect n i j).contains a b) →
      (if p.device.valid a b ∧ (tileRect n x y).contains a b ∧ src.valid a b then
        sourceOver P src.hasAlphaChannel (src.pix a b) (p.device.pix a b)
      else p.device.pix a b) = sourceOver P src.hasAlphaChannel (src.pix a b) (fresh a b)) ∧
    ((¬ ∃ i j : ℕ, (T i j ∨ (i = x ∧ j = y)) ∧ (tileRect n i j).contains a b) →
      (if p.device.valid a b ∧ (tileRect n x y).contains a b ∧ src.valid a b then
        sourceOver P src.hasAlphaChannel (src.pix a b) (p.device.pix a b)
      else p.device.pix a b) = fresh a b)
  by_cases hc : (tileRect n x y).contains a b
  · obtain ⟨v1, v2⟩ := hvalid hc
    rw [if_pos ⟨v1, hc, v2⟩]
    have hnot : ¬ ∃ i j : ℕ, T i j ∧ (tileRect n i j).contains a b := by
      rintro ⟨i, j, hT, hc2⟩
      obtain ⟨e1, e2⟩ := tileRect_disjoint n i j x y a b hc2 hc
      rw [e1, e2] at hT
      exact hxy hT
    rw [(hpix a b).2 hnot]
    refine ⟨fun _ => rfl, fun hne => ?_⟩
    exact absurd ⟨x, y, Or.inr ⟨rfl, rfl⟩, hc⟩ hne
  · rw [if_neg (fun h => hc h.2.1)]
    constructor
    · rintro ⟨i, j, hT | ⟨e1, e2⟩, hc2⟩
      · exact (hpix a b).1 ⟨i, j, hT, hc2⟩
      · rw [e1, e2] at hc2
        exact absurd hc2 hc
    · intro hne
      apply (hpix a b).2
      rintro ⟨i, j, hT, hc2⟩
      exact hne ⟨i, j, Or.inl hT, hc2⟩

/-- The inner loop at angle 0 draws the first `k` tiles of the row `y`. -/
theorem tilesDrawn_row (P : PaintLib) (src : QImage) (n : ℤ) (fresh : ℤ → ℤ → QRgb)
    (hn : 1 ≤ n) (hd : n ∣ 512) (hsw : src.width = canvasWidth)
    (hsh : src.height = canvasHeight) (T : ℕ → ℕ → Prop) (y : ℕ) (hy : (y : ℤ) < n)
    (hT : ∀ i, ¬ T i y) (p : QPainter) (hp : TilesDrawn P src n fresh T p) (k : ℕ)
    (hk : (k : ℤ) ≤ n) :
    TilesDrawn P src n fresh (fun i j => T i j ∨ (i < k ∧ j = y))
      (forLoop k (fun x q => spinTile P src 0 n x y q) p) := by
  induction k with
  | zero =>
    apply tilesDrawn_congr P src n fresh T _ _ p hp
    intro i j
    constructor
    · exact fun h => Or.inl h
    · rintro (h | ⟨h, _⟩)
      · exact h
      · exact absurd h (Nat.not_lt_zero i)
  | succ k ih =>
    rw [forLoop_succ]
    have hk2 : (k : ℤ) < n := by push_cast at hk; omega
    have h1 := tilesDrawn_step P src n fresh hn hd hsw hsh _ k y hk2 hy
      (by
        rintro (h | ⟨h, _⟩)
        · exact hT k h
        · exact lt_irrefl k h)
      _ (ih (by omega))
    apply tilesDrawn_congr P src n fresh _ _ _ _ h1
    intro i j
    constructor
    · rintro ((h | ⟨h, e⟩) | ⟨e1, e2⟩)
      · exact Or.inl h
      · exact Or.inr ⟨by omega, e⟩
      · exact Or.inr ⟨by omega, e2⟩
    · rintro (h | ⟨h, e⟩)
      · exact Or.inl (Or.inl h)
      · by_cases hik : i = k
        · exact Or.inr ⟨hik, e⟩
        · exact Or.inl (Or.inr ⟨by omega, e⟩)

/-- The outer loop at angle 0 draws the first `m` rows of tiles. -/
theorem tilesDrawn_rows (P : PaintLib) (src : QImage) (n : ℤ) (fresh : ℤ → ℤ → QRgb)
    (hn : 1 ≤ n) (hd : n ∣ 512) (hsw : src.width = canvasWidth)
    (hsh : src.height = canvasHeight) (m : ℕ) (hm : (m : ℤ) ≤ n) :
    TilesDrawn P src n fresh (fun i j => i < n.toNat ∧ j < m)
      (forLoop m
        (fun y p => forLoop n.toNat (fun x q => spinTile P src 0 n x y q) p)
        (QPainter.ofDevice ⟨canvasWidth, canvasHeight, false, fresh⟩)) := by
  induction m with
  | zero =>
    refine ⟨rfl, rfl, rfl, rfl, rfl, fun a b => ⟨?_, fun _ => rfl⟩⟩
    rintro ⟨i, j, ⟨_, h⟩, _⟩
    exact absurd h (Nat.not_lt_zero j)
  | succ m ih =>
    rw [forLoop_succ]
    have hm2 : (m : ℤ) < n := by push_cast at hm; omega
    have h1 := tilesDrawn_row P src n fresh hn hd hsw hsh _ m hm2
      (by
        rintro i ⟨_, h⟩
        exact lt_irrefl m h)
      _ (ih (by omega)) n.toNat (by omega)
    apply tilesDrawn_congr P src n fresh _ _ _ _ h1
    intro i j
    constructor
    · rintro (⟨h, e⟩ | ⟨h, e⟩)
      · exact ⟨h, by omega⟩
      · exact ⟨h, by omega⟩
    · rintro ⟨h, e⟩
      by_cases hjm : j = m
      · exact Or.inr ⟨h, hjm⟩
      · exact Or.inl ⟨h, by omega⟩

/-- At angle 0, for a canvas sized source and a tile count `n >= 1` that divides
512, `applyTileSpin` returns the canvas sized `Format_RGB32` image whose every
pixel is the source pixel at the same coordinate composed over the initial
content of the result. -/
theorem applyTileSpin_zero_pix (P : PaintLib) (src : QImage) (n : ℤ) (fresh : ℤ → ℤ → QRgb)
    (hn : 1 ≤ n) (hd : n ∣ 512) (hsw : src.width = canvasWidth)
    (hsh : src.height = canvasHeight) :
    (applyTileSpin P src 0 n fresh).width = canvasWidth ∧
    (applyTileSpin P src 0 n fresh).height = canvasHeight ∧
    (applyTileSpin P src 0 n fresh).hasAlphaChannel = false ∧
    ∀ a b : ℤ, (applyTileSpin P src 0 n fresh).pix a b =
      if src.valid a b then sourceOver P src.hasAlphaChannel (src.pix a b) (fresh a b)
      else fresh a b := by
  obtain ⟨_, _, hw, hh, ha, hpix⟩ :=
    tilesDrawn_rows P src n fresh hn hd hsw hsh n.toNat (by omega)
  refine ⟨hw, hh, ha, fun a b => ?_⟩
  have e : ((canvasWidth : ℕ) : ℤ) = 512 := rfl
  have e2 : ((canvasHeight : ℕ) : ℤ) = 512 := rfl
  by_cases hv : src.valid a b
  · rw [if_pos hv]
    apply (hpix a b).1
    unfold QImage.valid at hv
    rw [hsw, hsh, e, e2] at hv
    obtain ⟨t, ⟨⟨t1, t2, t3, t4⟩, hc⟩, _⟩ := tiles_cover_once n hn hd a b hv.1 hv.2.1 hv.2.2.1 hv.2.2.2
    refine ⟨t.1.toNat, t.2.toNat, ⟨by omega, by omega⟩, ?_⟩
    rw [Int.toNat_of_nonneg t1, Int.toNat_of_nonneg t3]
    exact hc
  · rw [if_neg hv]
    apply (hpix a b).2
    rintro ⟨i, j, ⟨hi, hj⟩, hc⟩
    apply hv
    obtain ⟨v1, v2, v3, v4⟩ := tileRect_contains_valid n hn hd i j (by omega) (by omega) a b hc
    unfold QImage.valid
    rw [hsw, hsh, e, e2]
    exact ⟨v1, v2, v3, v4⟩

/-- C11, as amended. For every canvas sized image whose pixels are all opaque (a
format without alpha channel, or alpha 255 at every pixel), every tile count
`n >= 1` that divides the canvas width and height 512, and whatever the new
result image holds at first, `applyTileSpin(image, 0, n)` returns an image of
the canvas size with the colour of the image at every coordinate; every canvas
pixel lies in the rectangle of exactly one of the `n * n` tiles, and each tile
is drawn under the identity transform, from its own rectangle onto itself. -/
theorem applyTileSpin_opaque_zero (P : PaintLib) (src : QImage) (n : ℤ)
    (fresh : ℤ → ℤ → QRgb) (hn : 1 ≤ n) (hd : n ∣ 512) (hsw : src.width = canvasWidth)
    (hsh : src.height = canvasHeight)
    (ho : src.hasAlphaChannel = false ∨ ∀ a b : ℤ, src.valid a b → (src.pix a b).alpha = 255) :
    (applyTileSpin P src 0 n fresh).width = src.width ∧
    (applyTileSpin P src 0 n fresh).height = src.height ∧
    (∀ a b : ℤ, (applyTileSpin P src 0 n fresh).pixelColor a b = src.pixelColor a b) ∧
    (∀ a b : ℤ, src.valid a b →
      ∃! t : ℤ × ℤ, (0 ≤ t.1 ∧ t.1 < n ∧ 0 ≤ t.2 ∧ t.2 < n) ∧
        (tileRect n t.1 t.2).contains a b) ∧
    (∀ (x y : ℤ) (p : QPainter), 0 ≤ x → x < n → 0 ≤ y → y < n →
      p.transform = QTransform.identity →
      (tileTransform P 0 n x y p).transform = QTransform.identity) := by
  obtain ⟨hw, hh, ha, hpix⟩ := applyTileSpin_zero_pix P src n fresh hn hd hsw hsh
  refine ⟨by rw [hw, hsw], by rw [hh, hsh], ?_, ?_, ?_⟩
  · intro a b
    have hv : (applyTileSpin P src 0 n fresh).valid a b ↔ src.valid a b := by
      unfold QImage.valid
      rw [hw, hh, hsw, hsh]
    by_cases hs : src.valid a b
    · have hso : sourceOver P src.hasAlphaChannel (src.pix a b) (fresh a b) =
          ⟨255, (src.pix a b).red, (src.pix a b).green, (src.pix a b).blue⟩ := by
        unfold sourceOver
        rw [if_pos]
        rcases ho with h | h
        · exact Or.inl h
        · exact Or.inr (h a b hs)
      have hp := hpix a b
      rw [if_pos hs, hso] at hp
      simp only [QImage.pixelColor, if_pos (hv.2 hs), if_pos hs, ha, hp]
      rcases ho with h | h
      · simp [h]
      · have e0 : ((255 : Fin 256) : ℕ) = 255 := rfl
        cases src.hasAlphaChannel <;> simp [h a b hs, e0]
    · simp only [QImage.pixelColor, if_neg (fun h => hs (hv.1 h)), if_neg hs]
  · intro a b hs
    have e : ((canvasWidth : ℕ) : ℤ) = 512 := rfl
    have e2 : ((canvasHeight : ℕ) : ℤ) = 512 := rfl
    unfold QImage.valid at hs
    rw [hsw, hsh, e, e2] at hs
    exact tiles_cover_once n hn hd a b hs.1 hs.2.1 hs.2.2.1 hs.2.2.2
  · intro x y p hx0 hx hy0 hy ht
    rw [tileTransform_zero P n hn hd x y hx0 hx hy0 hy p ht]

theorem applyTileSpin_opaque_zero_witness :
    (1 : ℤ) ≤ 4 ∧ (4 : ℤ) ∣ 512 ∧ dimImage.width = canvasWidth ∧
    dimImage.height = canvasHeight ∧ dimImage.hasAlphaChannel = false ∧
    (applyTileSpin plainPaint dimImage 0 4 (fun _ _ => whitePixel)).pixelColor 300 200 =
      dimImage.pixelColor 300 200 :=
  ⟨by norm_num, ⟨128, by norm_num⟩, rfl, rfl, rfl,
    (applyTileSpin_opaque_zero plainPaint dimImage 4 (fun _ _ => whitePixel) (by norm_num)
      ⟨128, by norm_num⟩ rfl rfl (Or.inl rfl)).2.2.1 300 200⟩

/-- C11 fails as stated: for the canvas sized `Format_ARGB32` image whose
pixels are all transparent black and one tile, `applyTileSpin(image, 0, 1)` with
a new result image that holds white returns white at the pixel `(0, 0)`, where
the image has transparent black; the composition of a pixel of alpha 0 leaves
the uninitialised content of the result, and the result has no alpha channel. -/
theorem applyTileSpin_transparent_counterexample :
    clearImage.width = canvasWidth ∧ clearImage.height = canvasHeight ∧ (1 : ℤ) ∣ 512 ∧
    (applyTileSpin plainPaint clearImage 0 1 (fun _ _ => whitePixel)).pixelColor 0 0 =
      ⟨true, 65535, 65535, 65535, 65535⟩ ∧
    clearImage.pixelColor 0 0 = ⟨true, 0, 0, 0, 0⟩ ∧
    (applyTileSpin plainPaint clearImage 0 1 (fun _ _ => whitePixel)).pixelColor 0 0 ≠
      clearImage.pixelColor 0 0 := by
  obtain ⟨hw, hh, ha, hpix⟩ := applyTileSpin_zero_pix plainPaint clearImage 1
    (fun _ _ => whitePixel) (by norm_num) ⟨512, by norm_num⟩ rfl rfl
  have hs : clearImage.valid 0 0 := by decide
  have hv : (applyTileSpin plainPaint clearImage 0 1 (fun _ _ => whitePixel)).valid 0 0 := by
    unfold QImage.valid
    rw [hw, hh]
    exact hs
  have hp := hpix 0 0
  rw [if_pos hs] at hp
  have hso : sourceOver plainPaint clearImage.hasAlphaChannel (clearImage.pix 0 0) whitePixel =
      whitePixel := by decide
  rw [hso] at hp
  have e1 : (applyTileSpin plainPaint clearImage 0 1 (fun _ _ => whitePixel)).pixelColor 0 0 =
      ⟨true, 65535, 65535, 65535, 65535⟩ := by
    simp only [QImage.pixelColor, if_pos hv, ha, hp]
    decide
  have e2 : clearImage.pixelColor 0 0 = ⟨true, 0, 0, 0, 0⟩ := by decide
  refine ⟨rfl, rfl, ⟨512, by norm_num⟩, e1, e2, ?_⟩
  rw [e1, e2]
  decide

/-! ## Integer coordinates that a `float` does not hold -/

/-- Every integer from 0 to `2 ^ 24` is exact in single precision. -/
theorem f32_intCast_le (x : ℤ) (h0 : 0 ≤ x) (h : x ≤ 2 ^ 24) : f32 (x : ℚ) = x := by
  rcases eq_or_lt_of_le h with e | hlt
  · rw [e]; push_cast; exact f32_16777216
  · exact roundBin_intCast 24 x (by rw [abs_of_nonneg h0]; exact hlt)

/-- C2 fails as stated: on the image 16777218 pixels wide the integer
coordinate `(16777217, 0)` is inside the bounds, the `float` parameter `x` of
`sampleBilinear` holds it as `16777216`, and the call returns the colour stored
at `(16777216, 0)`, black, where `(16777217, 0)` holds white. -/
theorem sampleBilinear_wide_counterexample :
    wideImage.valid 16777217 0 ∧ f32 ((16777217 : ℤ) : ℚ) = 16777216 ∧
    sampleBilinear wideImage (f32 ((16777217 : ℤ) : ℚ)) (f32 ((0 : ℤ) : ℚ)) =
      wideImage.pixelColor 16777216 0 ∧
    wideImage.pixelColor 16777216 0 = ⟨true, 65535, 0, 0, 0⟩ ∧
    wideImage.pixelColor 16777217 0 = ⟨true, 65535, 65535, 65535, 65535⟩ ∧
    sampleBilinear wideImage (f32 ((16777217 : ℤ) : ℚ)) (f32 ((0 : ℤ) : ℚ)) ≠
      wideImage.pixelColor 16777217 0 := by
  have hv : wideImage.valid 16777217 0 := by decide
  have hv2 : wideImage.valid ((16777216 : ℤ)) ((0 : ℤ)) := by decide
  have e1 : f32 ((16777217 : ℤ) : ℚ) = 16777216 := by push_cast; exact f32_16777217
  have e0 : f32 ((0 : ℤ) : ℚ) = 0 := by push_cast; exact f32_zero
  have hs : sampleBilinear wideImage (f32 ((16777217 : ℤ) : ℚ)) (f32 ((0 : ℤ) : ℚ)) =
      wideImage.pixelColor 16777216 0 := by
    rw [e1, e0]
    have h := sampleBilinear_at_grid wideImage 16777216 0 hv2
      (by push_cast; exact f32_16777216) (by push_cast; exact f32_zero)
    simpa using h
  have c1 : wideImage.pixelColor 16777216 0 = ⟨true, 65535, 0, 0, 0⟩ := by
    unfold QImage.pixelColor
    rw [if_pos hv2]
    have e255 : ((255 : Fin 256) : ℕ) = 255 := rfl
    simp [wideImage, blackPixel, e255]
  have c2 : wideImage.pixelColor 16777217 0 = ⟨true, 65535, 65535, 65535, 65535⟩ := by
    unfold QImage.pixelColor
    rw [if_pos hv]
    have e255 : ((255 : Fin 256) : ℕ) = 255 := rfl
    simp [wideImage, whitePixel, e255]
  refine ⟨hv, e1, hs, c1, c2, ?_⟩
  rw [hs, c1, c2]
  decide

/-! ## Doubles within their exponent range -/

theorem dbl_round_ne_nan (q : ℚ) : Dbl.round q ≠ Dbl.nan := by
  unfold Dbl.round
  split_ifs <;> simp

theorem f64_two_pow (k : ℕ) : f64 ((2 : ℚ) ^ k) = 2 ^ k := by
  have h := roundBin_intCast_mul_zpow 53 1 (k : ℤ) (by norm_num)
  simpa [f64] using h

theorem f64_inv_two_pow (k : ℕ) : f64 (1 / (2 : ℚ) ^ k) = 1 / 2 ^ k := by
  have h := roundBin_intCast_mul_zpow 53 1 (-(k : ℤ)) (by norm_num)
  simpa [f64, zpow_neg] using h

theorem f64_abs_le_two_pow (k : ℕ) (q : ℚ) (h : |q| ≤ 2 ^ k) : |f64 q| ≤ 2 ^ k := by
  obtain ⟨h1, h2⟩ := abs_le.1 h
  have u := f64_mono h2
  have l := f64_mono h1
  rw [f64_two_pow] at u
  have e : f64 (-(2 : ℚ) ^ k) = -(2 ^ k) := by
    unfold f64
    rw [roundBin_neg]
    exact congrArg Neg.neg (f64_two_pow k)
  rw [e] at l
  exact abs_le.2 ⟨l, u⟩

/-- An exact result of absolute value at most `2 ^ k`, `k <= 1023`, rounds to a
finite double of absolute value at most `2 ^ k`. -/
theorem dbl_round_fin_of_abs_le (k : ℕ) (hk : k ≤ 1023) (q : ℚ) (h : |q| ≤ 2 ^ k) :
    ∃ r, Dbl.round q = Dbl.fin r ∧ |r| ≤ 2 ^ k := by
  have hk1 : (1 : ℚ) ≤ 2 ^ k := one_le_pow₀ (by norm_num)
  unfold Dbl.round
  by_cases h1 : |q| < 1 / 2 ^ 1022
  · rw [if_pos h1]
    refine ⟨_, rfl, ?_⟩
    have e : (2 : ℚ) ^ 1074 = 2 ^ 1022 * 2 ^ 52 := by rw [← pow_add]
    have hA : (0 : ℚ) < 2 ^ 1022 := by positivity
    have hA1 : (1 : ℚ) ≤ 2 ^ 1022 := one_le_pow₀ (by norm_num)
    rw [e]
    generalize (2 : ℚ) ^ 1022 = A at h1 hA hA1
    obtain ⟨l, u⟩ := abs_lt.1 h1
    have hu : q * (A * 2 ^ 52) ≤ ((2 ^ 52 : ℤ) : ℚ) := by
      have : q * A < 1 := by
        have := mul_lt_mul_of_pos_right u hA
        rwa [one_div, inv_mul_cancel₀ hA.ne'] at this
      push_cast
      nlinarith
    have hl : ((-(2 ^ 52) : ℤ) : ℚ) ≤ q * (A * 2 ^ 52) := by
      have : -1 < q * A := by
        have := mul_lt_mul_of_pos_right l hA
        rwa [neg_mul, one_div, inv_mul_cancel₀ hA.ne'] at this
      push_cast
      nlinarith
    have hu2 := roundHalfEven_mono hu
    have hl2 := roundHalfEven_mono hl
    rw [roundHalfEven_intCast] at hu2 hl2
    have hu3 : ((roundHalfEven (q * (A * 2 ^ 52)) : ℤ) : ℚ) ≤ 2 ^ 52 := by exact_mod_cast hu2
    have hl3 : -(2 ^ 52 : ℚ) ≤ ((roundHalfEven (q * (A * 2 ^ 52)) : ℤ) : ℚ) := by
      exact_mod_cast hl2
    have hpos : (0 : ℚ) < A * 2 ^ 52 := mul_pos hA (pow_pos (by norm_num) 52)
    rw [abs_div, abs_of_pos hpos, div_le_iff₀ hpos]
    have : |((roundHalfEven (q * (A * 2 ^ 52)) : ℤ) : ℚ)| ≤ 2 ^ 52 := abs_le.2 ⟨hl3, hu3⟩
    have h52 : (0 : ℚ) < 2 ^ 52 := by positivity
    nlinarith
  · rw [if_neg h1]
    have hb := f64_abs_le_two_pow k q h
    have hlt : ¬ (2 : ℚ) ^ 1024 ≤ |f64 q| := by
      have h2 : (2 : ℚ) ^ k ≤ 2 ^ 1023 := pow_le_pow_right₀ (by norm_num) hk
      have h3 : (2 : ℚ) ^ 1023 < 2 ^ 1024 := pow_lt_pow_right₀ (by norm_num) (by norm_num)
      intro hc
      linarith
    rw [if_neg hlt]
    exact ⟨_, rfl, hb⟩

/-- An exact result of at least `2 ^ (-1074)` rounds to a finite double of at
least `2 ^ (-1074)`, or overflows to `+inf`. -/
theorem dbl_round_pos (q : ℚ) (h : 1 / 2 ^ 1074 ≤ q) :
    (∃ r, Dbl.round q = Dbl.fin r ∧ 1 / 2 ^ 1074 ≤ r) ∨ Dbl.round q = Dbl.inf false := by
  have hT : (0 : ℚ) < 2 ^ 1074 := by positivity
  have hq : 0 < q := lt_of_lt_of_le (by positivity) h
  unfold Dbl.round
  by_cases h1 : |q| < 1 / 2 ^ 1022
  · rw [if_pos h1]
    left
    refine ⟨_, rfl, ?_⟩
    have h2 : ((1 : ℤ) : ℚ) ≤ q * 2 ^ 1074 := by
      have := mul_le_mul_of_nonneg_right h hT.le
      rwa [one_div, inv_mul_cancel₀ hT.ne'] at this
    have h3 := roundHalfEven_mono h2
    rw [roundHalfEven_intCast] at h3
    have h4 : ((1 : ℤ) : ℚ) ≤ ((roundHalfEven (q * 2 ^ 1074) : ℤ) : ℚ) := Int.cast_le.2 h3
    rw [Int.cast_one] at h4
    exact div_le_div_of_nonneg_right h4 hT.le
  · rw [if_neg h1]
    by_cases h2 : (2 : ℚ) ^ 1024 ≤ |f64 q|
    · rw [if_pos h2]
      right
      have : ¬ q < 0 := not_lt.2 hq.le
      simp [this]
    · rw [if_neg h2]
      left
      refine ⟨_, rfl, ?_⟩
      rw [abs_of_pos hq] at h1
      have h3 := f64_mono (not_lt.1 h1)
      rw [f64_inv_two_pow] at h3
      have h4 : (1 : ℚ) / 2 ^ 1074 ≤ 1 / 2 ^ 1022 :=
        one_div_le_one_div_of_le (by positivity) (pow_le_pow_right₀ (by norm_num) (by norm_num))
      linarith

/-- An exact result that is not negative rounds to a finite double that is not
negative, or overflows to `+inf`. -/
theorem dbl_round_nonneg (q : ℚ) (h : 0 ≤ q) :
    (∃ r, Dbl.round q = Dbl.fin r ∧ 0 ≤ r) ∨ Dbl.round q = Dbl.inf false := by
  have hT : (0 : ℚ) < 2 ^ 1074 := by positivity
  unfold Dbl.round
  by_cases h1 : |q| < 1 / 2 ^ 1022
  · rw [if_pos h1]
    left
    refine ⟨_, rfl, ?_⟩
    have h2 : ((0 : ℤ) : ℚ) ≤ q * 2 ^ 1074 := by
      push_cast
      exact mul_nonneg h hT.le
    have h3 := roundHalfEven_mono h2
    rw [roundHalfEven_intCast] at h3
    have h4 : ((0 : ℤ) : ℚ) ≤ ((roundHalfEven (q * 2 ^ 1074) : ℤ) : ℚ) := Int.cast_le.2 h3
    rw [Int.cast_zero] at h4
    exact div_nonneg h4 hT.le
  · rw [if_neg h1]
    by_cases h2 : (2 : ℚ) ^ 1024 ≤ |f64 q|
    · rw [if_pos h2]
      right
      have : ¬ q < 0 := not_lt.2 h
      simp [this]
    · rw [if_neg h2]
      left
      exact ⟨_, rfl, f64_nonneg h⟩

/-- A rounded result below 4 comes from an exact result below 4. -/
theorem dbl_round_lt_four (q : ℚ) (h : (Dbl.round q).lt (Dbl.fin 4) = true) : q < 4 := by
  by_contra hc
  push_neg at hc
  have hq : 0 < q := by linarith
  have h1 : ¬ |q| < 1 / 2 ^ 1022 := by
    rw [abs_of_pos hq]
    have : (1 : ℚ) / 2 ^ 1022 ≤ 1 := by
      rw [div_le_iff₀ (by positivity)]
      have : (1 : ℚ) ≤ 2 ^ 1022 := one_le_pow₀ (by norm_num)
      linarith
    intro hlt
    linarith
  unfold Dbl.round at h
  rw [if_neg h1] at h
  by_cases h2 : (2 : ℚ) ^ 1024 ≤ |f64 q|
  · rw [if_pos h2] at h
    have : ¬ q < 0 := not_lt.2 hq.le
    simp [this, Dbl.lt] at h
  · rw [if_neg h2] at h
    have h3 := f64_mono hc
    have e4 : f64 4 = 4 := by
      have := f64_two_pow 2
      norm_num at this
      exact this
    rw [e4] at h3
    simp only [Dbl.lt, decide_eq_true_eq] at h
    linarith

theorem dbl_round_zero : Dbl.round 0 = Dbl.fin 0 := by
  unfold Dbl.round
  rw [if_pos (by rw [abs_zero]; positivity)]
  have e : roundHalfEven ((0 : ℚ) * 2 ^ 1074) = 0 := by
    rw [zero_mul]
    exact roundHalfEven_intCast 0
  rw [e]
  simp

/-- An `int` converts to `double` exactly. -/
theorem dbl_ofInt (n : ℤ) (h : |n| < 2 ^ 53) : Dbl.ofInt n = Dbl.fin n := by
  unfold Dbl.ofInt
  by_cases h0 : n = 0
  · subst h0
    simpa using dbl_round_zero
  have h1 : (1 : ℚ) ≤ |(n : ℚ)| := by
    have : (1 : ℤ) ≤ |n| := Int.one_le_abs h0
    exact_mod_cast this
  have hsub : ¬ |(n : ℚ)| < 1 / 2 ^ 1022 := by
    have : (1 : ℚ) / 2 ^ 1022 ≤ 1 := by
      rw [div_le_iff₀ (by positivity)]
      have : (1 : ℚ) ≤ 2 ^ 1022 := one_le_pow₀ (by norm_num)
      linarith
    intro hlt
    linarith
  have e := roundBin_intCast 53 n h
  have hb : ¬ (2 : ℚ) ^ 1024 ≤ |f64 (n : ℚ)| := by
    unfold f64
    rw [e]
    have h2 : |(n : ℚ)| < 2 ^ 53 := by exact_mod_cast h
    have h3 : (2 : ℚ) ^ 53 ≤ 2 ^ 1024 := pow_le_pow_right₀ (by norm_num) (by norm_num)
    intro hc
    linarith
  unfold Dbl.round
  rw [if_neg hsub, if_neg hb]
  unfold f64
  rw [e]

/-- The square of a double that is not NaN is a finite double that is not
negative, or `+inf`. -/
theorem dbl_square (d : Dbl) (h : d ≠ Dbl.nan) :
    (∃ r, d.mul d = Dbl.fin r ∧ 0 ≤ r) ∨ d.mul d = Dbl.inf false := by
  cases d with
  | fin a => exact dbl_round_nonneg (a * a) (mul_self_nonneg a)
  | inf s => right; cases s <;> rfl
  | nan => exact absurd rfl h

theorem sumSquares_ne_nan (s : EscapeState) (hx : s.zx ≠ Dbl.nan) (hy : s.zy ≠ Dbl.nan) :
    sumSquares s ≠ Dbl.nan := by
  unfold sumSquares
  rcases dbl_square s.zx hx with ⟨r1, e1, _⟩ | e1 <;>
    rcases dbl_square s.zy hy with ⟨r2, e2, _⟩ | e2 <;> rw [e1, e2]
  · exact dbl_round_ne_nan _
  · simp [Dbl.add]
  · simp [Dbl.add]
  · simp [Dbl.add]

/-- When the loop condition holds, `zx` and `zy` are finite, their exact squares
are below 4, and the rounded squares are finite, not negative and of a sum
below 4. -/
theorem escapeCond_finite (s : EscapeState) (h : (sumSquares s).lt (Dbl.fin 4) = true) :
    ∃ a b r1 r2 : ℚ, s.zx = Dbl.fin a ∧ s.zy = Dbl.fin b ∧ a * a < 4 ∧
      Dbl.round (a * a) = Dbl.fin r1 ∧ Dbl.round (b * b) = Dbl.fin r2 ∧
      0 ≤ r1 ∧ 0 ≤ r2 ∧ r1 + r2 < 4 := by
  have hx : s.zx ≠ Dbl.nan := by
    intro e
    unfold sumSquares at h
    rw [e] at h
    simp [Dbl.mul, Dbl.add, Dbl.lt] at h
  have hy : s.zy ≠ Dbl.nan := by
    intro e
    unfold sumSquares at h
    rw [e] at h
    cases hm : s.zx.mul s.zx <;> rw [hm] at h <;> simp [Dbl.mul, Dbl.add, Dbl.lt] at h
  unfold sumSquares at h
  rcases dbl_square s.zx hx with ⟨r1, e1, p1⟩ | e1 <;>
    rcases dbl_square s.zy hy with ⟨r2, e2, p2⟩ | e2
  · rw [e1, e2] at h
    have hsum : r1 + r2 < 4 := dbl_round_lt_four _ h
    cases hzx : s.zx with
    | nan => exact absurd hzx hx
    | inf t => rw [hzx] at e1; simp [Dbl.mul] at e1
    | fin a =>
      cases hzy : s.zy with
      | nan => exact absurd hzy hy
      | inf t => rw [hzy] at e2; simp [Dbl.mul] at e2
      | fin b =>
        rw [hzx] at e1
        rw [hzy] at e2
        have e1r : Dbl.round (a * a) = Dbl.fin r1 := e1
        have e2r : Dbl.round (b * b) = Dbl.fin r2 := e2
        have ha : a * a < 4 := by
          apply dbl_round_lt_four
          rw [e1r]
          simp only [Dbl.lt, decide_eq_true_eq]
          linarith
        exact ⟨a, b, r1, r2, rfl, rfl, ha, e1r, e2r, p1, p2, hsum⟩
  · rw [e1, e2] at h; simp [Dbl.add, Dbl.lt] at h
  · rw [e1, e2] at h; simp [Dbl.add, Dbl.lt] at h
  · rw [e1, e2] at h; simp [Dbl.add, Dbl.lt] at h

theorem dbl_add_fin_ne_nan (a : ℚ) (d : Dbl) (h : d ≠ Dbl.nan) : (Dbl.fin a).add d ≠ Dbl.nan := by
  cases d with
  | fin b => exact dbl_round_ne_nan _
  | inf t => simp [Dbl.add]
  | nan => exact absurd rfl h

theorem dbl_add_ne_nan_fin (d : Dbl) (a : ℚ) (h : d ≠ Dbl.nan) : d.add (Dbl.fin a) ≠ Dbl.nan := by
  cases d with
  | fin b => exact dbl_round_ne_nan _
  | inf t => simp [Dbl.add]
  | nan => exact absurd rfl h

theorem dbl_mul_fin_ne_nan (a : ℚ) (ha : a ≠ 0) (d : Dbl) (h : d ≠ Dbl.nan) :
    (Dbl.fin a).mul d ≠ Dbl.nan := by
  cases d with
  | fin b => exact dbl_round_ne_nan _
  | inf t => simp [Dbl.mul, ha]
  | nan => exact absurd rfl h

/-- The term `0.1 * sin(time * 0.05)` is not NaN for an `int` value of `time`. -/
theorem wobble_ne_nan (L : Lib) (time : ℤ) (ht : |time| ≤ 2 ^ 31) :
    (Dbl.round (1 / 10)).mul (Dbl.sin L ((Dbl.ofInt time).mul (Dbl.round (5 / 100)))) ≠
      Dbl.nan := by
  have htq : |(time : ℚ)| ≤ 2 ^ 31 := by exact_mod_cast ht
  rw [dbl_ofInt time (lt_of_le_of_lt ht (by norm_num))]
  obtain ⟨c5, e5, b5⟩ := dbl_round_fin_of_abs_le 0 (by norm_num) (5 / 100)
    (by rw [abs_of_pos (by norm_num)]; norm_num)
  rw [e5]
  have hprod : |(time : ℚ) * c5| ≤ 2 ^ 31 := by
    rw [abs_mul]
    rw [pow_zero] at b5
    calc |(time : ℚ)| * |c5| ≤ 2 ^ 31 * 1 :=
          mul_le_mul htq b5 (abs_nonneg _) (by positivity)
      _ = 2 ^ 31 := by ring
  obtain ⟨u, eu, _⟩ := dbl_round_fin_of_abs_le 31 (by norm_num) _ hprod
  have em : (Dbl.fin (time : ℚ)).mul (Dbl.fin c5) = Dbl.fin u := eu
  rw [em]
  have es : Dbl.sin L (Dbl.fin u) = Dbl.round (L.sin u) := rfl
  rw [es]
  obtain ⟨c1, e1, _⟩ := dbl_round_fin_of_abs_le 0 (by norm_num) (1 / 10)
    (by rw [abs_of_pos (by norm_num)]; norm_num)
  have hc1 : c1 ≠ 0 := by
    rcases dbl_round_pos (1 / 10) (by
      have : (1 : ℚ) / 2 ^ 1074 ≤ 1 / 2 ^ 4 :=
        one_div_le_one_div_of_le (by positivity) (pow_le_pow_right₀ (by norm_num) (by norm_num))
      have : (1 : ℚ) / 2 ^ 4 ≤ 1 / 10 := by norm_num
      linarith) with ⟨r, er, hr⟩ | er
    · rw [e1] at er
      have : c1 = r := by injection er
      rw [this]
      have : (0 : ℚ) < 1 / 2 ^ 1074 := by positivity
      linarith
    · rw [e1] at er
      exact absurd er (by simp)
  rw [e1]
  exact dbl_mul_fin_ne_nan c1 hc1 _ (dbl_round_ne_nan _)

/-- An iteration of the loop that its condition admits gives no NaN. -/
theorem escapeStep_ne_nan (L : Lib) (time : ℤ) (ht : |time| ≤ 2 ^ 31) (s : EscapeState)
    (h : escapeCond s) :
    (escapeStep L time s).zx ≠ Dbl.nan ∧ (escapeStep L time s).zy ≠ Dbl.nan := by
  obtain ⟨a, b, r1, r2, hzx, hzy, ha, e1, e2, p1, p2, hsum⟩ := escapeCond_finite s h.1
  have hx2 : s.zx.mul s.zx = Dbl.fin r1 := by rw [hzx]; exact e1
  have hy2 : s.zy.mul s.zy = Dbl.fin r2 := by rw [hzy]; exact e2
  constructor
  · show ((((s.zx.mul s.zx).sub (s.zy.mul s.zy)).add (Dbl.round (-7 / 10))).add
      ((Dbl.round (1 / 10)).mul (Dbl.sin L ((Dbl.ofInt time).mul (Dbl.round (5 / 100)))))) ≠
        Dbl.nan
    rw [hx2, hy2]
    have hd : |r1 + -r2| ≤ 2 ^ 2 := by
      rw [abs_le]; constructor <;> norm_num <;> linarith
    obtain ⟨d, ed, bd⟩ := dbl_round_fin_of_abs_le 2 (by norm_num) _ hd
    have esub : (Dbl.fin r1).sub (Dbl.fin r2) = Dbl.fin d := ed
    rw [esub]
    obtain ⟨c, ec, bc⟩ := dbl_round_fin_of_abs_le 0 (by norm_num) (-7 / 10)
      (by rw [abs_of_neg (by norm_num)]; norm_num)
    rw [ec]
    have hdc : |d + c| ≤ 2 ^ 3 := by
      have := abs_add d c
      rw [pow_zero] at bc
      have e4 : (2 : ℚ) ^ 2 = 4 := by norm_num
      have e8 : (2 : ℚ) ^ 3 = 8 := by norm_num
      rw [e4] at bd
      rw [e8]
      linarith
    obtain ⟨A, eA, _⟩ := dbl_round_fin_of_abs_le 3 (by norm_num) _ hdc
    have eadd : (Dbl.fin d).add (Dbl.fin c) = Dbl.fin A := eA
    rw [eadd]
    exact dbl_add_fin_ne_nan A _ (wobble_ne_nan L time ht)
  · show (((Dbl.fin 2).mul s.zx).mul s.zy).add (Dbl.round (27015 / 100000)) ≠ Dbl.nan
    rw [hzx, hzy]
    have hab : |a| < 2 := by
      by_contra hc
      push_neg at hc
      have := abs_mul_abs_self a
      nlinarith
    have h2a : |2 * a| ≤ 2 ^ 2 := by
      rw [abs_mul, abs_of_pos (by norm_num : (0 : ℚ) < 2)]
      norm_num
      linarith
    obtain ⟨e, ee, _⟩ := dbl_round_fin_of_abs_le 2 (by norm_num) _ h2a
    have em : (Dbl.fin 2).mul (Dbl.fin a) = Dbl.fin e := ee
    rw [em]
    obtain ⟨c, ec, _⟩ := dbl_round_fin_of_abs_le 0 (by norm_num) (27015 / 100000)
      (by rw [abs_of_pos (by norm_num)]; norm_num)
    rw [ec]
    apply dbl_add_ne_nan_fin
    exact dbl_round_ne_nan _

theorem escapeLoop_ne_nan (L : Lib) (time : ℤ) (ht : |time| ≤ 2 ^ 31) (fuel : ℕ)
    (s : EscapeState) (hx : s.zx ≠ Dbl.nan) (hy : s.zy ≠ Dbl.nan) :
    (escapeLoop L time fuel s).zx ≠ Dbl.nan ∧ (escapeLoop L time fuel s).zy ≠ Dbl.nan := by
  induction fuel generalizing s with
  | zero => exact ⟨hx, hy⟩
  | succ n ih =>
    unfold escapeLoop
    by_cases hc : escapeCond s
    · rw [if_pos hc]
      obtain ⟨h1, h2⟩ := escapeStep_ne_nan L time ht s hc
      exact ih _ h1 h2
    · rw [if_neg hc]; exact ⟨hx, hy⟩

/-- For a `zoom` of at least `2 ^ (-1073)`, `+inf` included, the divisor
`0.5 * zoom * w` is a finite double other than 0, or `+inf`. -/
theorem divisor_pos (zoom : Dbl) (hz : zoom.ge (Dbl.fin (1 / 2 ^ 1073)) = true) :
    (∃ d, ((Dbl.fin (1 / 2)).mul zoom).mul (Dbl.ofInt 512) = Dbl.fin d ∧ d ≠ 0) ∨
    ((Dbl.fin (1 / 2)).mul zoom).mul (Dbl.ofInt 512) = Dbl.inf false := by
  rw [dbl_ofInt 512 (by norm_num)]
  cases zoom with
  | nan => simp [Dbl.ge] at hz
  | inf s =>
    cases s
    · right
      have e1 : (Dbl.fin (1 / 2)).mul (Dbl.inf false) = Dbl.inf false := by
        have h0 : ¬ ((1 : ℚ) / 2 = 0) := by norm_num
        have h1 : ¬ ((1 : ℚ) / 2 < 0) := by norm_num
        simp only [Dbl.mul, if_neg h0, h1, decide_False, Bool.xor_false]
      have e2 : (Dbl.inf false).mul (Dbl.fin ((512 : ℤ) : ℚ)) = Dbl.inf false := by
        have h0 : ¬ (((512 : ℤ) : ℚ) = 0) := by norm_num
        have h1 : ¬ (((512 : ℤ) : ℚ) < 0) := by norm_num
        simp only [Dbl.mul, if_neg h0, h1, decide_False, Bool.xor_false]
      rw [e1, e2]
    · simp [Dbl.ge] at hz
  | fin zoom =>
  simp only [Dbl.ge, decide_eq_true_eq] at hz
  have hT : (0 : ℚ) < 1 / 2 ^ 1074 := by positivity
  have hhalf : (1 : ℚ) / 2 ^ 1074 ≤ 1 / 2 * zoom := by
    have e : (1 : ℚ) / 2 ^ 1074 = 1 / 2 * (1 / 2 ^ 1073) := by
      rw [pow_succ]; field_simp; ring
    rw [e]
    exact mul_le_mul_of_nonneg_left hz (by norm_num)
  have em : (Dbl.fin (1 / 2)).mul (Dbl.fin zoom) = Dbl.round (1 / 2 * zoom) := rfl
  rw [em]
  rcases dbl_round_pos _ hhalf with ⟨d1, e1, h1⟩ | e1
  · rw [e1]
    have h512 : (1 : ℚ) / 2 ^ 1074 ≤ d1 * ((512 : ℤ) : ℚ) := by
      push_cast
      nlinarith
    have em2 : (Dbl.fin d1).mul (Dbl.fin ((512 : ℤ) : ℚ)) = Dbl.round (d1 * ((512 : ℤ) : ℚ)) := rfl
    rw [em2]
    rcases dbl_round_pos _ h512 with ⟨d2, e2, h2⟩ | e2
    · left
      exact ⟨d2, e2, by intro h0; rw [h0] at h2; linarith⟩
    · right; exact e2
  · rw [e1]
    right
    simp [Dbl.mul]

theorem dbl_div_ne_nan (n : ℚ) (D : Dbl)
    (hD : (∃ d, D = Dbl.fin d ∧ d ≠ 0) ∨ D = Dbl.inf false) : (Dbl.fin n).div D ≠ Dbl.nan := by
  rcases hD with ⟨d, e, hd⟩ | e
  · rw [e]
    simp only [Dbl.div, if_neg hd]
    exact dbl_round_ne_nan _
  · rw [e]
    simp [Dbl.div]

/-- For a `zoom` of at least `2 ^ (-1073)`, `+inf` included, the start
coordinates of every canvas pixel are not NaN. -/
theorem start_ne_nan (zoom : Dbl) (hz : zoom.ge (Dbl.fin (1 / 2 ^ 1073)) = true) (x y : ℕ)
    (hx : x < canvasWidth)
    (hy : y < canvasHeight) : startX zoom x ≠ Dbl.nan ∧ startY zoom y ≠ Dbl.nan := by
  have ew : ((canvasWidth : ℕ) : ℤ) = 512 := rfl
  have eh : ((canvasHeight : ℕ) : ℤ) = 512 := rfl
  have hx2 : (x : ℤ) < 512 := by rw [← ew]; exact_mod_cast hx
  have hy2 : (y : ℤ) < 512 := by rw [← eh]; exact_mod_cast hy
  have hD := divisor_pos zoom hz
  constructor
  · unfold startX
    simp only [ew]
    have hb : |(x : ℤ) - 512 / 2| < 2 ^ 53 := by
      rw [abs_lt]; constructor <;> omega
    rw [dbl_ofInt _ hb]
    have hn : |(3 / 2 : ℚ) * (((x : ℤ) - 512 / 2 : ℤ) : ℚ)| ≤ 2 ^ 10 := by
      have h1 : |(((x : ℤ) - 512 / 2 : ℤ) : ℚ)| ≤ 256 := by
        have : |(x : ℤ) - 512 / 2| ≤ 256 := by
          rw [abs_le]; constructor <;> omega
        exact_mod_cast this
      rw [abs_mul, abs_of_pos (by norm_num : (0 : ℚ) < 3 / 2)]
      norm_num at h1 ⊢
      linarith
    obtain ⟨n, en, _⟩ := dbl_round_fin_of_abs_le 10 (by norm_num) _ hn
    have em : (Dbl.fin (3 / 2)).mul (Dbl.fin (((x : ℤ) - 512 / 2 : ℤ) : ℚ)) = Dbl.fin n := en
    rw [em]
    exact dbl_div_ne_nan n _ hD
  · unfold startY
    simp only [eh]
    have hb : |(y : ℤ) - 512 / 2| < 2 ^ 53 := by
      rw [abs_lt]; constructor <;> omega
    rw [dbl_ofInt _ hb]
    exact dbl_div_ne_nan _ _ hD

theorem dbl_ge_of_not_lt (d : Dbl) (h : d ≠ Dbl.nan) (hlt : ¬ d.lt (Dbl.fin 4) = true) :
    d.ge (Dbl.fin 4) = true := by
  cases d with
  | fin a =>
    simp only [Dbl.lt, decide_eq_true_eq, not_lt] at hlt
    simp only [Dbl.ge, decide_eq_true_eq]
    exact hlt
  | inf s =>
    cases s
    · rfl
    · exact absurd rfl hlt
  | nan => exact absurd rfl h

/-- C10, as amended. For every zoom of at least `2 ^ (-1073)` (every positive
double, `+inf` included, but the smallest, `2 ^ (-1074)`), every `int` time
value and every pixel of the canvas, the escape loop of `generateFractal` stops after at most 255
iterations: the run with 255 units of fuel ends with the loop condition false,
its iteration count `i` satisfies `0 ≤ i ≤ 255` and is written to the red,
green and blue of the pixel (alpha 255), and whenever `i < 255` the final point
satisfies `zx*zx + zy*zy >= 4` as the code computes it in doubles. -/
theorem generateFractal_escape (L : Lib) (zoom : Dbl) (time : ℤ) (fresh : ℤ → ℤ → QRgb)
    (x y : ℕ) (hz : zoom.ge (Dbl.fin (1 / 2 ^ 1073)) = true) (ht : |time| ≤ 2 ^ 31)
    (hx : x < canvasWidth) (hy : y < canvasHeight) :
    ¬ escapeCond (escape L zoom time x y) ∧
    (escape L zoom time x y).i ≤ 255 ∧
    ((generateFractal L zoom time fresh).pix x y).alpha = 255 ∧
    (((generateFractal L zoom time fresh).pix x y).red : ℕ) = (escape L zoom time x y).i ∧
    (((generateFractal L zoom time fresh).pix x y).green : ℕ) = (escape L zoom time x y).i ∧
    (((generateFractal L zoom time fresh).pix x y).blue : ℕ) = (escape L zoom time x y).i ∧
    ((escape L zoom time x y).i < 255 →
      (sumSquares (escape L zoom time x y)).ge (Dbl.fin 4) = true) := by
  have hdone : ¬ escapeCond (escape L zoom time x y) := by
    unfold escape
    exact escapeLoop_done L time 255 _ (by show 255 ≤ 0 + 255; omega)
  have hle : (escape L zoom time x y).i ≤ 255 := by
    unfold escape
    exact escapeLoop_i_le L time 255 _ (by show 0 ≤ 255; omega)
  have hnan : (escape L zoom time x y).zx ≠ Dbl.nan ∧ (escape L zoom time x y).zy ≠ Dbl.nan := by
    obtain ⟨s1, s2⟩ := start_ne_nan zoom hz x y hx hy
    unfold escape
    exact escapeLoop_ne_nan L time ht 255 _ s1 s2
  obtain ⟨ha, hr, hg, hb⟩ := qRgb_gray _ hle
  have hp : (generateFractal L zoom time fresh).pix x y
      = qRgb (escape L zoom time x y).i (escape L zoom time x y).i (escape L zoom time x y).i := by
    rw [(generateFractal_pix L zoom time fresh).2.2 x y, if_pos]
    · simp only [Int.toNat_natCast]
    · exact ⟨by omega, by exact_mod_cast hx, by omega, by exact_mod_cast hy⟩
  rw [hp]
  refine ⟨hdone, hle, ha, hr, hg, hb, fun hi => ?_⟩
  apply dbl_ge_of_not_lt _ (sumSquares_ne_nan _ hnan.1 hnan.2)
  intro hlt
  exact hdone ⟨hlt, hi⟩

theorem one_ge_tiny : (Dbl.fin 1).ge (Dbl.fin (1 / 2 ^ 1073)) = true := by
  simp only [Dbl.ge, decide_eq_true_eq]
  exact div_le_one_of_le₀ (one_le_pow₀ (by norm_num)) (by positivity)

theorem generateFractal_escape_witness :
    (Dbl.fin 1).ge (Dbl.fin (1 / 2 ^ 1073)) = true ∧ |(0 : ℤ)| ≤ 2 ^ 31 ∧
    256 < canvasWidth ∧ 256 < canvasHeight ∧
    (escape exampleLib (Dbl.fin 1) 0 256 256).i ≤ 255 ∧
    (((generateFractal exampleLib (Dbl.fin 1) 0 (fun _ _ => blackPixel)).pix (256 : ℕ)
      (256 : ℕ)).red : ℕ) = (escape exampleLib (Dbl.fin 1) 0 256 256).i ∧
    ((escape exampleLib (Dbl.fin 1) 0 256 256).i < 255 →
      (sumSquares (escape exampleLib (Dbl.fin 1) 0 256 256)).ge (Dbl.fin 4) = true) :=
  ⟨one_ge_tiny, by norm_num, by decide, by decide,
    (generateFractal_escape exampleLib (Dbl.fin 1) 0 (fun _ _ => blackPixel) 256 256
      one_ge_tiny (by norm_num) (by decide) (by decide)).2.1,
    (generateFractal_escape exampleLib (Dbl.fin 1) 0 (fun _ _ => blackPixel) 256 256
      one_ge_tiny (by norm_num) (by decide) (by decide)).2.2.2.1,
    (generateFractal_escape exampleLib (Dbl.fin 1) 0 (fun _ _ => blackPixel) 256 256
      one_ge_tiny (by norm_num) (by decide) (by decide)).2.2.2.2.2.2⟩

theorem dbl_round_half_tiny : Dbl.round (1 / 2 * (1 / 2 ^ 1074)) = Dbl.fin 0 := by
  have hT : (0 : ℚ) < 2 ^ 1074 := by positivity
  have hsub : |(1 : ℚ) / 2 * (1 / 2 ^ 1074)| < 1 / 2 ^ 1022 := by
    rw [abs_of_pos (by positivity)]
    have h1 : (1 : ℚ) / 2 ^ 1074 ≤ 1 / 2 ^ 1022 :=
      one_div_le_one_div_of_le (by positivity) (pow_le_pow_right₀ (by norm_num) (by norm_num))
    have h2 : (0 : ℚ) < 1 / 2 ^ 1074 := by positivity
    linarith
  unfold Dbl.round
  rw [if_pos hsub]
  have e : (1 : ℚ) / 2 * (1 / 2 ^ 1074) * 2 ^ 1074 = ((0 : ℤ) : ℚ) + 1 / 2 := by
    rw [mul_assoc, one_div_mul_cancel hT.ne']
    norm_num
  rw [e, roundHalfEven_tie 0 (by norm_num)]
  simp

/-- C10 fails as stated: for the smallest positive double `zoom = 2 ^ (-1074)`
the product `0.5 * zoom` rounds to 0, the start coordinates of the pixel
`(256, 256)` are `0 / 0`, NaN, the loop stops at once with `i = 0 < 255`, and
the comparison `zx*zx + zy*zy >= 4` is false at the final point. -/
theorem generateFractal_tiny_zoom_counterexample :
    (Dbl.fin 0).lt (Dbl.fin (1 / 2 ^ 1074)) = true ∧ 256 < canvasWidth ∧ 256 < canvasHeight ∧
    startX (Dbl.fin (1 / 2 ^ 1074)) 256 = Dbl.nan ∧
    startY (Dbl.fin (1 / 2 ^ 1074)) 256 = Dbl.nan ∧
    escape exampleLib (Dbl.fin (1 / 2 ^ 1074)) 0 256 256 = ⟨Dbl.nan, Dbl.nan, 0⟩ ∧
    (escape exampleLib (Dbl.fin (1 / 2 ^ 1074)) 0 256 256).i < 255 ∧
    (sumSquares (escape exampleLib (Dbl.fin (1 / 2 ^ 1074)) 0 256 256)).ge (Dbl.fin 4) =
      false := by
  have ew : ((canvasWidth : ℕ) : ℤ) = 512 := rfl
  have eh : ((canvasHeight : ℕ) : ℤ) = 512 := rfl
  have e0 : ((256 : ℕ) : ℤ) - 512 / 2 = 0 := by norm_num
  have eD : ((Dbl.fin (1 / 2)).mul (Dbl.fin (1 / 2 ^ 1074))).mul (Dbl.ofInt 512) = Dbl.fin 0 := by
    have em : (Dbl.fin (1 / 2)).mul (Dbl.fin (1 / 2 ^ 1074)) =
        Dbl.round (1 / 2 * (1 / 2 ^ 1074)) := rfl
    rw [em, dbl_round_half_tiny, dbl_ofInt 512 (by norm_num)]
    have em2 : (Dbl.fin 0).mul (Dbl.fin ((512 : ℤ) : ℚ)) = Dbl.round (0 * ((512 : ℤ) : ℚ)) := rfl
    rw [em2, zero_mul, dbl_round_zero]
  have sx : startX (Dbl.fin (1 / 2 ^ 1074)) 256 = Dbl.nan := by
    unfold startX
    simp only [ew, e0]
    rw [eD, dbl_ofInt 0 (by norm_num)]
    have em : (Dbl.fin (3 / 2)).mul (Dbl.fin ((0 : ℤ) : ℚ)) = Dbl.round (3 / 2 * ((0 : ℤ) : ℚ)) :=
      rfl
    rw [em, Int.cast_zero, mul_zero, dbl_round_zero]
    simp [Dbl.div]
  have sy : startY (Dbl.fin (1 / 2 ^ 1074)) 256 = Dbl.nan := by
    unfold startY
    simp only [eh, e0]
    rw [eD, dbl_ofInt 0 (by norm_num)]
    simp [Dbl.div]
  have hc : ¬ escapeCond ⟨Dbl.nan, Dbl.nan, 0⟩ := by
    intro h
    have := h.1
    simp [sumSquares, Dbl.mul, Dbl.add, Dbl.lt] at this
  have he : escape exampleLib (Dbl.fin (1 / 2 ^ 1074)) 0 256 256 = ⟨Dbl.nan, Dbl.nan, 0⟩ := by
    unfold escape
    rw [sx, sy]
    unfold escapeLoop
    rw [if_neg hc]
  have hpos : (Dbl.fin 0).lt (Dbl.fin (1 / 2 ^ 1074)) = true := by
    simp only [Dbl.lt, decide_eq_true_eq]
    positivity
  refine ⟨hpos, by decide, by decide, sx, sy, he, ?_, ?_⟩
  · rw [he]; show (0 : ℕ) < 255; norm_num
  · rw [he]; rfl

end QtPowerGoo
